import Mathlib

/-!
# GeeCache: the LRU+TTL store and the group load pipeline

A shallow embedding of `geecache/lru/lru.go`, `geecache/cache.go` and
`geecache/geecache.go`, and theorems about it.

Modelling conventions.

* `time.Time` is an integer number of nanoseconds on one timeline (`Time`);
  `t.Before(u)` is `t < u` and `t.Add(d)` is `t + d`.
* `time.Duration` is an `int64` number of nanoseconds.  The only arithmetic on
  durations in the source is `ttl + time.Duration(rand.Intn(60))*time.Second`,
  whose `int64` addition wraps; it is embedded with `wrap64`.
* `rand.Intn(60)` is a parameter `jitter : Fin 60`.
* every call of `time.Now()` is a parameter: `now` for the single reading of
  `Get` and the first reading of `Add`, and a family of readings `clk` for the
  readings taken by the scan of `RemoveOldest`.
* a Go `string` is a Lean `String`; `len(s)` is its size in bytes,
  `String.utf8ByteSize`.
* byte counts (`nbytes`, `maxBytes`) are integers; `Value.Len` counts the bytes
  a value takes, as the interface says, and is a natural number.  The sizes of
  the values held in memory add up to far less than `2^63`, so the `int64`
  counter `nbytes` is not wrapped.
* a `*list.Element` is an `Element`: the identity `id` of the list element
  (its address) together with the `entry` it points to.  The index
  `map[string]*list.Element` holds such references; the two assignments through
  the pointer in `Add` (`kv.value = ...`, `kv.expire = ...`) are applied to
  every reference with that identity (`Cache.store`).
* the optional callback `OnEvicted` is a flag saying whether a callback is
  set, and the sequence of its invocations, oldest first (`evicted`).
* the loop of `Add` is run with fuel: `none` means the loop is still running
  when the fuel is used up.
-/

namespace lru

/-- An instant, in nanoseconds. -/
abbrev Time := Int

/-- A `time.Duration`: nanoseconds, an `int64`. -/
abbrev Duration := Int

/-- The constant `time.Second`. -/
def Second : Duration := 1000000000

/-- The largest `int64`. -/
def MaxInt64 : Int := 9223372036854775807

/-- Two's-complement wrap of an integer to `int64`. -/
def wrap64 (x : Int) : Int := (x + 9223372036854775808) % 18446744073709551616 - 9223372036854775808

/-- Interface `Value`: `Len` counts how many bytes a value takes. -/
class Value (V : Type) where
  /-- Method `Len() int`. -/
  Len : V → Nat

/-- The test type `String` of `lru_test.go`: `Len` is `len(d)`. -/
instance : Value String := ⟨String.utf8ByteSize⟩

/-- Struct `entry`: the data of a list node. -/
structure entry (V : Type) where
  /-- Field `key`. -/
  key : String
  /-- Field `value`. -/
  value : V
  /-- Field `expire`. -/
  expire : Time
deriving DecidableEq, Repr

/-- A `*list.Element`: the identity of the element and the `*entry` in its `Value`. -/
structure Element (V : Type) where
  /-- Identity (address) of the list element. -/
  id : Nat
  /-- Field `Value`, always an `*entry`. -/
  Value : entry V
deriving DecidableEq, Repr

/-- Size accounted for an entry: `len(key) + value.Len()`. -/
def entry.size {V : Type} [Value V] (kv : entry V) : Int :=
  (kv.key.utf8ByteSize : Int) + (Value.Len kv.value : Int)

/-- Go map read `m[key]`. -/
def mapGet {α : Type} (key : String) : List (String × α) → Option α
  | [] => none
  | (k, v) :: rest => if k = key then some v else mapGet key rest

/-- Go `delete(m, key)`. -/
def mapDelete {α : Type} (key : String) (m : List (String × α)) : List (String × α) :=
  m.filter (fun p => decide (p.1 ≠ key))

/-- Go map write `m[key] = v`. -/
def mapSet {α : Type} (key : String) (v : α) (m : List (String × α)) : List (String × α) :=
  (key, v) :: mapDelete key m

/-- Method `(*list.List).MoveToFront`: no change when `e` is not an element of the list. -/
def MoveToFront {V : Type} (l : List (Element V)) (e : Element V) : List (Element V) :=
  match l.find? (fun x => decide (x.id = e.id)) with
  | some x => x :: l.filter (fun y => decide (y.id ≠ e.id))
  | none => l

/-- Method `(*list.List).Remove`. -/
def Remove {V : Type} (l : List (Element V)) (e : Element V) : List (Element V) :=
  l.filter (fun y => decide (y.id ≠ e.id))

/-- Write `kv` through the pointer `id`, seen from one reference. -/
def Element.assign {V : Type} (id : Nat) (kv : entry V) (e : Element V) : Element V :=
  if e.id = id then { e with Value := kv } else e

/-- Struct `Cache`. -/
structure Cache (V : Type) where
  /-- Field `maxBytes`; `0` means no bound. -/
  maxBytes : Int
  /-- Field `nbytes`. -/
  nbytes : Int
  /-- Field `ll`, front first. -/
  ll : List (Element V)
  /-- Field `cache`, the index. -/
  cache : List (String × Element V)
  /-- Field `OnEvicted`: `true` when a callback is set. -/
  OnEvicted : Bool
  /-- The invocations of the callback so far, oldest first. -/
  evicted : List (String × V)
  /-- Field `defaultTTL`. -/
  defaultTTL : Duration
  /-- The identity given to the next element made by `PushFront`. -/
  nextId : Nat
deriving Repr

/-- Function `New`. -/
def New {V : Type} (maxBytes : Int) (onEvicted : Bool) (defaultTTL : Duration) : Cache V :=
  { maxBytes := maxBytes, nbytes := 0, ll := [], cache := [], OnEvicted := onEvicted,
    evicted := [], defaultTTL := defaultTTL, nextId := 0 }

/-- Method `Len`. -/
def Cache.Len {V : Type} (c : Cache V) : Nat := c.ll.length

/-- Assignment through an element pointer: every reference to element `id` sees `kv`. -/
def Cache.store {V : Type} (c : Cache V) (id : Nat) (kv : entry V) : Cache V :=
  { c with
    ll := c.ll.map (Element.assign id kv)
    cache := c.cache.map (fun p => (p.1, Element.assign id kv p.2)) }

/-- Method `RemoveElement`. -/
def Cache.RemoveElement {V : Type} [Value V] (c : Cache V) (ele : Element V) : Cache V :=
  let kv := ele.Value
  { c with
    ll := Remove c.ll ele
    cache := mapDelete kv.key c.cache
    nbytes := c.nbytes - ((kv.key.utf8ByteSize : Int) + (Value.Len kv.value : Int))
    evicted := if c.OnEvicted then c.evicted ++ [(kv.key, kv.value)] else c.evicted }

/-- Method `Get`, with the reading `now` of the clock. -/
def Cache.Get {V : Type} [Value V] (c : Cache V) (key : String) (now : Time) :
    Cache V × Option V :=
  match mapGet key c.cache with
  | some ele =>
    let kv := ele.Value
    if kv.expire < now then (c.RemoveElement ele, none)
    else ({ c with ll := MoveToFront c.ll ele }, some kv.value)
  | none => (c, none)

/-- The scan of `RemoveOldest` over the elements from the back: `clk i` is the clock
reading taken at the `i`-th element visited. The result is the element the scan stops at. -/
def scanExpired {V : Type} : List (Element V) → (Nat → Time) → Option (Element V)
  | [], _ => none
  | ele :: rest, clk =>
    if ele.Value.expire < clk 0 then some ele else scanExpired rest (fun i => clk (i + 1))

/-- Method `RemoveOldest`. -/
def Cache.RemoveOldest {V : Type} [Value V] (c : Cache V) (clk : Nat → Time) : Cache V :=
  match scanExpired c.ll.reverse clk with
  | some ele => c.RemoveElement ele
  | none => c

/-- The loop `for c.maxBytes != 0 && c.maxBytes < c.nbytes { c.RemoveOldest() }`:
`clk n` gives the readings of the `n`-th call of `RemoveOldest`. -/
def evictLoop {V : Type} [Value V] : Nat → Cache V → (Nat → Nat → Time) → Option (Cache V)
  | fuel, c, clk =>
    if c.maxBytes ≠ 0 ∧ c.maxBytes < c.nbytes then
      match fuel with
      | 0 => none
      | fuel + 1 => evictLoop fuel (c.RemoveOldest (clk 0)) (fun n => clk (n + 1))
    else some c

/-- The body of `Add` before its loop. -/
def Cache.AddEntry {V : Type} [Value V] (c : Cache V) (key : String) (value : V)
    (ttl : Duration) (jitter : Fin 60) (now : Time) : Cache V :=
  let expireTime := now + wrap64 (ttl + (jitter.val : Int) * Second)
  match mapGet key c.cache with
  | some ele =>
    let c1 := { c with ll := MoveToFront c.ll ele }
    let kv := ele.Value
    let c2 := { c1 with nbytes := c1.nbytes + ((Value.Len value : Int) - (Value.Len kv.value : Int)) }
    let kv1 := { kv with value := value }
    let kv2 := if kv1.expire < expireTime then { kv1 with expire := expireTime } else kv1
    c2.store ele.id kv2
  | none =>
    let ele : Element V := { id := c.nextId, Value := { key := key, value := value, expire := expireTime } }
    { c with
      ll := ele :: c.ll
      cache := mapSet key ele c.cache
      nbytes := c.nbytes + ((key.utf8ByteSize : Int) + (Value.Len value : Int))
      nextId := c.nextId + 1 }

/-- Method `Add`: `now` is the first clock reading, `clk` the readings of the loop. -/
def Cache.Add {V : Type} [Value V] (c : Cache V) (key : String) (value : V) (ttl : Duration)
    (jitter : Fin 60) (now : Time) (clk : Nat → Nat → Time) (fuel : Nat) : Option (Cache V) :=
  evictLoop fuel (c.AddEntry key value ttl jitter now) clk

/-- Representation invariant of a store: what holds of every store made by `New` and changed
only through `Add`, `Get` and `RemoveOldest` (theorem `WF_run`). -/
structure Cache.WF {V : Type} [Value V] (c : Cache V) : Prop where
  /-- Distinct elements of the list have distinct identities. -/
  ids : (c.ll.map (fun e => e.id)).Nodup
  /-- The identities in use are below the next one to be given out. -/
  fresh : ∀ e ∈ c.ll, e.id < c.nextId
  /-- Every reference in the index is an element of the list, stored under its own key. -/
  sound : ∀ k e, mapGet k c.cache = some e → e ∈ c.ll ∧ e.Value.key = k
  /-- Every element of the list is indexed under its key. -/
  complete : ∀ e ∈ c.ll, mapGet e.Value.key c.cache = some e
  /-- The index holds each key once. -/
  keys : (c.cache.map Prod.fst).Nodup
  /-- The byte counter is the sum of the sizes of the entries. -/
  bytes : c.nbytes = (c.ll.map (fun e => e.Value.size)).sum
  /-- The index has as many keys as the list has entries. -/
  count : c.cache.length = c.ll.length

/-- The entry written back by `Add` on an existing key. -/
def updated {V : Type} (kv : entry V) (value : V) (expireTime : Time) : entry V :=
  if ({ kv with value := value } : entry V).expire < expireTime then
    { ({ kv with value := value } : entry V) with expire := expireTime }
  else { kv with value := value }

/-- A call on a store, with the clock readings and the jitter draw it sees. -/
inductive Op (V : Type) where
  /-- A call of `Add`. -/
  | add (key : String) (value : V) (ttl : Duration) (jitter : Fin 60) (now : Time)
      (clk : Nat → Nat → Time) (fuel : Nat)
  /-- A call of `Get`. -/
  | get (key : String) (now : Time)
  /-- A call of `RemoveOldest`. -/
  | removeOldest (clk : Nat → Time)

/-- The store after one call; `none` when the call has not returned within its fuel. -/
def Cache.step {V : Type} [Value V] (c : Cache V) : Op V → Option (Cache V)
  | .add key value ttl jitter now clk fuel => c.Add key value ttl jitter now clk fuel
  | .get key now => some (c.Get key now).1
  | .removeOldest clk => some (c.RemoveOldest clk)

/-- The store after a sequence of calls. -/
def Cache.run {V : Type} [Value V] (c : Cache V) : List (Op V) → Option (Cache V)
  | [] => some c
  | op :: ops => (c.step op).bind (fun c1 => c1.run ops)

/-- The expiry of `key` right after `Add` has written its entry. -/
def expireAfterAdd {V : Type} (c : Cache V) (key : String) (expireTime : Time) : Time :=
  match mapGet key c.cache with
  | some e => max e.Value.expire expireTime
  | none => expireTime

/-- The instant `time.Now().Add(ttl + time.Duration(rand.Intn(60))*time.Second)` computed by `Add`. -/
def expireTime (now : Time) (ttl : Duration) (jitter : Fin 60) : Time :=
  now + wrap64 (ttl + (jitter.val : Int) * Second)

/-- The store of `TestAdd` after its two calls of `Add`. -/
def testAddStore : Cache String :=
  { maxBytes := 0, nbytes := 6, ll := [⟨0, ⟨"key", "111", 60⟩⟩],
    cache := [("key", ⟨0, ⟨"key", "111", 60⟩⟩)], OnEvicted := false, evicted := [],
    defaultTTL := 60, nextId := 1 }

/-- The calls of `TestAdd`, made at instant `0` with jitter draws `0`. -/
def testAddOps : List (Op String) :=
  [Op.add "key" "1" 60 0 0 (fun _ _ => 0) 0, Op.add "key" "111" 60 0 0 (fun _ _ => 0) 0]

/-- The store of `TestOnEvicted` after `Add("key1", "123456", 30)` at instant `0`, with the
jitter draw `j`. -/
def storeKey1 (j : Fin 60) : Cache String :=
  { maxBytes := 10, nbytes := 10, ll := [⟨0, ⟨"key1", "123456", expireTime 0 30 j⟩⟩],
    cache := [("key1", ⟨0, ⟨"key1", "123456", expireTime 0 30 j⟩⟩)], OnEvicted := true,
    evicted := [], defaultTTL := 30, nextId := 1 }

/-- The store holding `"k"` with expiry `5`: `Add("k", "v", 5)` at instant `0`, jitter draw `0`,
on an empty unbounded store. -/
def storeK5 : Cache String :=
  { maxBytes := 0, nbytes := 2, ll := [⟨0, ⟨"k", "v", 5⟩⟩], cache := [("k", ⟨0, ⟨"k", "v", 5⟩⟩)],
    OnEvicted := false, evicted := [], defaultTTL := 0, nextId := 1 }

/-- The store holding `"k"` with expiry `10s`: `Add("k", "v", 10s)` at instant `0`, jitter draw
`0`, on an empty unbounded store. -/
def storeK10 : Cache String :=
  { maxBytes := 0, nbytes := 2, ll := [⟨0, ⟨"k", "v", 10 * Second⟩⟩],
    cache := [("k", ⟨0, ⟨"k", "v", 10 * Second⟩⟩)], OnEvicted := false, evicted := [],
    defaultTTL := 0, nextId := 1 }

/-- A store bounded by `10` bytes that holds `"a"` (expiry `0`) behind `"k"` with value `"1"`:
`Add("a", "1", 0)` at instant `0` with jitter draw `0`, then `Add("k", "1", 30)` at instant `100`
with jitter draw `59`. -/
def storeAK : Cache String :=
  { maxBytes := 10, nbytes := 4,
    ll := [⟨1, ⟨"k", "1", expireTime 100 30 59⟩⟩, ⟨0, ⟨"a", "1", 0⟩⟩],
    cache := [("k", ⟨1, ⟨"k", "1", expireTime 100 30 59⟩⟩), ("a", ⟨0, ⟨"a", "1", 0⟩⟩)],
    OnEvicted := false, evicted := [], defaultTTL := 0, nextId := 2 }

end lru

namespace geecache

open lru

/-- Modelled from the spec: type `ByteView` (`byteview.go` is not among the sources), an
immutable byte sequence with a length accessor. -/
structure ByteView where
  /-- Field `b`. -/
  b : List UInt8
deriving DecidableEq, Repr

/-- Modelled from the spec: method `ByteView.Len`, the number of bytes of the view. -/
instance : Value ByteView := ⟨fun v => v.b.length⟩

/-- Modelled from the spec: function `cloneBytes`, the defensive copy made at ingress from the
loader; a copy of an immutable list is the list. -/
def cloneBytes (b : List UInt8) : List UInt8 := b

/-- Modelled from the spec: method `singleflight.Group.Do` (package `singleflight` is not
among the sources). With one caller at a time no call for the key is in flight, so `fn` is
invoked once and its result is returned. -/
def singleflightDo {α : Type} (_key : String) (fn : Unit → α) : α := fn ()

/-- Constant `defaultHotCacheRatio`. -/
def defaultHotCacheRatio : Int := 8

/-- Constant `defaultMaxMinuteRemoteQPS`. -/
def defaultMaxMinuteRemoteQPS : Int := 10

/-- Struct `cache` of `cache.go`; the mutex is not modelled (one caller at a time).
`lru` is `none` for the nil pointer. -/
structure cache where
  /-- Field `lru`. -/
  lru : Option (Cache ByteView)
  /-- Field `cacheBytes`. -/
  cacheBytes : Int
  /-- Field `ttl`. -/
  ttl : Duration

/-- The values returned by the calls of `time.Now()` and `rand.Intn(60)` made during one call
of `Group.Get`, and the fuel of the loop of `lru.Add`. One call of `Group.Get` makes at most
one call of `lru.Add`. -/
structure Readings where
  /-- Clock reading of `lru.Get` on the hot tier. -/
  hotNow : Time
  /-- Clock reading of `lru.Get` on the main tier. -/
  mainNow : Time
  /-- Clock reading of `updateKeyStats`. -/
  statsNow : Time
  /-- First clock reading of `lru.Add`. -/
  addNow : Time
  /-- Clock readings of the loop of `lru.Add`. -/
  addClk : Nat → Nat → Time
  /-- The draw `rand.Intn(60)` of `lru.Add`. -/
  jitter : Fin 60
  /-- Fuel for the loop of `lru.Add`. -/
  fuel : Nat

/-- Method `cache.add`: the store is made on the first `add`. -/
def cache.add (c : cache) (key : String) (value : ByteView) (r : Readings) : Option cache :=
  let l : Cache ByteView :=
    match c.lru with
    | none => New c.cacheBytes false c.ttl
    | some l => l
  (l.Add key value c.ttl r.jitter r.addNow r.addClk r.fuel).map (fun l1 => { c with lru := some l1 })

/-- Method `cache.get`, with the clock reading of `lru.Get`. -/
def cache.get (c : cache) (key : String) (now : Time) : cache × Option ByteView :=
  match c.lru with
  | none => (c, none)
  | some l => ({ c with lru := some (l.Get key now).1 }, (l.Get key now).2)

/-- Interface `PeerGetter`: `Get` maps the request (group name, key) to the bytes of the
response, or to an error. -/
structure PeerGetter where
  /-- Method `Get`. -/
  Get : String → String → Except String (List UInt8)

/-- Struct `KeyStats`. -/
structure KeyStats where
  /-- Field `firstGetTime`. -/
  firstGetTime : Time
  /-- Field `remoteCnt`. -/
  remoteCnt : Int
deriving DecidableEq, Repr

/-- Struct `Group`. An `error` is its message. `getterCalls` and `peerCalls` are not fields of
the source: they record the keys with which the getter, and a peer, were invoked. -/
structure Group where
  /-- Field `name`. -/
  name : String
  /-- Field `getter`: method `Getter.Get`. -/
  getter : String → Except String (List UInt8)
  /-- Field `mainCache`. -/
  mainCache : cache
  /-- Field `hotCache`. -/
  hotCache : cache
  /-- Field `peers`: method `PeerPicker.PickPeer`, `none` for the nil interface. -/
  peers : Option (String → Option PeerGetter)
  /-- Field `keys`. -/
  keys : List (String × KeyStats)
  /-- Keys passed to `getter.Get` so far, oldest first. -/
  getterCalls : List String
  /-- Keys passed to a peer's `Get` so far, oldest first. -/
  peerCalls : List String

/-- Function `NewGroup`; the getter is a function, hence not nil. The registration in the
package-level table `groups` is not modelled. -/
def NewGroup (name : String) (cacheBytes : Int) (getter : String → Except String (List UInt8)) :
    Group :=
  { name := name
    getter := getter
    mainCache := { lru := none, cacheBytes := cacheBytes, ttl := 0 }
    hotCache := { lru := none, cacheBytes := Int.tdiv cacheBytes defaultHotCacheRatio, ttl := 0 }
    peers := none
    keys := []
    getterCalls := []
    peerCalls := [] }

/-- Method `RegisterPeers`; `none` is the panic on a second registration. -/
def Group.RegisterPeers (g : Group) (peers : String → Option PeerGetter) : Option Group :=
  match g.peers with
  | some _ => none
  | none => some { g with peers := some peers }

/-- Method `populateCache`. -/
def Group.populateCache (g : Group) (key : String) (value : ByteView) (r : Readings) :
    Option Group :=
  (g.mainCache.add key value r).map (fun c => { g with mainCache := c })

/-- Method `populateHotCache`. -/
def Group.populateHotCache (g : Group) (key : String) (value : ByteView) (r : Readings) :
    Option Group :=
  (g.hotCache.add key value r).map (fun c => { g with hotCache := c })

/-- Method `Time.Unix`: whole seconds. -/
def unix (t : Time) : Int := t / Second

/-- The expression `math.Round(float64(d) / 60)`: the quotient rounded to the nearest integer,
halves away from zero. For the magnitudes of `d` at hand (seconds between two clock readings)
the `float64` quotient rounds as the exact quotient does. -/
def roundMinutes (d : Int) : Int :=
  if 0 ≤ d then (d + 30) / 60 else -((-d + 30) / 60)

/-- Method `updateKeyStats`. -/
def Group.updateKeyStats (g : Group) (key : String) (value : ByteView) (r : Readings) :
    Option Group :=
  match mapGet key g.keys with
  | some stat =>
    let cnt := stat.remoteCnt + 1
    let keys1 := g.keys.map (fun p => if p.1 = key then (p.1, { p.2 with remoteCnt := cnt }) else p)
    let g1 := { g with keys := keys1 }
    let interval := roundMinutes (unix r.statsNow - unix stat.firstGetTime)
    let qps := Int.tdiv cnt (max 1 interval)
    if qps ≥ defaultMaxMinuteRemoteQPS then
      (g1.populateHotCache key value r).map (fun g2 => { g2 with keys := mapDelete key g2.keys })
    else some g1
  | none =>
    some { g with keys := mapSet key { firstGetTime := r.statsNow, remoteCnt := 1 } g.keys }

/-- Method `getLocally`. The result is the new state, the view and the error (`none` is nil). -/
def Group.getLocally (g : Group) (key : String) (r : Readings) :
    Option (Group × ByteView × Option String) :=
  let g1 := { g with getterCalls := g.getterCalls ++ [key] }
  match g.getter key with
  | .error err => some (g1, ⟨[]⟩, some err)
  | .ok bytes =>
    let value : ByteView := ⟨cloneBytes bytes⟩
    (g1.populateCache key value r).map (fun g2 => (g2, value, none))

/-- Method `getFromPeer`. -/
def Group.getFromPeer (g : Group) (peer : PeerGetter) (key : String) (r : Readings) :
    Option (Group × ByteView × Option String) :=
  let g1 := { g with peerCalls := g.peerCalls ++ [key] }
  match peer.Get g.name key with
  | .error err => some (g1, ⟨[]⟩, some err)
  | .ok bytes =>
    let value : ByteView := ⟨bytes⟩
    (g1.updateKeyStats key value r).map (fun g2 => (g2, value, none))

/-- The function literal passed to `Do` in `load`. Its result is the new state, the named
results `(value, err)` of `load` as the literal leaves them, and the pair it returns. -/
def Group.loadFn (g : Group) (key : String) (r : Readings) :
    Option (Group × (ByteView × Option String) × (ByteView × Option String)) :=
  let locally (g0 : Group) (named : ByteView × Option String) :=
    (g0.getLocally key r).map (fun out => (out.1, named, out.2))
  match g.peers with
  | some peers =>
    match peers key with
    | some peer =>
      match g.getFromPeer peer key r with
      | some (g1, value, err) =>
        if err = none then some (g1, (value, err), (value, none))
        else locally g1 (value, err)
      | none => none
    | none => locally g (⟨[]⟩, none)
  | none => locally g (⟨[]⟩, none)

/-- Method `load`. -/
def Group.load (g : Group) (key : String) (r : Readings) :
    Option (Group × ByteView × Option String) :=
  (singleflightDo key (fun _ => g.loadFn key r)).map (fun out =>
    let viewi := out.2.2.1
    let err := out.2.2.2
    if err = none then (out.1, viewi, none) else (out.1, out.2.1.1, err))

/-- Method `Group.Get`. `none` means that the loop of `lru.Add` is still running when the
fuel is used up. -/
def Group.Get (g : Group) (key : String) (r : Readings) :
    Option (Group × ByteView × Option String) :=
  if key = "" then some (g, ⟨[]⟩, some "key is required")
  else
    let hot := g.hotCache.get key r.hotNow
    let g1 := { g with hotCache := hot.1 }
    match hot.2 with
    | some v => some (g1, v, none)
    | none =>
      let main := g1.mainCache.get key r.mainNow
      let g2 := { g1 with mainCache := main.1 }
      match main.2 with
      | some v => some (g2, v, none)
      | none => g2.load key r

/-- The getter of `createGroup` in `main.go`: a look-up in the table `db`. -/
def dbGetter (key : String) : Except String (List UInt8) :=
  if key = "Tom" then .ok [54, 51, 48]
  else if key = "Jack" then .ok [53, 56, 57]
  else if key = "Sam" then .ok [53, 54, 55]
  else .error (key ++ " not exist")

/-- Readings of a call of `Group.Get` whose clock shows `now` throughout, the loop of `lru.Add`
reading `later`. -/
def readingsAt (now later : Time) (jitter : Fin 60) (fuel : Nat) : Readings :=
  { hotNow := now, mainNow := now, statsNow := now, addNow := now, addClk := fun _ _ => later,
    jitter := jitter, fuel := fuel }

/-- A peer whose `Get` fails. -/
def failingPeer : PeerGetter := ⟨fun _ _ => .error "peer unreachable"⟩

/-- The group of `main.go` after `Get("Tom")` at instant `0` with jitter draw `0`: the main
tier holds `"Tom"` with expiry `0`. -/
def scoresAfterTom : Group :=
  { NewGroup "scores" 2048 dbGetter with
    mainCache := ⟨some { maxBytes := 2048, nbytes := 6, ll := [⟨0, ⟨"Tom", ⟨[54, 51, 48]⟩, 0⟩⟩],
                         cache := [("Tom", ⟨0, ⟨"Tom", ⟨[54, 51, 48]⟩, 0⟩⟩)], OnEvicted := false,
                         evicted := [], defaultTTL := 0, nextId := 1 }, 2048, 0⟩
    getterCalls := ["Tom"] }

/-- A group whose main tier is bounded by `2` bytes, with a getter that returns two bytes and
a registered peer picker that always yields `failingPeer`. -/
def smallGroup : Group :=
  { NewGroup "scores" 2 (fun _ => .ok [1, 2]) with peers := some (fun _ => some failingPeer) }

/-- Successive calls of `getFromPeer` for one key on one peer, each with its own readings;
`none` when a call fails or has not returned. -/
def Group.getFromPeerSeq (g : Group) (peer : PeerGetter) (key : String) :
    List Readings → Option Group
  | [] => some g
  | r :: rs =>
    match g.getFromPeer peer key r with
    | some (g1, _, none) => Group.getFromPeerSeq g1 peer key rs
    | _ => none

/-- A peer whose `Get` answers every key with the one byte `118`. -/
def okPeer : PeerGetter := ⟨fun _ _ => .ok [118]⟩

/-- The group of `main.go` with a registered peer picker that always yields `okPeer`. -/
def peerGroup : Group :=
  { NewGroup "scores" 2048 dbGetter with peers := some (fun _ => some okPeer) }

/-- The group `peerGroup` after nine calls of `getFromPeer` for `"k"`, the first at instant `0`. -/
def countedGroup : Group :=
  { peerGroup with keys := [("k", ⟨0, 9⟩)], peerCalls := List.replicate 9 "k" }

/-- The group `NewGroup("scores", 8, getter)`, whose hot tier is bounded by `8 / 8 = 1` byte, with
the stats entry of `"k"` at first-seen time `0` and count `9`. -/
def tinyHotGroup : Group :=
  { NewGroup "scores" 8 dbGetter with keys := [("k", ⟨0, 9⟩)] }

end geecache

namespace lru

variable {V : Type}

/-- A deleted key is absent. -/
theorem mapGet_mapDelete_self {α : Type} (k : String) (m : List (String × α)) :
    mapGet k (mapDelete k m) = none := by
  induction m with
  | nil => rfl
  | cons p m ih =>
    obtain ⟨k1, v⟩ := p
    by_cases h : k1 = k
    · simp [mapDelete, List.filter_cons, h] at ih ⊢
      exact ih
    · simp [mapDelete, List.filter_cons, h, mapGet] at ih ⊢
      exact ih

/-- Deleting a key leaves the other keys as they are. -/
theorem mapGet_mapDelete_ne {α : Type} {k k1 : String} (h : k1 ≠ k) (m : List (String × α)) :
    mapGet k1 (mapDelete k m) = mapGet k1 m := by
  induction m with
  | nil => rfl
  | cons p m ih =>
    obtain ⟨k2, v⟩ := p
    by_cases h2 : k2 = k
    · have h3 : k2 ≠ k1 := fun h4 => h (h4 ▸ h2)
      simp [mapDelete, List.filter_cons, h2, mapGet] at ih ⊢
      have h4 : ¬ k = k1 := fun h5 => h h5.symm
      simp [h4]; exact ih
    · simp [mapDelete, List.filter_cons, h2, mapGet] at ih ⊢
      rw [ih]

/-- A key reads the value written under it. -/
theorem mapGet_mapSet_self {α : Type} (k : String) (v : α) (m : List (String × α)) :
    mapGet k (mapSet k v m) = some v := by
  simp [mapSet, mapGet]

/-- Writing a key leaves the other keys as they are. -/
theorem mapGet_mapSet_ne {α : Type} {k k1 : String} (h : k1 ≠ k) (v : α) (m : List (String × α)) :
    mapGet k1 (mapSet k v m) = mapGet k1 m := by
  have h4 : ¬ k = k1 := fun h5 => h h5.symm
  simp [mapSet, mapGet, h4, mapGet_mapDelete_ne h]

/-- Reading a key after a change of all the values. -/
theorem mapGet_map {α β : Type} (f : α → β) (k : String) (m : List (String × α)) :
    mapGet k (m.map (fun p => (p.1, f p.2))) = (mapGet k m).map f := by
  induction m with
  | nil => rfl
  | cons p m ih =>
    obtain ⟨k2, v⟩ := p
    by_cases h2 : k2 = k <;> simp [mapGet, h2, ih]

/-- A key that reads `v` is bound to `v` in the map. -/
theorem mapGet_mem {α : Type} {k : String} {v : α} {m : List (String × α)}
    (h : mapGet k m = some v) : (k, v) ∈ m := by
  induction m with
  | nil => simp [mapGet] at h
  | cons p m ih =>
    obtain ⟨k2, v2⟩ := p
    by_cases h2 : k2 = k
    · simp [mapGet, h2] at h; simp [h2, h]
    · simp [mapGet, h2] at h; simp [ih h]

/-- A key reads nothing exactly when it is not a key of the map. -/
theorem mapGet_none_iff {α : Type} {k : String} {m : List (String × α)} :
    mapGet k m = none ↔ k ∉ m.map Prod.fst := by
  induction m with
  | nil => simp [mapGet]
  | cons p m ih =>
    obtain ⟨k2, v2⟩ := p
    by_cases h2 : k2 = k
    · simp [mapGet, h2]
    · have h4 : ¬ k = k2 := fun h5 => h2 h5.symm
      simp [mapGet, h2, ih, h4]

/-- Deleting keeps the keys of the map distinct. -/
theorem keys_mapDelete {α : Type} (k : String) {m : List (String × α)}
    (h : (m.map Prod.fst).Nodup) : ((mapDelete k m).map Prod.fst).Nodup :=
  h.sublist ((List.filter_sublist m).map Prod.fst)

/-- A deleted key is not a key of the map. -/
theorem not_mem_keys_mapDelete {α : Type} (k : String) (m : List (String × α)) :
    k ∉ (mapDelete k m).map Prod.fst := by
  simp [mapDelete]

/-- Writing keeps the keys of the map distinct. -/
theorem keys_mapSet {α : Type} (k : String) (v : α) {m : List (String × α)}
    (h : (m.map Prod.fst).Nodup) : ((mapSet k v m).map Prod.fst).Nodup := by
  simp only [mapSet, List.map_cons, List.nodup_cons]
  exact ⟨not_mem_keys_mapDelete k m, keys_mapDelete k h⟩

/-- A change of the values leaves the keys as they are. -/
theorem keys_map {α β : Type} (f : α → β) (m : List (String × α)) :
    (m.map (fun p => (p.1, f p.2))).map Prod.fst = m.map Prod.fst := by
  simp [List.map_map, Function.comp_def]

/-- With distinct identities, two elements of the list with one identity are one element. -/
theorem eq_of_id_eq {l : List (Element V)} (h : (l.map (fun e => e.id)).Nodup)
    {x y : Element V} (hx : x ∈ l) (hy : y ∈ l) (hxy : x.id = y.id) : x = y :=
  List.inj_on_of_nodup_map h hx hy hxy

/-- With distinct identities, the search by identity finds the element itself. -/
theorem find_id_of_mem {l : List (Element V)} (h : (l.map (fun e => e.id)).Nodup)
    {e : Element V} (he : e ∈ l) : l.find? (fun x => decide (x.id = e.id)) = some e := by
  cases hf : l.find? (fun x => decide (x.id = e.id)) with
  | none =>
    have := List.find?_eq_none.mp hf e he
    simp at this
  | some x =>
    have h1 := List.find?_some hf
    have h2 := List.mem_of_find?_eq_some hf
    simp only [decide_eq_true_eq] at h1
    rw [eq_of_id_eq h h2 he h1]

/-- `MoveToFront` on an element of the list: the element, then the others. -/
theorem MoveToFront_of_mem {l : List (Element V)} (h : (l.map (fun e => e.id)).Nodup)
    {e : Element V} (he : e ∈ l) : MoveToFront l e = e :: Remove l e := by
  simp [MoveToFront, find_id_of_mem h he, Remove]

/-- The elements left by `Remove`. -/
theorem mem_Remove {l : List (Element V)} {e x : Element V} :
    x ∈ Remove l e ↔ x ∈ l ∧ x.id ≠ e.id := by
  simp [Remove]

/-- `Remove` keeps the identities distinct. -/
theorem ids_Remove {l : List (Element V)} (h : (l.map (fun e => e.id)).Nodup) (e : Element V) :
    ((Remove l e).map (fun e => e.id)).Nodup :=
  h.sublist ((List.filter_sublist l).map _)

/-- The identity of a removed element is gone from the list. -/
theorem id_not_mem_Remove (l : List (Element V)) (e : Element V) :
    e.id ∉ (Remove l e).map (fun e => e.id) := by
  simp [Remove]

/-- An element of the list followed by the others is a permutation of the list. -/
theorem cons_Remove_perm {l : List (Element V)} (h : (l.map (fun e => e.id)).Nodup)
    {e : Element V} (he : e ∈ l) : List.Perm (e :: Remove l e) l := by
  induction l with
  | nil => simp at he
  | cons a l ih =>
    simp only [List.map_cons, List.nodup_cons] at h
    by_cases hae : a = e
    · subst hae
      have : Remove (a :: l) a = l := by
        simp only [Remove, List.filter_cons]
        simp only [ne_eq, not_true_eq_false, decide_False, Bool.false_eq_true, ↓reduceIte]
        apply List.filter_eq_self.mpr
        intro x hx
        simp only [ne_eq, decide_not, Bool.not_eq_true', decide_eq_false_iff_not]
        intro hxa
        exact h.1 (List.mem_map.mpr ⟨x, hx, hxa⟩)
      rw [this]
    · have he1 : e ∈ l := by
        rcases List.mem_cons.mp he with h1 | h1
        · exact absurd h1.symm hae
        · exact h1
      have hid : a.id ≠ e.id := by
        intro hh
        exact h.1 (List.mem_map.mpr ⟨e, he1, hh.symm⟩)
      have : Remove (a :: l) e = a :: Remove l e := by
        simp [Remove, List.filter_cons, hid]
      rw [this]
      exact (List.Perm.swap a e _).trans ((ih h.2 he1).cons a)

/-- `Remove` takes the contribution of the removed element off a sum over the list. -/
theorem sum_Remove {l : List (Element V)} (h : (l.map (fun e => e.id)).Nodup)
    {e : Element V} (he : e ∈ l) (f : Element V → Int) :
    ((Remove l e).map f).sum = (l.map f).sum - f e := by
  have hp := ((cons_Remove_perm h he).map f).sum_eq
  simp only [List.map_cons, List.sum_cons] at hp
  omega

/-- Deleting a key that the map does not hold changes nothing. -/
theorem mapDelete_absent {α : Type} {k : String} {m : List (String × α)}
    (h : mapGet k m = none) : mapDelete k m = m := by
  apply List.filter_eq_self.mpr
  intro p hp
  simp only [ne_eq, decide_not, Bool.not_eq_true', decide_eq_false_iff_not]
  intro hk
  exact mapGet_none_iff.mp h (List.mem_map.mpr ⟨p, hp, hk⟩)

/-- Deleting a key that the map holds, once, takes one binding away. -/
theorem length_mapDelete_present {α : Type} {k : String} {v : α} {m : List (String × α)}
    (hn : (m.map Prod.fst).Nodup) (h : mapGet k m = some v) :
    (mapDelete k m).length + 1 = m.length := by
  induction m with
  | nil => simp [mapGet] at h
  | cons p m ih =>
    obtain ⟨k2, v2⟩ := p
    simp only [List.map_cons, List.nodup_cons] at hn
    by_cases h2 : k2 = k
    · subst h2
      have hab : mapGet k2 m = none := mapGet_none_iff.mpr hn.1
      have : mapDelete k2 ((k2, v2) :: m) = mapDelete k2 m := by
        simp [mapDelete, List.filter_cons]
      rw [this, mapDelete_absent hab, List.length_cons]
    · simp only [mapGet, h2, if_false] at h
      have : mapDelete k ((k2, v2) :: m) = (k2, v2) :: mapDelete k m := by
        simp [mapDelete, List.filter_cons, h2]
      rw [this, List.length_cons, List.length_cons, ih hn.2 h]

/-- `Remove` of an element of a list with distinct identities takes one element away. -/
theorem length_Remove {l : List (Element V)} (h : (l.map (fun e => e.id)).Nodup)
    {e : Element V} (he : e ∈ l) : (Remove l e).length + 1 = l.length := by
  have := (cons_Remove_perm h he).length_eq
  simpa using this

/-- `New` makes a store that satisfies the invariant. -/
theorem WF_New [Value V] (maxBytes : Int) (onEvicted : Bool) (defaultTTL : Duration) :
    (New maxBytes onEvicted defaultTTL : Cache V).WF := by
  constructor <;> simp [New, mapGet]

/-- `RemoveElement` on an element of the list preserves the invariant. -/
theorem WF_RemoveElement [Value V] {c : Cache V} (h : c.WF) {e : Element V} (he : e ∈ c.ll) :
    (c.RemoveElement e).WF := by
  constructor
  · exact ids_Remove h.ids e
  · intro x hx
    exact h.fresh x (mem_Remove.mp hx).1
  · intro k x hx
    simp only [Cache.RemoveElement] at hx ⊢
    by_cases hk : k = e.Value.key
    · rw [hk, mapGet_mapDelete_self] at hx
      cases hx
    · rw [mapGet_mapDelete_ne hk] at hx
      obtain ⟨h1, h2⟩ := h.sound k x hx
      refine ⟨mem_Remove.mpr ⟨h1, ?_⟩, h2⟩
      intro hid
      have := eq_of_id_eq h.ids h1 he hid
      rw [this] at h2
      exact hk h2.symm
  · intro x hx
    simp only [Cache.RemoveElement] at hx ⊢
    obtain ⟨h1, h2⟩ := mem_Remove.mp hx
    have hk : x.Value.key ≠ e.Value.key := by
      intro hk
      have hx1 := h.complete x h1
      have he1 := h.complete e he
      rw [hk, he1] at hx1
      injection hx1 with hx1
      exact h2 (by rw [hx1])
    rw [mapGet_mapDelete_ne hk]
    exact h.complete x h1
  · exact keys_mapDelete _ h.keys
  · simp only [Cache.RemoveElement]
    rw [sum_Remove h.ids he, h.bytes]
    simp [entry.size]
  · simp only [Cache.RemoveElement]
    have h1 := length_Remove h.ids he
    have h2 := length_mapDelete_present h.keys (h.complete e he)
    have h3 := h.count
    omega

/-- The scan of `RemoveOldest` stops at an element of the list. -/
theorem scanExpired_mem {l : List (Element V)} {clk : Nat → Time} {e : Element V}
    (h : scanExpired l clk = some e) : e ∈ l := by
  induction l generalizing clk with
  | nil => simp [scanExpired] at h
  | cons a l ih =>
    simp only [scanExpired] at h
    split at h
    · injection h with h; simp [h]
    · exact List.mem_cons_of_mem _ (ih h)

/-- `RemoveOldest` preserves the invariant. -/
theorem WF_RemoveOldest [Value V] {c : Cache V} (h : c.WF) (clk : Nat → Time) :
    (c.RemoveOldest clk).WF := by
  unfold Cache.RemoveOldest
  split
  · next e he =>
    exact WF_RemoveElement h (List.mem_reverse.mp (scanExpired_mem he))
  · exact h

/-- Moving an element of the list to the front preserves the invariant. -/
theorem WF_MoveToFront [Value V] {c : Cache V} (h : c.WF) {e : Element V} (he : e ∈ c.ll) :
    ({ c with ll := MoveToFront c.ll e } : Cache V).WF := by
  have hp : List.Perm (MoveToFront c.ll e) c.ll := by
    rw [MoveToFront_of_mem h.ids he]; exact cons_Remove_perm h.ids he
  constructor
  · exact (hp.map _).nodup_iff.mpr h.ids
  · intro x hx; exact h.fresh x (hp.mem_iff.mp hx)
  · intro k x hx
    obtain ⟨h1, h2⟩ := h.sound k x hx
    exact ⟨hp.mem_iff.mpr h1, h2⟩
  · intro x hx; exact h.complete x (hp.mem_iff.mp hx)
  · exact h.keys
  · simp only
    rw [(hp.map _).sum_eq]; exact h.bytes
  · simp only
    rw [hp.length_eq]; exact h.count

/-- `Get` preserves the invariant. -/
theorem WF_Get [Value V] {c : Cache V} (h : c.WF) (key : String) (now : Time) :
    (c.Get key now).1.WF := by
  unfold Cache.Get
  split
  · next e he =>
    have hmem := (h.sound key e he).1
    simp only
    split
    · exact WF_RemoveElement h hmem
    · exact WF_MoveToFront h hmem
  · exact h

/-- An assignment through a removed element changes none of the others. -/
theorem map_assign_Remove (l : List (Element V)) (e : Element V) (kv : entry V) :
    (Remove l e).map (Element.assign e.id kv) = Remove l e := by
  conv_rhs => rw [← List.map_id (Remove l e)]
  apply List.map_congr_left
  intro x hx
  have := (mem_Remove.mp hx).2
  simp [Element.assign, this]

/-- The entry written back by `Add` keeps its key. -/
theorem updated_key (kv : entry V) (value : V) (t : Time) : (updated kv value t).key = kv.key := by
  unfold updated; split <;> rfl

/-- The entry written back by `Add` holds the new value. -/
theorem updated_value (kv : entry V) (value : V) (t : Time) : (updated kv value t).value = value := by
  unfold updated; split <;> rfl

/-- The entry written back by `Add` expires at the later of the old and the new expiry. -/
theorem updated_expire (kv : entry V) (value : V) (t : Time) :
    (updated kv value t).expire = max kv.expire t := by
  unfold updated; split
  · next h => simp only at h ⊢; exact (max_eq_right (le_of_lt h)).symm
  · next h => simp only at h ⊢; exact (max_eq_left (not_lt.mp h)).symm

/-- The body of `Add` on a key that is in the index. -/
theorem AddEntry_hit [Value V] {c : Cache V} {key : String} {e : Element V}
    (he : mapGet key c.cache = some e) (value : V) (ttl : Duration) (jitter : Fin 60) (now : Time) :
    c.AddEntry key value ttl jitter now =
      { c with
        ll := (MoveToFront c.ll e).map (Element.assign e.id
          (updated e.Value value (now + wrap64 (ttl + (jitter.val : Int) * Second))))
        cache := c.cache.map (fun p => (p.1, Element.assign e.id
          (updated e.Value value (now + wrap64 (ttl + (jitter.val : Int) * Second))) p.2))
        nbytes := c.nbytes + ((Value.Len value : Int) - (Value.Len e.Value.value : Int)) } := by
  simp only [Cache.AddEntry, he, Cache.store, updated]

/-- The body of `Add` on a key that is not in the index. -/
theorem AddEntry_miss [Value V] {c : Cache V} {key : String}
    (he : mapGet key c.cache = none) (value : V) (ttl : Duration) (jitter : Fin 60) (now : Time) :
    c.AddEntry key value ttl jitter now =
      { c with
        ll := ⟨c.nextId, ⟨key, value, now + wrap64 (ttl + (jitter.val : Int) * Second)⟩⟩ :: c.ll
        cache := mapSet key ⟨c.nextId, ⟨key, value, now + wrap64 (ttl + (jitter.val : Int) * Second)⟩⟩
          c.cache
        nbytes := c.nbytes + ((key.utf8ByteSize : Int) + (Value.Len value : Int))
        nextId := c.nextId + 1 } := by
  simp only [Cache.AddEntry, he]

/-- The list after the body of `Add` on a key that is in the index. -/
theorem AddEntry_hit_ll [Value V] {c : Cache V} (h : c.WF) {key : String} {e : Element V}
    (he : mapGet key c.cache = some e) (value : V) (ttl : Duration) (jitter : Fin 60) (now : Time) :
    (c.AddEntry key value ttl jitter now).ll =
      { id := e.id, Value := updated e.Value value (now + wrap64 (ttl + (jitter.val : Int) * Second)) }
        :: Remove c.ll e := by
  rw [AddEntry_hit he]
  simp only
  rw [MoveToFront_of_mem h.ids (h.sound key e he).1, List.map_cons, map_assign_Remove]
  simp [Element.assign]

/-- The body of `Add` preserves the invariant. -/
theorem WF_AddEntry [Value V] {c : Cache V} (h : c.WF) (key : String) (value : V)
    (ttl : Duration) (jitter : Fin 60) (now : Time) : (c.AddEntry key value ttl jitter now).WF := by
  cases he : mapGet key c.cache with
  | some e =>
    have hll := AddEntry_hit_ll h he value ttl jitter now
    obtain ⟨hmem, hkey⟩ := h.sound key e he
    generalize hkv : updated e.Value value (now + wrap64 (ttl + (jitter.val : Int) * Second)) = kv at hll
    have hk : kv.key = e.Value.key := by rw [← hkv, updated_key]
    have hv : kv.value = value := by rw [← hkv, updated_value]
    have hcache : (c.AddEntry key value ttl jitter now).cache =
        c.cache.map (fun p => (p.1, Element.assign e.id kv p.2)) := by
      rw [AddEntry_hit he, hkv]
    have hnb : (c.AddEntry key value ttl jitter now).nbytes =
        c.nbytes + ((Value.Len value : Int) - (Value.Len e.Value.value : Int)) := by
      rw [AddEntry_hit he]
    have hnext : (c.AddEntry key value ttl jitter now).nextId = c.nextId := by
      rw [AddEntry_hit he]
    constructor
    · rw [hll, List.map_cons, List.nodup_cons]
      exact ⟨id_not_mem_Remove c.ll e, ids_Remove h.ids e⟩
    · intro x hx
      rw [hll] at hx; rw [hnext]
      rcases List.mem_cons.mp hx with h1 | h1
      · rw [h1]; exact h.fresh e hmem
      · exact h.fresh x (mem_Remove.mp h1).1
    · intro k y hy
      rw [hcache, mapGet_map] at hy
      rw [hll]
      cases hx : mapGet k c.cache with
      | none => rw [hx] at hy; cases hy
      | some x =>
        rw [hx] at hy
        simp only [Option.map_some', Option.some.injEq] at hy
        obtain ⟨hx1, hx2⟩ := h.sound k x hx
        by_cases hid : x.id = e.id
        · have hxe := eq_of_id_eq h.ids hx1 hmem hid
          subst hxe
          simp only [Element.assign, if_true] at hy
          rw [← hy]
          exact ⟨List.mem_cons_self _ _, by simp only; rw [hk]; exact hx2⟩
        · simp only [Element.assign, hid, if_false] at hy
          rw [← hy]
          exact ⟨List.mem_cons_of_mem _ (mem_Remove.mpr ⟨hx1, hid⟩), hx2⟩
    · intro y hy
      rw [hll] at hy
      rw [hcache, mapGet_map]
      rcases List.mem_cons.mp hy with h1 | h1
      · rw [h1]; simp only
        rw [hk, h.complete e hmem]
        simp [Element.assign]
      · obtain ⟨h2, h3⟩ := mem_Remove.mp h1
        rw [h.complete y h2]
        simp [Element.assign, h3]
    · rw [hcache, keys_map]; exact h.keys
    · rw [hnb, hll, List.map_cons, List.sum_cons, sum_Remove h.ids hmem, h.bytes]
      simp only [entry.size, hk, hv]
      omega
    · rw [hcache, hll, List.length_map, List.length_cons, length_Remove h.ids hmem]
      exact h.count
  | none =>
    rw [AddEntry_miss he]
    have hnk : ∀ y ∈ c.ll, y.Value.key ≠ key := by
      intro y hy hk
      have := h.complete y hy
      rw [hk, he] at this
      cases this
    constructor
    · simp only [List.map_cons, List.nodup_cons]
      refine ⟨?_, h.ids⟩
      intro hm
      obtain ⟨x, hx, hxid⟩ := List.mem_map.mp hm
      have := h.fresh x hx
      omega
    · intro x hx
      simp only at hx ⊢
      rcases List.mem_cons.mp hx with h1 | h1
      · rw [h1]; simp
      · have := h.fresh x h1; omega
    · intro k y hy
      simp only at hy ⊢
      by_cases hk : k = key
      · rw [hk, mapGet_mapSet_self] at hy
        injection hy with hy
        rw [← hy, hk]
        exact ⟨List.mem_cons_self _ _, rfl⟩
      · rw [mapGet_mapSet_ne hk] at hy
        obtain ⟨h1, h2⟩ := h.sound k y hy
        exact ⟨List.mem_cons_of_mem _ h1, h2⟩
    · intro y hy
      simp only at hy ⊢
      rcases List.mem_cons.mp hy with h1 | h1
      · rw [h1]; simp only; exact mapGet_mapSet_self _ _ _
      · rw [mapGet_mapSet_ne (hnk y h1)]
        exact h.complete y h1
    · exact keys_mapSet _ _ h.keys
    · simp only [List.map_cons, List.sum_cons, entry.size]
      rw [h.bytes]; simp only [entry.size]; omega
    · simp only [mapSet, List.length_cons, mapDelete_absent he]
      rw [h.count]

/-- The loop of `Add` preserves the invariant. -/
theorem WF_evictLoop [Value V] (fuel : Nat) {c c1 : Cache V} (clk : Nat → Nat → Time) (h : c.WF)
    (hr : evictLoop fuel c clk = some c1) : c1.WF := by
  induction fuel generalizing c clk with
  | zero =>
    unfold evictLoop at hr
    split at hr
    · cases hr
    · injection hr with hr; rw [← hr]; exact h
  | succ n ih =>
    unfold evictLoop at hr
    split at hr
    · exact ih _ (WF_RemoveOldest h _) hr
    · injection hr with hr; rw [← hr]; exact h

/-- `Add` preserves the invariant. -/
theorem WF_Add [Value V] {c c1 : Cache V} (h : c.WF) {key : String} {value : V} {ttl : Duration}
    {jitter : Fin 60} {now : Time} {clk : Nat → Nat → Time} {fuel : Nat}
    (hr : c.Add key value ttl jitter now clk fuel = some c1) : c1.WF :=
  WF_evictLoop fuel clk (WF_AddEntry h key value ttl jitter now) hr

/-- Every call preserves the invariant. -/
theorem WF_step [Value V] {c c1 : Cache V} (h : c.WF) {op : Op V} (hr : c.step op = some c1) :
    c1.WF := by
  cases op with
  | add key value ttl jitter now clk fuel => exact WF_Add h hr
  | get key now =>
    simp only [Cache.step, Option.some.injEq] at hr
    rw [← hr]; exact WF_Get h key now
  | removeOldest clk =>
    simp only [Cache.step, Option.some.injEq] at hr
    rw [← hr]; exact WF_RemoveOldest h clk

/-- Every sequence of calls preserves the invariant. -/
theorem WF_run [Value V] {c c1 : Cache V} (h : c.WF) {ops : List (Op V)}
    (hr : c.run ops = some c1) : c1.WF := by
  induction ops generalizing c with
  | nil =>
    simp only [Cache.run, Option.some.injEq] at hr
    rw [← hr]; exact h
  | cons op ops ih =>
    simp only [Cache.run] at hr
    cases hs : c.step op with
    | none => rw [hs] at hr; cases hr
    | some c2 =>
      rw [hs] at hr
      exact ih (WF_step h hs) hr

/-- The loop of `Add` returns at once when its condition is false. -/
theorem evictLoop_unbounded [Value V] (fuel : Nat) (c : Cache V) (clk : Nat → Nat → Time)
    (h : ¬ (c.maxBytes ≠ 0 ∧ c.maxBytes < c.nbytes)) : evictLoop fuel c clk = some c := by
  unfold evictLoop
  rw [if_neg h]

/-- Claim C1. For every store built by `New` and every finite sequence of calls of `Add`, `Get`
and `RemoveOldest` that have returned, with any keys, values, ttls, clock readings and jitter
draws, the counter `nbytes` of the resulting store equals the sum over the entries of its list of
`len(key) + value.Len()`. In particular `Add(k, v1)` followed by `Add(k, v2)` on an empty
unbounded store returns, and leaves `nbytes = len(k) + v2.Len()`. -/
theorem C1_nbytes_is_sum_of_sizes [Value V] (maxBytes : Int) (onEvicted : Bool)
    (defaultTTL : Duration) (ops : List (Op V)) (c : Cache V)
    (h : (New maxBytes onEvicted defaultTTL : Cache V).run ops = some c) :
    c.nbytes = (c.ll.map (fun e => (e.Value.key.utf8ByteSize : Int) + (Value.Len e.Value.value : Int))).sum
    ∧ ∀ (k : String) (v1 v2 : V) (ttl1 ttl2 : Duration) (j1 j2 : Fin 60) (t1 t2 : Time)
        (clk1 clk2 : Nat → Nat → Time) (f1 f2 : Nat),
        ∃ c2 : Cache V,
          (((New 0 onEvicted defaultTTL : Cache V).Add k v1 ttl1 j1 t1 clk1 f1).bind
            (fun c1 => c1.Add k v2 ttl2 j2 t2 clk2 f2)) = some c2
          ∧ c2.nbytes = (k.utf8ByteSize : Int) + (Value.Len v2 : Int) := by
  refine ⟨(WF_run (WF_New maxBytes onEvicted defaultTTL) h).bytes, ?_⟩
  intro k v1 v2 ttl1 ttl2 j1 j2 t1 t2 clk1 clk2 f1 f2
  have h0 : (New 0 onEvicted defaultTTL : Cache V).AddEntry k v1 ttl1 j1 t1 =
      { (New 0 onEvicted defaultTTL : Cache V) with
        ll := [⟨0, ⟨k, v1, t1 + wrap64 (ttl1 + (j1.val : Int) * Second)⟩⟩]
        cache := [(k, ⟨0, ⟨k, v1, t1 + wrap64 (ttl1 + (j1.val : Int) * Second)⟩⟩)]
        nbytes := (k.utf8ByteSize : Int) + (Value.Len v1 : Int)
        nextId := 1 } := by
    simp [Cache.AddEntry, New, mapGet, mapSet, mapDelete]
  have h1 : (New 0 onEvicted defaultTTL : Cache V).Add k v1 ttl1 j1 t1 clk1 f1 =
      some ((New 0 onEvicted defaultTTL : Cache V).AddEntry k v1 ttl1 j1 t1) := by
    unfold Cache.Add
    apply evictLoop_unbounded
    rw [h0]; simp [New]
  rw [h1, Option.some_bind]
  refine ⟨((New 0 onEvicted defaultTTL : Cache V).AddEntry k v1 ttl1 j1 t1).AddEntry k v2 ttl2 j2 t2,
    ?_, ?_⟩
  · unfold Cache.Add
    apply evictLoop_unbounded
    rw [h0]; simp [New, Cache.AddEntry, mapGet, Cache.store]
  · rw [h0]
    simp only [New, Cache.AddEntry, mapGet, Cache.store, if_true]
    omega

/-- A key present after a deletion was present before, with the same value. -/
theorem mapGet_mapDelete_some {α : Type} {k key : String} {v : α} {m : List (String × α)}
    (h : mapGet k (mapDelete key m) = some v) : mapGet k m = some v := by
  by_cases hk : k = key
  · rw [hk, mapGet_mapDelete_self] at h; cases h
  · rwa [mapGet_mapDelete_ne hk] at h

/-- The scan of `RemoveOldest` stops at an element that is expired at one of the readings. -/
theorem scanExpired_some {l : List (Element V)} {clk : Nat → Time} {e : Element V}
    (h : scanExpired l clk = some e) : e ∈ l ∧ ∃ i, e.Value.expire < clk i := by
  induction l generalizing clk with
  | nil => simp [scanExpired] at h
  | cons a l ih =>
    simp only [scanExpired] at h
    split at h
    · next hlt =>
      injection h with h
      rw [← h]
      exact ⟨List.mem_cons_self _ _, 0, hlt⟩
    · obtain ⟨h1, i, h2⟩ := ih h
      exact ⟨List.mem_cons_of_mem _ h1, i + 1, h2⟩

/-- `RemoveOldest` changes nothing, or removes an element expired at one of the readings. -/
theorem RemoveOldest_cases [Value V] (c : Cache V) (clk : Nat → Time) :
    c.RemoveOldest clk = c ∨
      ∃ e i, e ∈ c.ll ∧ e.Value.expire < clk i ∧ c.RemoveOldest clk = c.RemoveElement e := by
  unfold Cache.RemoveOldest
  split
  · next e he =>
    obtain ⟨h1, i, h2⟩ := scanExpired_some he
    exact Or.inr ⟨e, i, List.mem_reverse.mp h1, h2, rfl⟩
  · exact Or.inl rfl

/-- A key indexed after `RemoveOldest` was indexed before, with the same element. -/
theorem mapGet_RemoveOldest_some [Value V] {c : Cache V} {clk : Nat → Time} {k : String}
    {e : Element V} (h : mapGet k (c.RemoveOldest clk).cache = some e) :
    mapGet k c.cache = some e := by
  rcases RemoveOldest_cases c clk with h1 | ⟨x, i, _, _, h1⟩
  · rwa [h1] at h
  · rw [h1] at h
    exact mapGet_mapDelete_some h

/-- A key indexed after the loop of `Add` was indexed before, with the same element. -/
theorem mapGet_evictLoop_some [Value V] {fuel : Nat} {c c1 : Cache V} {clk : Nat → Nat → Time}
    (hr : evictLoop fuel c clk = some c1) {k : String} {e : Element V}
    (h : mapGet k c1.cache = some e) : mapGet k c.cache = some e := by
  induction fuel generalizing c clk with
  | zero =>
    unfold evictLoop at hr
    split at hr
    · cases hr
    · injection hr with hr; rwa [← hr] at h
  | succ n ih =>
    unfold evictLoop at hr
    split at hr
    · exact mapGet_RemoveOldest_some (ih hr)
    · injection hr with hr; rwa [← hr] at h

/-- `RemoveOldest` keeps an entry that is not expired at any of the readings. -/
theorem mapGet_RemoveOldest_keep [Value V] {c : Cache V} (hc : c.WF) {clk : Nat → Time}
    {k : String} {e : Element V} (h : mapGet k c.cache = some e)
    (hlive : ∀ i, ¬ e.Value.expire < clk i) :
    mapGet k (c.RemoveOldest clk).cache = some e := by
  rcases RemoveOldest_cases c clk with h1 | ⟨x, i, hx, hxi, h1⟩
  · rwa [h1]
  · rw [h1]
    simp only [Cache.RemoveElement]
    have hk : k ≠ x.Value.key := by
      intro hk
      have := hc.complete x hx
      rw [← hk, h] at this
      injection this with this
      rw [this] at hlive
      exact hlive i hxi
    rwa [mapGet_mapDelete_ne hk]

/-- The loop of `Add` keeps an entry that is not expired at any of the readings. -/
theorem mapGet_evictLoop_keep [Value V] {fuel : Nat} {c c1 : Cache V} (hc : c.WF)
    {clk : Nat → Nat → Time} (hr : evictLoop fuel c clk = some c1) {k : String} {e : Element V}
    (h : mapGet k c.cache = some e) (hlive : ∀ n i, ¬ e.Value.expire < clk n i) :
    mapGet k c1.cache = some e := by
  induction fuel generalizing c clk with
  | zero =>
    unfold evictLoop at hr
    split at hr
    · cases hr
    · injection hr with hr; rwa [← hr]
  | succ n ih =>
    unfold evictLoop at hr
    split at hr
    · exact ih (WF_RemoveOldest hc _) hr (mapGet_RemoveOldest_keep hc h (hlive 0))
        (fun m i => hlive (m + 1) i)
    · injection hr with hr; rwa [← hr]

/-- When the loop of `Add` returns, its condition is false. -/
theorem evictLoop_bound [Value V] {fuel : Nat} {c c1 : Cache V} {clk : Nat → Nat → Time}
    (hr : evictLoop fuel c clk = some c1) : ¬ (c1.maxBytes ≠ 0 ∧ c1.maxBytes < c1.nbytes) := by
  induction fuel generalizing c clk with
  | zero =>
    unfold evictLoop at hr
    split at hr
    · cases hr
    · next hn => injection hr with hr; rwa [← hr]
  | succ n ih =>
    unfold evictLoop at hr
    split at hr
    · exact ih hr
    · next hn => injection hr with hr; rwa [← hr]

/-- `RemoveOldest` leaves `maxBytes` as it is. -/
theorem RemoveOldest_maxBytes [Value V] (c : Cache V) (clk : Nat → Time) :
    (c.RemoveOldest clk).maxBytes = c.maxBytes := by
  rcases RemoveOldest_cases c clk with h1 | ⟨x, i, _, _, h1⟩ <;> rw [h1]
  rfl

/-- The loop of `Add` leaves `maxBytes` as it is. -/
theorem evictLoop_maxBytes [Value V] {fuel : Nat} {c c1 : Cache V} {clk : Nat → Nat → Time}
    (hr : evictLoop fuel c clk = some c1) : c1.maxBytes = c.maxBytes := by
  induction fuel generalizing c clk with
  | zero =>
    unfold evictLoop at hr
    split at hr
    · cases hr
    · injection hr with hr; rw [← hr]
  | succ n ih =>
    unfold evictLoop at hr
    split at hr
    · rw [ih hr, RemoveOldest_maxBytes]
    · injection hr with hr; rw [← hr]

/-- The body of `Add` leaves `maxBytes` as it is. -/
theorem AddEntry_maxBytes [Value V] (c : Cache V) (key : String) (value : V) (ttl : Duration)
    (jitter : Fin 60) (now : Time) : (c.AddEntry key value ttl jitter now).maxBytes = c.maxBytes := by
  cases he : mapGet key c.cache with
  | some e => rw [AddEntry_hit he]
  | none => rw [AddEntry_miss he]

/-- More fuel does not change the result of a loop that has returned. -/
theorem evictLoop_fuel_mono [Value V] {fuel : Nat} {c c1 : Cache V} {clk : Nat → Nat → Time}
    (hr : evictLoop fuel c clk = some c1) (extra : Nat) :
    evictLoop (fuel + extra) c clk = some c1 := by
  induction fuel generalizing c clk with
  | zero =>
    unfold evictLoop at hr
    split at hr
    · cases hr
    · next hn => rw [evictLoop_unbounded _ _ _ hn]; exact hr
  | succ n ih =>
    unfold evictLoop at hr
    split at hr
    · next hp =>
      have h1 := ih hr
      rw [Nat.add_right_comm]
      unfold evictLoop
      rw [if_pos hp]
      exact h1
    · next hn => rw [evictLoop_unbounded _ _ _ hn]; exact hr

/-- In an unbounded store `Add` returns at once, with any fuel. -/
theorem Add_unbounded [Value V] (c : Cache V) (hmax : c.maxBytes = 0) (key : String) (value : V)
    (ttl : Duration) (jitter : Fin 60) (now : Time) (clk : Nat → Nat → Time) (fuel : Nat) :
    c.Add key value ttl jitter now clk fuel = some (c.AddEntry key value ttl jitter now) := by
  unfold Cache.Add
  apply evictLoop_unbounded
  rw [AddEntry_maxBytes, hmax]
  intro h
  exact h.1 rfl

/-- After the body of `Add` the index holds the key, with the value added and the expiry
`expireAfterAdd`. -/
theorem mapGet_AddEntry_self [Value V] {c : Cache V} (hc : c.WF) (key : String) (value : V)
    (ttl : Duration) (jitter : Fin 60) (now : Time) :
    ∃ id, mapGet key (c.AddEntry key value ttl jitter now).cache =
      some ⟨id, ⟨key, value,
        expireAfterAdd c key (now + wrap64 (ttl + (jitter.val : Int) * Second))⟩⟩ := by
  cases he : mapGet key c.cache with
  | some e =>
    refine ⟨e.id, ?_⟩
    rw [AddEntry_hit he]
    simp only
    rw [mapGet_map, he]
    simp only [Option.map_some', Element.assign, if_true, expireAfterAdd, he, Option.some.injEq,
      Element.mk.injEq, true_and]
    have hk := (hc.sound key e he).2
    generalize hkv : updated e.Value value (now + wrap64 (ttl + (jitter.val : Int) * Second)) = kv
    have h1 : kv.key = key := by rw [← hkv, updated_key, hk]
    have h2 : kv.value = value := by rw [← hkv, updated_value]
    have h3 : kv.expire = max e.Value.expire (now + wrap64 (ttl + (jitter.val : Int) * Second)) := by
      rw [← hkv, updated_expire]
    cases kv
    simp only at h1 h2 h3
    rw [h1, h2, h3]
  | none =>
    refine ⟨c.nextId, ?_⟩
    rw [AddEntry_miss he]
    simp only [mapGet_mapSet_self, expireAfterAdd, he]

/-- `Get` on an indexed entry that has not expired. -/
theorem Get_hit [Value V] {c : Cache V} {key : String} {e : Element V} {now : Time}
    (he : mapGet key c.cache = some e) (hlive : ¬ e.Value.expire < now) :
    c.Get key now = ({ c with ll := MoveToFront c.ll e }, some e.Value.value) := by
  simp only [Cache.Get, he, if_neg hlive]

/-- `Get` on an indexed entry that has expired. -/
theorem Get_expired [Value V] {c : Cache V} {key : String} {e : Element V} {now : Time}
    (he : mapGet key c.cache = some e) (hdead : e.Value.expire < now) :
    c.Get key now = (c.RemoveElement e, none) := by
  simp only [Cache.Get, he, if_pos hdead]

/-- `Get` on a key that is not in the index. -/
theorem Get_absent [Value V] {c : Cache V} {key : String} (now : Time)
    (he : mapGet key c.cache = none) : c.Get key now = (c, none) := by
  simp only [Cache.Get, he]

/-- An integer in the range of `int64` is not changed by the wrap. -/
theorem wrap64_eq {x : Int} (h1 : -9223372036854775808 ≤ x) (h2 : x ≤ MaxInt64) : wrap64 x = x := by
  unfold wrap64 MaxInt64 at *
  omega

/-- The wrap of an integer at least `-2^63` is at most that integer. -/
theorem wrap64_le {x : Int} (h1 : -9223372036854775808 ≤ x) : wrap64 x ≤ x := by
  unfold wrap64
  omega

/-- The expiry after `Add` is at least the instant computed by that `Add`. -/
theorem le_expireAfterAdd (c : Cache V) (key : String) (t : Time) : t ≤ expireAfterAdd c key t := by
  unfold expireAfterAdd
  split
  · exact le_max_right _ _
  · exact le_refl _

/-- What C2 says, when the duration sum does not overflow: after `Add(k, v, ttl)` at `t0` with
`ttl > 0` and `ttl + jitter ≤ MaxInt64`, a `Get(k)` at a time `t1 ≤ t0 + ttl` that no reading of
the loop of `Add` exceeds returns `v`. -/
theorem Get_after_Add_within_ttl [Value V] {c c1 : Cache V} (hc : c.WF) (k : String) (v : V)
    (ttl : Duration) (j : Fin 60) (t0 t1 : Time) (clk : Nat → Nat → Time) (fuel : Nat)
    (httl : 0 < ttl) (hno : ttl + (j.val : Int) * Second ≤ MaxInt64)
    (hadd : c.Add k v ttl j t0 clk fuel = some c1)
    (hclk : ∀ n i, clk n i ≤ t1) (h1 : t1 ≤ t0 + ttl) : (c1.Get k t1).2 = some v := by
  unfold Time Duration at *
  obtain ⟨id, hget⟩ := mapGet_AddEntry_self hc k v ttl j t0
  have hw : wrap64 (ttl + (j.val : Int) * Second) = ttl + (j.val : Int) * Second := by
    apply wrap64_eq _ hno
    have : (0 : Int) ≤ (j.val : Int) * Second := by unfold Second; omega
    omega
  have hexp : t1 ≤ expireAfterAdd c k (t0 + wrap64 (ttl + (j.val : Int) * Second)) := by
    refine le_trans ?_ (le_expireAfterAdd c k _)
    rw [hw]
    have : (0 : Int) ≤ (j.val : Int) * Second := by unfold Second; omega
    omega
  have hkeep := mapGet_evictLoop_keep (WF_AddEntry hc k v ttl j t0) hadd hget
    (fun n i => by simp only [not_lt]; exact le_trans (hclk n i) hexp)
  rw [Get_hit hkeep (by simp only [not_lt]; exact hexp)]

/-- Claim C3, amended. Let the store not hold `k`, or hold it with an expiry not later than
`t0 + ttl + 60s`, and let `ttl` be an `int64`. After `Add(k, v, ttl)` at time `t0`, whatever the
jitter draw, a `Get(k)` at any time later than `t0 + ttl + 60s` reports a miss. -/
theorem C3_get_after_ttl_and_jitter_misses [Value V] {c c1 : Cache V} (hc : c.WF) (k : String)
    (v : V) (ttl : Duration) (j : Fin 60) (t0 t1 : Time) (clk : Nat → Nat → Time) (fuel : Nat)
    (hmin : -9223372036854775808 ≤ ttl)
    (hold : ∀ e, mapGet k c.cache = some e → e.Value.expire ≤ t0 + ttl + 60 * Second)
    (hadd : c.Add k v ttl j t0 clk fuel = some c1)
    (hlate : t0 + ttl + 60 * Second < t1) : (c1.Get k t1).2 = none := by
  unfold Time Duration at *
  obtain ⟨id, hget⟩ := mapGet_AddEntry_self hc k v ttl j t0
  have hj : (0 : Int) ≤ (j.val : Int) * Second ∧ (j.val : Int) * Second < 60 * Second := by
    have := j.isLt
    unfold Second; omega
  have hw : wrap64 (ttl + (j.val : Int) * Second) ≤ ttl + (j.val : Int) * Second :=
    wrap64_le (by omega)
  have hexp : expireAfterAdd c k (t0 + wrap64 (ttl + (j.val : Int) * Second)) < t1 := by
    have hnew : t0 + wrap64 (ttl + (j.val : Int) * Second) ≤ t0 + ttl + 60 * Second := by omega
    unfold expireAfterAdd
    split
    · next e he => exact lt_of_le_of_lt (max_le (hold e he) hnew) hlate
    · exact lt_of_le_of_lt hnew hlate
  cases h1 : mapGet k c1.cache with
  | none => rw [Get_absent t1 h1]
  | some e1 =>
    have h2 := mapGet_evictLoop_some hadd h1
    rw [hget] at h2
    injection h2 with h2
    rw [Get_expired h1 (by rw [← h2]; exact hexp)]

/-- Claim C6. For every store with `maxBytes > 0` and every `Add` that returns, afterwards
either `nbytes ≤ maxBytes`, or no entry of the store is expired at the time of the call. (The
first alternative always holds: the loop of `Add` is left only when `nbytes ≤ maxBytes`.) -/
theorem C6_after_add_within_bound_or_nothing_expired [Value V] {c c1 : Cache V} (key : String)
    (value : V) (ttl : Duration) (jitter : Fin 60) (now : Time) (clk : Nat → Nat → Time)
    (fuel : Nat) (hmax : 0 < c.maxBytes)
    (hadd : c.Add key value ttl jitter now clk fuel = some c1) :
    c1.nbytes ≤ c1.maxBytes ∨ ∀ e ∈ c1.ll, ¬ e.Value.expire < now := by
  left
  have h1 := evictLoop_bound hadd
  have h2 := evictLoop_maxBytes hadd
  rw [AddEntry_maxBytes] at h2
  by_contra h3
  exact h1 ⟨by omega, by omega⟩

/-- The entry of the key after an `Add` that leaves it present. -/
theorem expire_after_Add [Value V] {c c1 : Cache V} (hc : c.WF) {k : String} {v : V}
    {ttl : Duration} {j : Fin 60} {now : Time} {clk : Nat → Nat → Time} {fuel : Nat}
    (hadd : c.Add k v ttl j now clk fuel = some c1) {e1 : Element V}
    (hk1 : mapGet k c1.cache = some e1) :
    e1.Value = ⟨k, v, expireAfterAdd c k (expireTime now ttl j)⟩ := by
  obtain ⟨id, hget⟩ := mapGet_AddEntry_self hc k v ttl j now
  have h2 := mapGet_evictLoop_some hadd hk1
  rw [hget] at h2
  injection h2 with h2
  rw [← h2]; rfl

/-- `Remove` of the last element of a list with distinct identities. -/
theorem Remove_append_singleton {l : List (Element V)} {e : Element V}
    (h : ((l ++ [e]).map (fun x => x.id)).Nodup) : Remove (l ++ [e]) e = l := by
  simp only [Remove, List.filter_append, List.filter_cons, List.filter_nil, ne_eq,
    not_true_eq_false, decide_False, Bool.false_eq_true, if_false, List.append_nil]
  apply List.filter_eq_self.mpr
  intro x hx
  simp only [decide_not, Bool.not_eq_true', decide_eq_false_iff_not]
  intro hxe
  rw [List.map_append, List.nodup_append] at h
  exact h.2.2 (List.mem_map.mpr ⟨x, hx, hxe⟩) (by simp)

/-- `RemoveOldest` removes the element at the back when it is expired at the first reading. -/
theorem RemoveOldest_back_expired [Value V] {c : Cache V} {l : List (Element V)} {e : Element V}
    (hl : c.ll = l ++ [e]) {clk : Nat → Time} (he : e.Value.expire < clk 0) :
    c.RemoveOldest clk = c.RemoveElement e := by
  simp only [Cache.RemoveOldest, hl, List.reverse_append, List.reverse_cons, List.reverse_nil,
    List.nil_append, List.singleton_append, scanExpired, if_pos he]

/-- The loop of `Add` on a list whose least recently used end is expired: see
`Add_evicts_expired_tail`. -/
theorem evictLoop_drops_expired_tail [Value V] (drop : List (Element V)) :
    ∀ (keep : List (Element V)) (c : Cache V) (clk : Nat → Nat → Time) (fuel : Nat),
      c.WF → c.maxBytes ≠ 0 → c.ll = keep ++ drop →
      (∀ e ∈ drop, ∀ n, e.Value.expire < clk n 0) →
      (∀ d1 d2, drop = d1 ++ d2 → d1 ≠ [] →
        c.maxBytes < c.nbytes - (d2.map (fun e => e.Value.size)).sum) →
      c.nbytes - (drop.map (fun e => e.Value.size)).sum ≤ c.maxBytes →
      drop.length ≤ fuel →
      ∃ c1, evictLoop fuel c clk = some c1 ∧ c1.ll = keep
        ∧ c1.nbytes = c.nbytes - (drop.map (fun e => e.Value.size)).sum
        ∧ c1.evicted = c.evicted ++
            (if c.OnEvicted then drop.reverse.map (fun e => (e.Value.key, e.Value.value)) else [])
        ∧ (∀ e ∈ drop, mapGet e.Value.key c1.cache = none) := by
  induction drop using List.reverseRecOn with
  | nil =>
    intro keep c clk fuel _ _ hll _ _ hfit _
    refine ⟨c, ?_, by simpa using hll, by simp, by simp, by simp⟩
    apply evictLoop_unbounded
    simp only [List.map_nil, List.sum_nil, sub_zero] at hfit
    intro h; omega
  | append_singleton d e ih =>
    intro keep c clk fuel hc hmax hll hexp hneed hfit hfuel
    have hover : c.maxBytes < c.nbytes := by
      have := hneed (d ++ [e]) [] (by simp) (by simp)
      simpa using this
    obtain ⟨n, rfl⟩ : ∃ n, fuel = n + 1 := by
      simp only [List.length_append, List.length_singleton] at hfuel
      exact ⟨fuel - 1, by omega⟩
    have hll1 : c.ll = (keep ++ d) ++ [e] := by rw [hll, List.append_assoc]
    have hstep : c.RemoveOldest (clk 0) = c.RemoveElement e :=
      RemoveOldest_back_expired hll1 (hexp e (by simp) 0)
    have hemem : e ∈ c.ll := by rw [hll1]; simp
    have hwf1 := WF_RemoveElement hc hemem
    have hll2 : (c.RemoveElement e).ll = keep ++ d := by
      simp only [Cache.RemoveElement]
      have := hc.ids
      rw [hll1] at this ⊢
      exact Remove_append_singleton this
    have hnb : (c.RemoveElement e).nbytes = c.nbytes - e.Value.size := by
      simp only [Cache.RemoveElement, entry.size]
    obtain ⟨c1, h1, h2, h3, h4, h5⟩ := ih keep (c.RemoveElement e) (fun m => clk (m + 1)) n hwf1
      hmax hll2 (fun x hx m => hexp x (by simp [hx]) (m + 1))
      (by
        intro d1 d2 hd hd1
        have := hneed d1 (d2 ++ [e]) (by rw [hd, List.append_assoc]) hd1
        rw [hnb]
        simp only [List.map_append, List.sum_append, List.map_cons, List.map_nil, List.sum_cons,
          List.sum_nil, add_zero] at this
        change c.maxBytes < c.nbytes - e.Value.size - _
        omega)
      (by
        rw [hnb]
        simp only [List.map_append, List.sum_append, List.map_cons, List.map_nil, List.sum_cons,
          List.sum_nil, add_zero] at hfit
        change c.nbytes - e.Value.size - _ ≤ c.maxBytes
        omega)
      (by simp only [List.length_append, List.length_singleton] at hfuel; omega)
    refine ⟨c1, ?_, h2, ?_, ?_, ?_⟩
    · rw [evictLoop, if_pos ⟨hmax, hover⟩, hstep]; exact h1
    · rw [h3, hnb]
      simp only [List.map_append, List.sum_append, List.map_cons, List.map_nil, List.sum_cons,
        List.sum_nil, add_zero]
      omega
    · rw [h4]
      simp only [Cache.RemoveElement, List.reverse_append, List.reverse_cons, List.reverse_nil,
        List.nil_append, List.singleton_append, List.map_cons]
      by_cases hcb : c.OnEvicted = true
      · simp [hcb]
      · simp [hcb]
    · intro x hx
      rcases List.mem_append.mp hx with hx1 | hx1
      · exact h5 x hx1
      · simp only [List.mem_singleton] at hx1
        subst hx1
        cases hg : mapGet x.Value.key c1.cache with
        | none => rfl
        | some y =>
          have := mapGet_evictLoop_some h1 hg
          simp only [Cache.RemoveElement, mapGet_mapDelete_self] at this
          cases this

/-- When the entries at the least recently used end of the list are expired, the loop of `Add`
evicts them from the back, oldest first, until `nbytes ≤ maxBytes`. -/
theorem Add_evicts_expired_tail [Value V] {c : Cache V} (hc : c.WF)
    (hmax : 0 < c.maxBytes) (key : String) (value : V) (ttl : Duration) (jitter : Fin 60)
    (now : Time) (clk : Nat → Nat → Time) (fuel : Nat) (keep drop : List (Element V))
    (hsplit : (c.AddEntry key value ttl jitter now).ll = keep ++ drop)
    (hexp : ∀ e ∈ drop, ∀ n, e.Value.expire < clk n 0)
    (hneed : ∀ i, i < drop.length → c.maxBytes <
      (c.AddEntry key value ttl jitter now).nbytes
        - ((drop.drop (i + 1)).map (fun e => e.Value.size)).sum)
    (hfit : (c.AddEntry key value ttl jitter now).nbytes
        - (drop.map (fun e => e.Value.size)).sum ≤ c.maxBytes)
    (hfuel : drop.length ≤ fuel) :
    ∃ c1, c.Add key value ttl jitter now clk fuel = some c1
      ∧ c1.ll = keep
      ∧ c1.evicted = c.evicted ++
          (if c.OnEvicted then drop.reverse.map (fun e => (e.Value.key, e.Value.value)) else [])
      ∧ (∀ e ∈ drop, mapGet e.Value.key c1.cache = none)
      ∧ c1.nbytes = (c.AddEntry key value ttl jitter now).nbytes
          - (drop.map (fun e => e.Value.size)).sum
      ∧ c1.nbytes ≤ c1.maxBytes := by
  have hm := AddEntry_maxBytes c key value ttl jitter now
  have hev : (c.AddEntry key value ttl jitter now).evicted = c.evicted
      ∧ (c.AddEntry key value ttl jitter now).OnEvicted = c.OnEvicted := by
    cases he : mapGet key c.cache with
    | some e => rw [AddEntry_hit he]; exact ⟨rfl, rfl⟩
    | none => rw [AddEntry_miss he]; exact ⟨rfl, rfl⟩
  obtain ⟨c1, h1, h2, h3, h4, h5⟩ := evictLoop_drops_expired_tail drop keep
    (c.AddEntry key value ttl jitter now) clk fuel (WF_AddEntry hc key value ttl jitter now)
    (by rw [hm]; omega) hsplit hexp
    (by
      intro d1 d2 hd hd1
      have hlen : d1.length - 1 < drop.length := by
        have : 0 < d1.length := List.length_pos.mpr hd1
        rw [hd, List.length_append]; omega
      have := hneed (d1.length - 1) hlen
      have hdrop : drop.drop (d1.length - 1 + 1) = d2 := by
        have : 0 < d1.length := List.length_pos.mpr hd1
        rw [hd, Nat.sub_add_cancel this, List.drop_left]
      rw [hdrop] at this
      rw [hm]; exact this)
    (by rw [hm]; exact hfit) hfuel
  refine ⟨c1, h1, h2, ?_, h5, h3, ?_⟩
  · rw [h4, hev.1, hev.2]
  · rw [h3, evictLoop_maxBytes h1, hm]; exact hfit

/-- What the loop of `Add` does, whatever the clock shows: it evicts a sequence `ev` of entries of
the list, each expired at one of the readings; the other entries stay, in their order; the
callback, when set, is invoked once per evicted entry, in the order of eviction; and `nbytes`
goes down by the sizes of the evicted entries. -/
theorem evictLoop_evicts_only_expired [Value V] (fuel : Nat) :
    ∀ (c c1 : Cache V) (clk : Nat → Nat → Time), c.WF → evictLoop fuel c clk = some c1 →
      ∃ ev : List (Element V),
        (∀ e ∈ ev, e ∈ c.ll ∧ ∃ n i, e.Value.expire < clk n i)
        ∧ c1.ll = c.ll.filter (fun x => decide (x.id ∉ ev.map (fun e => e.id)))
        ∧ c1.evicted = c.evicted ++
            (if c.OnEvicted then ev.map (fun e => (e.Value.key, e.Value.value)) else [])
        ∧ c1.nbytes = c.nbytes - (ev.map (fun e => e.Value.size)).sum := by
  induction fuel with
  | zero =>
    intro c c1 clk _ hr
    unfold evictLoop at hr
    split at hr
    · cases hr
    · injection hr with hr
      subst hr
      exact ⟨[], by simp, by simp, by simp, by simp⟩
  | succ n ih =>
    intro c c1 clk hc hr
    unfold evictLoop at hr
    split at hr
    · rcases RemoveOldest_cases c (clk 0) with h1 | ⟨e, i, he, hei, h1⟩
      · rw [h1] at hr
        obtain ⟨ev, h2, h3, h4, h5⟩ := ih c c1 (fun m => clk (m + 1)) hc hr
        exact ⟨ev, fun x hx => ⟨(h2 x hx).1, by
          obtain ⟨m, j, hm⟩ := (h2 x hx).2
          exact ⟨m + 1, j, hm⟩⟩, h3, h4, h5⟩
      · rw [h1] at hr
        obtain ⟨ev, h2, h3, h4, h5⟩ :=
          ih (c.RemoveElement e) c1 (fun m => clk (m + 1)) (WF_RemoveElement hc he) hr
        refine ⟨e :: ev, ?_, ?_, ?_, ?_⟩
        · intro x hx
          rcases List.mem_cons.mp hx with hx1 | hx1
          · rw [hx1]; exact ⟨he, 0, i, hei⟩
          · obtain ⟨hm, m, j, hmj⟩ := h2 x hx1
            exact ⟨(mem_Remove.mp hm).1, m + 1, j, hmj⟩
        · rw [h3]
          simp only [Cache.RemoveElement, Remove, List.filter_filter, List.map_cons,
            List.mem_cons, not_or]
          apply List.filter_congr
          intro x _
          simp only [ne_eq, decide_not, Bool.and_eq_true, Bool.not_eq_true',
            decide_eq_false_iff_not, Bool.decide_and, Bool.and_comm]
        · rw [h4]
          simp only [Cache.RemoveElement, List.map_cons]
          by_cases hcb : c.OnEvicted = true
          · simp [hcb]
          · simp [hcb]
        · rw [h5]
          simp only [Cache.RemoveElement, List.map_cons, List.sum_cons, entry.size]
          omega
    · injection hr with hr
      subst hr
      exact ⟨[], by simp, by simp, by simp, by simp⟩

/-- Claim C4, amended. Let `maxBytes > 0`. Whenever `Add` returns, `nbytes ≤ maxBytes`, and the
entries it has evicted were all expired at a reading of its loop: entries that have not expired
stay, in their order, wherever they are in the list; the callback, when set, has been invoked once
per evicted entry, in the order of eviction. And when the list, once `Add` has written its entry,
is `keep ++ drop`, where every entry of `drop` (the least recently used end) is expired at the
readings of the loop, dropping fewer than all of them leaves `nbytes` above `maxBytes`, and
dropping all of them brings it to at most `maxBytes`, then `Add` returns, the entries of `drop`
are evicted from the back, oldest first, with the callback invoked in that order, and `keep` is
what remains. -/
theorem C4_add_evicts_only_expired_entries_oldest_first [Value V] {c : Cache V} (hc : c.WF)
    (hmax : 0 < c.maxBytes) (key : String) (value : V) (ttl : Duration) (jitter : Fin 60)
    (now : Time) (clk : Nat → Nat → Time) (fuel : Nat) :
    (∀ c1, c.Add key value ttl jitter now clk fuel = some c1 →
      c1.nbytes ≤ c1.maxBytes
      ∧ ∃ ev : List (Element V),
          (∀ e ∈ ev, e ∈ (c.AddEntry key value ttl jitter now).ll
            ∧ ∃ n i, e.Value.expire < clk n i)
          ∧ c1.ll = (c.AddEntry key value ttl jitter now).ll.filter
              (fun x => decide (x.id ∉ ev.map (fun e => e.id)))
          ∧ c1.evicted = c.evicted ++
              (if c.OnEvicted then ev.map (fun e => (e.Value.key, e.Value.value)) else []))
    ∧ (∀ keep drop : List (Element V),
        (c.AddEntry key value ttl jitter now).ll = keep ++ drop →
        (∀ e ∈ drop, ∀ n, e.Value.expire < clk n 0) →
        (∀ i, i < drop.length → c.maxBytes <
          (c.AddEntry key value ttl jitter now).nbytes
            - ((drop.drop (i + 1)).map (fun e => e.Value.size)).sum) →
        (c.AddEntry key value ttl jitter now).nbytes
            - (drop.map (fun e => e.Value.size)).sum ≤ c.maxBytes →
        drop.length ≤ fuel →
        ∃ c1, c.Add key value ttl jitter now clk fuel = some c1
          ∧ c1.ll = keep
          ∧ c1.evicted = c.evicted ++
              (if c.OnEvicted then drop.reverse.map (fun e => (e.Value.key, e.Value.value))
               else [])
          ∧ (∀ e ∈ drop, mapGet e.Value.key c1.cache = none)
          ∧ c1.nbytes ≤ c1.maxBytes) := by
  constructor
  · intro c1 hadd
    have hev : (c.AddEntry key value ttl jitter now).evicted = c.evicted
        ∧ (c.AddEntry key value ttl jitter now).OnEvicted = c.OnEvicted := by
      cases he : mapGet key c.cache with
      | some e => rw [AddEntry_hit he]; exact ⟨rfl, rfl⟩
      | none => rw [AddEntry_miss he]; exact ⟨rfl, rfl⟩
    constructor
    · have h1 := evictLoop_bound hadd
      have h2 := evictLoop_maxBytes hadd
      rw [AddEntry_maxBytes] at h2
      by_contra h3
      exact h1 ⟨by omega, by omega⟩
    · obtain ⟨ev, h1, h2, h3, _⟩ := evictLoop_evicts_only_expired fuel _ c1 clk
        (WF_AddEntry hc key value ttl jitter now) hadd
      exact ⟨ev, h1, h2, by rw [h3, hev.1, hev.2]⟩
  · intro keep drop hsplit hexp hneed hfit hfuel
    obtain ⟨c1, h1, h2, h3, h4, _, h6⟩ := Add_evicts_expired_tail hc hmax key value ttl jitter
      now clk fuel keep drop hsplit hexp hneed hfit hfuel
    exact ⟨c1, h1, h2, h3, h4, h6⟩

/-- When a pass of `RemoveOldest` never removes anything and the condition of the loop holds, the
loop does not return, whatever the fuel. -/
theorem evictLoop_stuck [Value V] {c : Cache V} {clk : Nat → Nat → Time}
    (hover : c.maxBytes ≠ 0 ∧ c.maxBytes < c.nbytes)
    (hnone : ∀ n, c.RemoveOldest (clk n) = c) : ∀ fuel, evictLoop fuel c clk = none := by
  intro fuel
  induction fuel generalizing clk with
  | zero => rw [evictLoop, if_pos hover]
  | succ n ih =>
    rw [evictLoop, if_pos hover, hnone 0]
    exact ih (fun m => hnone (m + 1))

/-- The scan of `RemoveOldest` stops nowhere when nothing is expired at its readings. -/
theorem scanExpired_none {l : List (Element V)} {clk : Nat → Time}
    (h : ∀ e ∈ l, ∀ i, ¬ e.Value.expire < clk i) : scanExpired l clk = none := by
  induction l generalizing clk with
  | nil => rfl
  | cons a l ih =>
    rw [scanExpired, if_neg (h a (List.mem_cons_self _ _) 0)]
    exact ih (fun e he i => h e (List.mem_cons_of_mem _ he) (i + 1))

/-- A sum of sizes is not negative. -/
theorem sum_sizes_nonneg [Value V] (l : List (Element V)) :
    0 ≤ (l.map (fun e => e.Value.size)).sum := by
  induction l with
  | nil => simp
  | cons a l ih =>
    simp only [List.map_cons, List.sum_cons]
    have : 0 ≤ a.Value.size := by unfold entry.size; omega
    omega

/-- With nothing expired at any reading of the loop, `Add` of a new key larger than the
bound never leaves its loop. -/
theorem Add_oversized_never_returns [Value V] {c : Cache V} (hc : c.WF) (hmax : 0 < c.maxBytes)
    (key : String) (value : V) (ttl : Duration) (jitter : Fin 60) (now : Time)
    (clk : Nat → Nat → Time) (hnew : mapGet key c.cache = none)
    (hbig : c.maxBytes < (key.utf8ByteSize : Int) + (Value.Len value : Int))
    (hlive : ∀ e ∈ c.ll, ∀ n i, ¬ e.Value.expire < clk n i)
    (hlive1 : ∀ n i, ¬ expireTime now ttl jitter < clk n i) :
    ∀ fuel, c.Add key value ttl jitter now clk fuel = none := by
  unfold Cache.Add
  apply evictLoop_stuck
  · rw [AddEntry_miss hnew]
    simp only
    have := sum_sizes_nonneg c.ll
    rw [← hc.bytes] at this
    constructor <;> omega
  · intro n
    unfold Cache.RemoveOldest
    rw [scanExpired_none]
    intro e he i
    rw [AddEntry_miss hnew] at he
    simp only [List.mem_reverse, List.mem_cons] at he
    rcases he with h1 | h1
    · rw [h1]; exact hlive1 n i
    · exact hlive e h1 n i

/-- Claim C9, amended. Let `Add(k, v1, ttl)` return a store that holds `k`, and let the following
`Add(k, v2, ttl)` need no eviction (the store is unbounded, or `nbytes` with `v2` in place of
`v1` is at most `maxBytes`). Then a `Get(k)` made no later than the instant computed by the second
`Add` returns `v2`, and `Len()` is what it was right after the first `Add`. -/
theorem C9_readd_replaces_value_and_keeps_len [Value V] {c c1 c2 : Cache V} (hc : c.WF)
    (k : String) (v1 v2 : V) (ttl : Duration) (j1 j2 : Fin 60) (t1 t2 t : Time)
    (clk1 clk2 : Nat → Nat → Time) (f1 f2 : Nat)
    (hadd1 : c.Add k v1 ttl j1 t1 clk1 f1 = some c1)
    (hpresent : mapGet k c1.cache ≠ none)
    (hroom : c1.maxBytes = 0 ∨
      c1.nbytes + ((Value.Len v2 : Int) - (Value.Len v1 : Int)) ≤ c1.maxBytes)
    (hadd2 : c1.Add k v2 ttl j2 t2 clk2 f2 = some c2)
    (hget : t ≤ expireTime t2 ttl j2) :
    (c2.Get k t).2 = some v2 ∧ c2.Len = c1.Len := by
  have hc1 := WF_Add hc hadd1
  cases he1 : mapGet k c1.cache with
  | none => exact absurd he1 hpresent
  | some e1 =>
    have hv1 := expire_after_Add hc hadd1 he1
    have hnb : (c1.AddEntry k v2 ttl j2 t2).nbytes =
        c1.nbytes + ((Value.Len v2 : Int) - (Value.Len v1 : Int)) := by
      rw [AddEntry_hit he1, hv1]
    have hc2 : c2 = c1.AddEntry k v2 ttl j2 t2 := by
      unfold Cache.Add at hadd2
      rw [evictLoop_unbounded] at hadd2
      · injection hadd2 with hadd2; exact hadd2.symm
      · rw [hnb, AddEntry_maxBytes]
        intro h
        rcases hroom with h1 | h1
        · exact h.1 h1
        · omega
    constructor
    · obtain ⟨id, hg⟩ := mapGet_AddEntry_self hc1 k v2 ttl j2 t2
      rw [← hc2] at hg
      rw [Get_hit hg]
      simp only [not_lt]
      exact le_trans hget (le_expireAfterAdd c1 k _)
    · rw [hc2]
      unfold Cache.Len
      rw [AddEntry_hit_ll hc1 he1]
      have := (cons_Remove_perm hc1.ids (hc1.sound k e1 he1).1).length_eq
      simpa using this

/-- What C8 says, when the duration sum does not overflow. For a store holding key `k` with
expiry `e`, and an `Add(k, v, ttl)` at time `now` with jitter draw `j` that leaves `k` present:
the expiry of the entry afterwards is `max(e, T)`, where `T` is the instant
`time.Now().Add(ttl + jitter)` computed by this `Add`, so a repeat `Add` never moves the expiry
earlier; and `T` is `now + ttl + j`, so that the expiry is `max(e, now + ttl + j)`, whenever the
`int64` sum `ttl + j` does not overflow. -/
theorem repeat_add_expiry_is_max [Value V] {c c1 : Cache V} (hc : c.WF) (k : String) (v : V)
    (ttl : Duration) (j : Fin 60) (now : Time) (clk : Nat → Nat → Time) (fuel : Nat)
    (e e1 : Element V) (hheld : mapGet k c.cache = some e)
    (hadd : c.Add k v ttl j now clk fuel = some c1) (hkept : mapGet k c1.cache = some e1) :
    e1.Value.expire = max e.Value.expire (expireTime now ttl j)
      ∧ e.Value.expire ≤ e1.Value.expire
      ∧ (-9223372036854775808 ≤ ttl + (j.val : Int) * Second →
          ttl + (j.val : Int) * Second ≤ MaxInt64 →
          e1.Value.expire = max e.Value.expire (now + ttl + (j.val : Int) * Second)) := by
  have h1 := expire_after_Add hc hadd hkept
  have h2 : e1.Value.expire = max e.Value.expire (expireTime now ttl j) := by
    rw [h1]; simp only [expireAfterAdd, hheld]
  refine ⟨h2, by rw [h2]; exact le_max_left _ _, ?_⟩
  intro hlo hhi
  rw [h2, expireTime, wrap64_eq hlo hhi, add_assoc]

end lru

namespace geecache

open lru

/-- The first `add` on a tier makes the store and returns at once when the entry fits. -/
theorem cache_add_fresh_fits (c : cache) (key : String) (value : ByteView) (r : Readings)
    (hnil : c.lru = none)
    (hfit : c.cacheBytes = 0 ∨
      (key.utf8ByteSize : Int) + (value.b.length : Int) ≤ c.cacheBytes) :
    c.add key value r = some ⟨some ((New c.cacheBytes false c.ttl : Cache ByteView).AddEntry key
      value c.ttl r.jitter r.addNow), c.cacheBytes, c.ttl⟩ := by
  simp only [cache.add, hnil, Cache.Add]
  rw [evictLoop_unbounded]
  · rfl
  · simp only [Cache.AddEntry, New, mapGet, ne_eq, not_and, not_lt, Value.Len]
    intro h
    rcases hfit with h1 | h1
    · exact absurd h1 h
    · simpa using h1

/-- The instant computed by `Add` with `ttl = 0`: `now` plus the jitter. -/
theorem expireTime_zero_ttl (now : Time) (jitter : Fin 60) :
    expireTime now 0 jitter = now + (jitter.val : Int) * Second := by
  unfold expireTime
  rw [wrap64_eq]
  · simp
  · have := jitter.isLt
    unfold Second; omega
  · have := jitter.isLt
    unfold Second MaxInt64; omega

/-- Claim C7, amended. For a group made by `NewGroup` (no peer picker), a non-empty key `k` on
which the loader returns `b`, with `len(k) + len(b)` within the bound of the main tier: the first
`Get(k)` invokes the loader once and returns `b`; if its jitter draw is at least `1`, a following
`Get(k)` whose clock reading is less than one second after that of the first returns `b` without
invoking the loader. -/
theorem C7_second_get_within_a_second_hits_when_jitter_positive (name : String)
    (cacheBytes : Int) (getter : String → Except String (List UInt8)) (k : String)
    (b : List UInt8) (r1 r2 : Readings)
    (hk : k ≠ "") (hload : getter k = .ok b)
    (hfit : cacheBytes = 0 ∨ (k.utf8ByteSize : Int) + (b.length : Int) ≤ cacheBytes)
    (hjitter : 1 ≤ r1.jitter.val)
    (hsoon : r2.mainNow < r1.addNow + Second) :
    ∃ g1 g2, (NewGroup name cacheBytes getter).Get k r1 = some (g1, ⟨b⟩, none)
      ∧ g1.getterCalls = [k]
      ∧ g1.Get k r2 = some (g2, ⟨b⟩, none)
      ∧ g2.getterCalls = [k] := by
  have hadd := cache_add_fresh_fits { lru := none, cacheBytes := cacheBytes, ttl := 0 } k ⟨b⟩ r1 rfl hfit
  have hexp : ¬ r1.addNow + wrap64 (0 + (r1.jitter.val : Int) * Second) < r2.mainNow := by
    have h1 := expireTime_zero_ttl r1.addNow r1.jitter
    unfold expireTime at h1
    rw [h1]
    unfold Second Time at *
    omega
  have hget1 : (NewGroup name cacheBytes getter).Get k r1 =
      some ({ NewGroup name cacheBytes getter with
              mainCache := ⟨some ((New cacheBytes false 0 : Cache ByteView).AddEntry k ⟨b⟩ 0 r1.jitter r1.addNow), cacheBytes, 0⟩
              getterCalls := [k] }, ⟨b⟩, none) := by
    simp only [Group.Get, hk, if_false, NewGroup, cache.get, Group.load, singleflightDo,
      Group.loadFn, Group.getLocally, hload, cloneBytes, Group.populateCache, hadd,
      Option.map_some', if_true, List.nil_append]
  refine ⟨_, ?_, hget1, rfl, ?_⟩
  · exact { NewGroup name cacheBytes getter with
              mainCache := ⟨some (((New cacheBytes false 0 : Cache ByteView).AddEntry k ⟨b⟩ 0 r1.jitter r1.addNow).Get k r2.mainNow).1, cacheBytes, 0⟩
              getterCalls := [k] }
  · constructor
    · simp only [Group.Get, hk, if_false, cache.get, Cache.Get, Cache.AddEntry, New, mapGet,
        mapSet, if_true, if_neg hexp, NewGroup]
    · rfl

/-- `cache.get` on a key that the tier does not index: a miss, and no change. -/
theorem cache_get_absent (c : cache) (key : String) (now : Time)
    (h : ∀ l, c.lru = some l → mapGet key l.cache = none) : c.get key now = (c, none) := by
  obtain ⟨l, cb, ttl⟩ := c
  cases l with
  | none => rfl
  | some l =>
    have := h l rfl
    simp only [cache.get, Get_absent now this]

/-- `cache.add` of a key that the tier does not index, when the entry fits: the tier holds the
entry afterwards. -/
theorem cache_add_absent_fits (c : cache) (key : String) (value : ByteView) (r : Readings)
    (habs : ∀ l, c.lru = some l → mapGet key l.cache = none)
    (hroom0 : c.lru = none → c.cacheBytes = 0 ∨
      (key.utf8ByteSize : Int) + (value.b.length : Int) ≤ c.cacheBytes)
    (hroom1 : ∀ l, c.lru = some l → l.maxBytes = 0 ∨
      l.nbytes + ((key.utf8ByteSize : Int) + (value.b.length : Int)) ≤ l.maxBytes) :
    ∃ l1 e, c.add key value r = some ⟨some l1, c.cacheBytes, c.ttl⟩
      ∧ mapGet key l1.cache = some e ∧ e ∈ l1.ll
      ∧ e.Value = ⟨key, value, expireTime r.addNow c.ttl r.jitter⟩ := by
  obtain ⟨l, cb, ttl⟩ := c
  cases l with
  | none =>
    refine ⟨_, ⟨0, ⟨key, value, expireTime r.addNow ttl r.jitter⟩⟩,
      cache_add_fresh_fits ⟨none, cb, ttl⟩ key value r rfl (hroom0 rfl), ?_, ?_, rfl⟩
    · simp [Cache.AddEntry, New, mapGet, mapSet, expireTime]
    · simp [Cache.AddEntry, New, mapGet, mapSet, expireTime]
  | some l =>
    have h0 := habs l rfl
    refine ⟨l.AddEntry key value ttl r.jitter r.addNow,
      ⟨l.nextId, ⟨key, value, expireTime r.addNow ttl r.jitter⟩⟩, ?_, ?_, ?_, rfl⟩
    · simp only [cache.add, Cache.Add]
      rw [evictLoop_unbounded]
      · rfl
      · rw [AddEntry_miss h0]
        simp only [ne_eq, not_and, not_lt]
        intro h
        rcases hroom1 l rfl with h1 | h1
        · exact absurd h1 h
        · simpa [Value.Len] using h1
    · rw [AddEntry_miss h0]
      simp only [mapGet_mapSet_self, expireTime]
    · rw [AddEntry_miss h0]
      simp [expireTime]

/-- Claim C10, amended. For a group with a registered peer picker and a non-empty key `k` absent
from both tiers: if `PickPeer(k)` yields a peer whose `Get` fails, the loader returns `b`, and
adding `(k, b)` keeps the main tier within its bound (or the tier is unbounded), then
`Group.Get(k)` returns `b` with a nil error and `b` is stored under `k` in the main tier; the peer
and the loader have each been invoked once. -/
theorem C10_peer_error_falls_back_to_local_load (g : Group) (pick : String → Option PeerGetter)
    (peer : PeerGetter) (k : String) (b : List UInt8) (err : String) (r : Readings)
    (hk : k ≠ "") (hpeers : g.peers = some pick) (hpick : pick k = some peer)
    (hfail : peer.Get g.name k = .error err) (hload : g.getter k = .ok b)
    (hhot : ∀ l, g.hotCache.lru = some l → mapGet k l.cache = none)
    (hmain : ∀ l, g.mainCache.lru = some l → mapGet k l.cache = none)
    (hroom0 : g.mainCache.lru = none → g.mainCache.cacheBytes = 0 ∨
      (k.utf8ByteSize : Int) + (b.length : Int) ≤ g.mainCache.cacheBytes)
    (hroom1 : ∀ l, g.mainCache.lru = some l → l.maxBytes = 0 ∨
      l.nbytes + ((k.utf8ByteSize : Int) + (b.length : Int)) ≤ l.maxBytes) :
    ∃ g1 l1 e, g.Get k r = some (g1, ⟨b⟩, none)
      ∧ g1.mainCache.lru = some l1 ∧ mapGet k l1.cache = some e ∧ e ∈ l1.ll
      ∧ e.Value.key = k ∧ e.Value.value = ⟨b⟩
      ∧ g1.peerCalls = g.peerCalls ++ [k] ∧ g1.getterCalls = g.getterCalls ++ [k] := by
  obtain ⟨l1, e, hadd, hget, hmem, hval⟩ :=
    cache_add_absent_fits g.mainCache k ⟨b⟩ r hmain hroom0 hroom1
  refine ⟨{ g with
      mainCache := ⟨some l1, g.mainCache.cacheBytes, g.mainCache.ttl⟩
      peerCalls := g.peerCalls ++ [k]
      getterCalls := g.getterCalls ++ [k] }, l1, e, ?_, rfl, hget, hmem, ?_, ?_, rfl, rfl⟩
  · simp only [Group.Get, hk, if_false, cache_get_absent g.hotCache k r.hotNow hhot,
      cache_get_absent g.mainCache k r.mainNow hmain, Group.load, singleflightDo, Group.loadFn,
      hpeers, hpick, Group.getFromPeer, hfail, Group.getLocally, hload, cloneBytes,
      Group.populateCache, hadd, Option.map_some', if_true]
    simp
  · rw [hval]
  · rw [hval]

end geecache

namespace lru

/-- Witness of C1: the two calls of `TestAdd`. -/
theorem C1_witness :
    (New 0 false 60 : Cache String).run testAddOps = some testAddStore
      ∧ testAddStore.nbytes = (testAddStore.ll.map
          (fun e => (e.Value.key.utf8ByteSize : Int) + (Value.Len e.Value.value : Int))).sum :=
  ⟨by rfl, (C1_nbytes_is_sum_of_sizes 0 false 60 testAddOps testAddStore (by rfl)).1⟩

/-- The store `storeKey1 j` is what `Add("key1", "123456", 30)` makes. -/
theorem storeKey1_eq (j : Fin 60) :
    (New 10 true 30 : Cache String).Add "key1" "123456" 30 j 0 (fun _ _ => 0) 0
      = some (storeKey1 j) := by rfl

/-- The store `storeKey1 j` satisfies the representation invariant. -/
theorem WF_storeKey1 (j : Fin 60) : (storeKey1 j).WF := WF_Add (WF_New 10 true 30) (storeKey1_eq j)

/-- Claim C2, at the failing input. `Add("k", "v", ttl)` with `ttl = MaxInt64` nanoseconds and
jitter draw `1`, at time `0` on an empty unbounded store: the sum `ttl + 1s` wraps, the expiry is
`-9223372035854775809`, and `Get("k")` at time `0`, within `[t0, t0 + ttl]`, reports a miss. -/
theorem C2_add_with_overflowing_ttl_then_get_misses :
    ((New 0 false 0 : Cache String).Add "k" "v" MaxInt64 1 0 (fun _ _ => 0) 0).map
      (fun c => ((mapGet "k" c.cache).map (fun e => e.Value.expire), (c.Get "k" 0).2))
      = some (some (-9223372035854775809), none)
    ∧ (0 : Int) < MaxInt64 ∧ (0 : Int) ≤ 0 ∧ (0 : Int) ≤ 0 + MaxInt64 := by
  decide

/-- Counterexample to C3 as stated: the store already holds `"k"` with expiry `1000s`;
`Add("k", "v", 10s)` at time `0` with jitter draw `0` keeps that expiry, and `Get("k")` at `100s`,
later than `0 + 10s + 60s`, is a hit. -/
theorem C3_counterexample_existing_later_expiry :
    ((New 0 false 0 : Cache String).Add "k" "v" (1000 * Second) 0 0 (fun _ _ => 0) 0).bind
      (fun c => (c.Add "k" "v" (10 * Second) 0 0 (fun _ _ => 0) 0).map
        (fun c1 => (c1.Get "k" (100 * Second)).2)) = some (some "v")
    ∧ 0 + 10 * Second + 60 * Second < 100 * Second := by
  decide

/-- Witness of C3: `Add("k", "v", 10s)` on an empty store, then `Get("k")` after `70s`. -/
theorem C3_witness :
    (New 0 false 0 : Cache String).Add "k" "v" (10 * Second) 59 0 (fun _ _ => 0) 0
      = some ((New 0 false 0 : Cache String).AddEntry "k" "v" (10 * Second) 59 0)
    ∧ (((New 0 false 0 : Cache String).AddEntry "k" "v" (10 * Second) 59 0).Get "k"
        (70 * Second + 1)).2 = none :=
  ⟨by rfl, C3_get_after_ttl_and_jitter_misses (WF_New 0 false 0) "k" "v" (10 * Second) 59 0
    (70 * Second + 1) (fun _ _ => 0) 0 (by decide) (by intro e he; cases he) (by rfl) (by decide)⟩

/-- Counterexample to C4 as stated: with `maxBytes = 10`, `"key1"` (10 bytes, not yet expired) is
the least recently used entry when `Add("k2", "k2", 30)` raises `nbytes` to `14`; the loop evicts
`"k2"`, the entry just added, which has expired, and `"key1"` stays. The callback records
`["k2"]`. -/
theorem C4_counterexample_live_oldest_is_skipped :
    (New 10 true 30 : Cache String).Add "key1" "123456" 30 59 0 (fun _ _ => 0) 0
      = some (storeKey1 59)
    ∧ (storeKey1 59).maxBytes < ((storeKey1 59).AddEntry "k2" "k2" 30 0 100).nbytes
    ∧ ((storeKey1 59).Add "k2" "k2" 30 0 100 (fun _ _ => 200) 1).map
        (fun c => (c.evicted, c.ll.map (fun e => e.Value.key), c.nbytes))
      = some ([("k2", "k2")], ["key1"], 10) :=
  ⟨by rfl, by decide, by decide⟩

/-- Witness of C4: `"key1"` has expired when `Add("k2", "k2", 30)` raises `nbytes` to `14`. Also
the runs of `TestOnEvicted` and `TestRemoveOldest` when every `Add` is made after the entries
before it have expired: the callback records `["key1", "k2"]`; `Get("key1")` is a miss and
`Len()` is `2`. -/
theorem C4_witness :
    (∃ c1, (storeKey1 0).Add "k2" "k2" 30 0 100 (fun _ _ => 200) 1 = some c1
      ∧ c1.ll = [⟨1, ⟨"k2", "k2", 130⟩⟩]
      ∧ c1.evicted = [] ++ [("key1", "123456")]
      ∧ (∀ e ∈ [(⟨0, ⟨"key1", "123456", 30⟩⟩ : Element String)], mapGet e.Value.key c1.cache = none)
      ∧ c1.nbytes ≤ c1.maxBytes)
    ∧ ((((New 10 true 30 : Cache String).Add "key1" "123456" 30 0 0 (fun _ _ => 0) 0).bind
          (fun c => c.Add "k2" "k2" 30 0 100 (fun _ _ => 200) 1)).bind
          (fun c => c.Add "k3" "k3" 30 0 300 (fun _ _ => 400) 1)).bind
          (fun c => (c.Add "k4" "k4" 30 0 500 (fun _ _ => 600) 1).map
            (fun c1 => c1.evicted.map Prod.fst)) = some ["key1", "k2"]
    ∧ ((((New 20 false 30 : Cache String).Add "key1" "value1" 30 0 0 (fun _ _ => 0) 0).bind
          (fun c => c.Add "key2" "value2" 30 0 100 (fun _ _ => 200) 1)).bind
          (fun c => (c.Add "key3" "v3" 30 0 300 (fun _ _ => 400) 1).map
            (fun c1 => ((c1.Get "key1" 500).2, (c1.Get "key1" 500).1.Len)))) = some (none, 2) :=
  ⟨(C4_add_evicts_only_expired_entries_oldest_first (WF_storeKey1 0) (by decide) "k2" "k2" 30 0
      100 (fun _ _ => 200) 1).2 [⟨1, ⟨"k2", "k2", 130⟩⟩] [⟨0, ⟨"key1", "123456", 30⟩⟩] (by rfl)
      (by intro e he n; simp only [List.mem_singleton] at he; subst he; show (30 : Int) < 200; decide)
      (by decide) (by decide) (by decide),
    by decide, by decide⟩

/-- Claim C5, at the failing input. On an empty store bounded by `5` bytes, with the clock
fixed at `0`, `Add("key1", "123456", 30)` with jitter draw `1` (so `ttl + jitter > 0` and nothing
is expired) has not returned after any number of rounds of its loop. -/
theorem C5_add_larger_than_bound_never_returns :
    ∀ fuel, (New 5 false 0 : Cache String).Add "key1" "123456" 30 1 0 (fun _ _ => 0) fuel = none :=
  Add_oversized_never_returns (WF_New 5 false 0) (by decide) "key1" "123456" 30 1 0
    (fun _ _ => 0) (by rfl) (by decide) (by intro e he; cases he)
    (by intro n i; show ¬ expireTime 0 30 1 < 0; decide)

/-- Witness of C6: an `Add` that evicts one entry and returns. -/
theorem C6_witness :
    (0 : Int) < (storeKey1 0).maxBytes
    ∧ (storeKey1 0).Add "k2" "k2" 30 0 100 (fun _ _ => 200) 1
        = some ((storeKey1 0).AddEntry "k2" "k2" 30 0 100 |>.RemoveOldest (fun _ => 200))
    ∧ (((storeKey1 0).AddEntry "k2" "k2" 30 0 100 |>.RemoveOldest (fun _ => 200)).nbytes
          ≤ ((storeKey1 0).AddEntry "k2" "k2" 30 0 100 |>.RemoveOldest (fun _ => 200)).maxBytes
        ∨ ∀ e ∈ ((storeKey1 0).AddEntry "k2" "k2" 30 0 100 |>.RemoveOldest (fun _ => 200)).ll,
            ¬ e.Value.expire < 100) :=
  ⟨by decide, by rfl,
    @C6_after_add_within_bound_or_nothing_expired String _ (storeKey1 0) _ "k2" "k2" 30 0 100
      (fun _ _ => 200) 1 (by decide) (by rfl)⟩

/-- The store `storeK10` is what `Add("k", "v", 10s)` makes, and satisfies the invariant. -/
theorem WF_storeK10 : storeK10.WF :=
  WF_Add (WF_New 0 false 0)
    (show (New 0 false 0 : Cache String).Add "k" "v" (10 * Second) 0 0 (fun _ _ => 0) 0
      = some storeK10 by rfl)

/-- The scenario of C8: `Add("k", "v", 10s)` at `t = 0` and again at `t = 5s`, jitter draws `0`:
the expiry becomes `15s`, and `Get("k")` at `t = 12s` returns `"v"`. -/
theorem repeat_add_after_five_seconds_extends_expiry :
    (storeK10.Add "k" "v" (10 * Second) 0 (5 * Second) (fun _ _ => 5 * Second) 0).map
        (fun c => ((mapGet "k" c.cache).map (fun e => e.Value.expire), (c.Get "k" (12 * Second)).2))
      = some (some (15 * Second), some "v")
    ∧ ((15 * Second : Int) = max (10 * Second) (expireTime (5 * Second) (10 * Second) 0)
      ∧ (10 * Second : Int) ≤ 15 * Second
      ∧ (-9223372036854775808 ≤ 10 * Second + ((0 : Fin 60).val : Int) * Second →
          10 * Second + ((0 : Fin 60).val : Int) * Second ≤ MaxInt64 →
          (15 * Second : Int)
            = max (10 * Second) (5 * Second + 10 * Second + ((0 : Fin 60).val : Int) * Second))) :=
  ⟨by decide,
    repeat_add_expiry_is_max WF_storeK10 "k" "v" (10 * Second) 0 (5 * Second)
      (fun _ _ => 5 * Second) 0 ⟨0, ⟨"k", "v", 10 * Second⟩⟩ ⟨0, ⟨"k", "v", 15 * Second⟩⟩
      (by rfl) (by rfl) (by rfl)⟩

/-- Claim C8, at the failing input. The store holds `"k"` with expiry `5`; `Add("k", "v", ttl)`
with `ttl = MaxInt64` nanoseconds and jitter draw `1` at time `0` leaves `"k"` present. The `int64`
sum `ttl + 1s` wraps, the instant computed is in the past, and the expiry stays `5`, whereas
`max(e, now + ttl + j)` is `9223372037854775807`. -/
theorem C8_repeat_add_with_overflowing_ttl_keeps_old_expiry :
    (New 0 false 0 : Cache String).Add "k" "v" 5 0 0 (fun _ _ => 0) 0 = some storeK5
    ∧ (mapGet "k" storeK5.cache).map (fun e => e.Value.expire) = some 5
    ∧ expireTime 0 MaxInt64 1 = -9223372035854775809
    ∧ (storeK5.Add "k" "v" MaxInt64 1 0 (fun _ _ => 0) 0).map
        (fun c => (mapGet "k" c.cache).map (fun e => e.Value.expire)) = some (some 5)
    ∧ max (5 : Int) (0 + MaxInt64 + 1 * Second) = 9223372037854775807 :=
  ⟨by rfl, by decide, by decide, by decide, by decide⟩

/-- Counterexample to C9 as stated: the store, bounded by `10` bytes, holds an expired `"a"` and
`"k"`, so `Len()` is `2` right after `Add("k", "1", 30)`; `Add("k", "12345678", 30)` raises
`nbytes` to `11` and evicts `"a"`, so `Len()` is `1`. A `Get("k")` at time `100s`, after the
expiry, is a miss. -/
theorem C9_counterexample_second_add_evicts_or_get_is_late :
    ((New 10 false 0 : Cache String).Add "a" "1" 0 0 0 (fun _ _ => 0) 0).bind
        (fun c => c.Add "k" "1" 30 59 100 (fun _ _ => 100) 0) = some storeAK
    ∧ storeAK.Len = 2
    ∧ (storeAK.Add "k" "12345678" 30 59 100 (fun _ _ => 100) 1).map
        (fun c => (c.Len, (c.Get "k" 100).2, (c.Get "k" (100 * Second)).2))
      = some (1, some "12345678", none) :=
  ⟨by rfl, by decide, by decide⟩

/-- Witness of C9: the two calls of `TestAdd`, then `Get("key")`. -/
theorem C9_witness :
    (New 0 false 60 : Cache String).Add "key" "1" 60 0 0 (fun _ _ => 0) 0
        = some ((New 0 false 60 : Cache String).AddEntry "key" "1" 60 0 0)
    ∧ ((New 0 false 60 : Cache String).AddEntry "key" "1" 60 0 0).Add "key" "111" 60 0 0
        (fun _ _ => 0) 0 = some testAddStore
    ∧ (testAddStore.Get "key" 60).2 = some "111"
    ∧ testAddStore.Len = ((New 0 false 60 : Cache String).AddEntry "key" "1" 60 0 0).Len :=
  ⟨by rfl, by rfl,
    C9_readd_replaces_value_and_keeps_len (WF_New 0 false 60) "key" "1" "111" 60 0 0 0 0 60
      (fun _ _ => 0) (fun _ _ => 0) 0 0 (by rfl) (by decide) (Or.inl (by rfl)) (by rfl)
      (by decide)⟩

end lru

namespace geecache

open lru

/-- Counterexample to C7 as stated: with jitter draw `0` the entry of `"Tom"` expires at the
instant of the first `Get`; a second `Get("Tom")` one nanosecond later finds it expired and
invokes the loader again. -/
theorem C7_counterexample_jitter_zero_reloads :
    (NewGroup "scores" 2048 dbGetter).Get "Tom" (readingsAt 0 0 0 0)
      = some (scoresAfterTom, ⟨[54, 51, 48]⟩, none)
    ∧ scoresAfterTom.getterCalls = ["Tom"]
    ∧ (scoresAfterTom.Get "Tom" (readingsAt 1 1 0 0)).map
        (fun out => (out.2.1, out.2.2, out.1.getterCalls))
      = some (⟨[54, 51, 48]⟩, none, ["Tom", "Tom"]) :=
  ⟨by rfl, by rfl, by rfl⟩

/-- Witness of C7: the group of `main.go`, jitter draw `1`, second `Get` after `999999999ns`. -/
theorem C7_witness :
    ∃ g1 g2, (NewGroup "scores" 2048 dbGetter).Get "Tom" (readingsAt 0 0 1 0)
        = some (g1, ⟨[54, 51, 48]⟩, none)
      ∧ g1.getterCalls = ["Tom"]
      ∧ g1.Get "Tom" (readingsAt 999999999 999999999 0 0) = some (g2, ⟨[54, 51, 48]⟩, none)
      ∧ g2.getterCalls = ["Tom"] :=
  C7_second_get_within_a_second_hits_when_jitter_positive "scores" 2048 dbGetter "Tom"
    [54, 51, 48] (readingsAt 0 0 1 0) (readingsAt 999999999 999999999 0 0) (by decide) (by rfl)
    (by decide) (by decide) (by decide)

/-- Counterexample to C10 as stated: the main tier is bounded by `2` bytes and `len(k) + len(b)`
is `3`. `Group.Get("a")` returns `b` with a nil error, but the loop of `lru.Add` has evicted the
entry once it expired: the main tier holds nothing under `"a"`. -/
theorem C10_counterexample_oversized_value_is_not_stored :
    ((NewGroup "scores" 2 (fun _ => .ok [1, 2])).RegisterPeers
        (fun _ => some failingPeer)).map (fun g => g.Get "a" (readingsAt 0 1 0 1))
      = some (smallGroup.Get "a" (readingsAt 0 1 0 1))
    ∧ (smallGroup.Get "a" (readingsAt 0 1 0 1)).map (fun out => (out.2.1, out.2.2))
      = some (⟨[1, 2]⟩, none)
    ∧ (smallGroup.Get "a" (readingsAt 0 1 0 1)).map
        (fun out => out.1.mainCache.lru.map (fun l => (mapGet "a" l.cache, l.ll)))
      = some (some (none, [])) :=
  ⟨by rfl, by rfl, by rfl⟩

/-- Witness of C10: the same group with an unbounded main tier. -/
theorem C10_witness :
    ∃ g1 l1 e, ({ smallGroup with mainCache := ⟨none, 0, 0⟩ } : Group).Get "a" (readingsAt 0 1 0 1)
        = some (g1, ⟨[1, 2]⟩, none)
      ∧ g1.mainCache.lru = some l1 ∧ mapGet "a" l1.cache = some e ∧ e ∈ l1.ll
      ∧ e.Value.key = "a" ∧ e.Value.value = ⟨[1, 2]⟩
      ∧ g1.peerCalls = [] ++ ["a"] ∧ g1.getterCalls = [] ++ ["a"] :=
  C10_peer_error_falls_back_to_local_load { smallGroup with mainCache := ⟨none, 0, 0⟩ }
    (fun _ => some failingPeer) failingPeer "a" [1, 2] "peer unreachable" (readingsAt 0 1 0 1)
    (by decide) (by rfl) (by rfl) (by rfl) (by rfl) (by intro l h; cases h) (by intro l h; cases h)
    (by intro _; exact Or.inl (by rfl)) (by intro l h; cases h)

end geecache

namespace lru
variable {V : Type}

/-- In a list with distinct identities, `Remove` of an element takes that element out and leaves the
others in place. -/
theorem Remove_middle {front back : List (Element V)} {e : Element V}
    (h : ((front ++ e :: back).map (fun x => x.id)).Nodup) :
    Remove (front ++ e :: back) e = front ++ back := by
  have hne : ∀ x ∈ front ++ back, x.id ≠ e.id := by
    intro x hx hxe
    rw [List.map_append, List.map_cons, List.nodup_append] at h
    obtain ⟨_, h2, h3⟩ := h
    rw [List.nodup_cons] at h2
    rcases List.mem_append.mp hx with h4 | h4
    · exact h3 (List.mem_map.mpr ⟨x, h4, rfl⟩) (by rw [hxe]; exact List.mem_cons_self _ _)
    · exact h2.1 (List.mem_map.mpr ⟨x, h4, hxe⟩)
  simp only [Remove, List.filter_append, List.filter_cons, ne_eq, not_true_eq_false,
    decide_False, Bool.false_eq_true, if_false]
  congr 1
  · apply List.filter_eq_self.mpr
    intro x hx
    simpa using hne x (List.mem_append_left _ hx)
  · apply List.filter_eq_self.mpr
    intro x hx
    simpa using hne x (List.mem_append_right _ hx)

/-- With one clock reading, the scan of `RemoveOldest` passes over entries that have not expired. -/
theorem scanExpired_append_live {l1 l2 : List (Element V)} {now : Time}
    (h : ∀ x ∈ l1, ¬ x.Value.expire < now) :
    scanExpired (l1 ++ l2) (fun _ => now) = scanExpired l2 (fun _ => now) := by
  induction l1 with
  | nil => rfl
  | cons a l ih =>
    rw [List.cons_append, scanExpired, if_neg (h a (List.mem_cons_self _ _))]
    exact ih (fun x hx => h x (List.mem_cons_of_mem _ hx))

/-- A list with an element satisfying `p` splits at the last such element. -/
theorem exists_last_split (p : Element V → Prop) (l : List (Element V)) (h : ∃ x ∈ l, p x) :
    ∃ front e back, l = front ++ e :: back ∧ p e ∧ ∀ x ∈ back, ¬ p x := by
  induction l with
  | nil => obtain ⟨x, hx, _⟩ := h; cases hx
  | cons a l ih =>
    by_cases hl : ∃ x ∈ l, p x
    · obtain ⟨front, e, back, h1, h2, h3⟩ := ih hl
      exact ⟨a :: front, e, back, by rw [h1, List.cons_append], h2, h3⟩
    · obtain ⟨x, hx, hpx⟩ := h
      rcases List.mem_cons.mp hx with h1 | h1
      · subst h1
        exact ⟨[], x, l, rfl, hpx, fun y hy hpy => hl ⟨y, hy, hpy⟩⟩
      · exact absurd ⟨x, h1, hpx⟩ hl

/-- The keys of the entries of the list are distinct. -/
theorem WF_keys_nodup [Value V] {c : Cache V} (hc : c.WF) :
    (c.ll.map (fun e => e.Value.key)).Nodup := by
  apply List.Nodup.map_on
  · intro x hx y hy hxy
    have h1 := hc.complete x hx
    have h2 := hc.complete y hy
    rw [hxy, h2] at h1
    injection h1 with h1
    exact h1.symm
  · exact List.Nodup.of_map _ hc.ids

/-- In a list with distinct keys, the only entry with the key of `e` is `e`. -/
theorem filter_key_eq_singleton {l : List (Element V)}
    (h : (l.map (fun e => e.Value.key)).Nodup) {e : Element V} (he : e ∈ l) :
    l.filter (fun x => decide (x.Value.key = e.Value.key)) = [e] := by
  induction l with
  | nil => cases he
  | cons a l ih =>
    simp only [List.map_cons, List.nodup_cons] at h
    rcases List.mem_cons.mp he with h1 | h1
    · subst h1
      simp only [List.filter_cons, decide_True, if_true, List.cons.injEq, true_and]
      apply List.filter_eq_nil_iff.mpr
      intro x hx
      simp only [decide_eq_true_eq]
      intro hk
      exact h.1 (List.mem_map.mpr ⟨x, hx, hk⟩)
    · have hk : a.Value.key ≠ e.Value.key := by
        intro hk
        exact h.1 (List.mem_map.mpr ⟨e, h1, hk.symm⟩)
      simp only [List.filter_cons, hk, decide_False, Bool.false_eq_true, if_false]
      exact ih h.2 h1

/-- Claim C13. For every store built by `New` and every finite sequence of calls of `Add`, `Get`
and `RemoveOldest` that have returned, the index and the list are in one-to-one correspondence:
every key of the index maps to an entry of the list whose stored key is that key, and that entry
is the only one of the list with that key; every entry of the list is indexed under its own key; no
key occurs twice in the list; and the index holds each key once, `Len()` being the number of its
keys. -/
theorem C13_index_and_list_correspond [Value V] (maxBytes : Int) (onEvicted : Bool)
    (defaultTTL : Duration) (ops : List (Op V)) (c : Cache V)
    (h : (New maxBytes onEvicted defaultTTL : Cache V).run ops = some c) :
    (∀ k e, mapGet k c.cache = some e →
        e ∈ c.ll ∧ e.Value.key = k ∧ c.ll.filter (fun x => decide (x.Value.key = k)) = [e])
    ∧ (∀ e ∈ c.ll, mapGet e.Value.key c.cache = some e)
    ∧ (c.ll.map (fun e => e.Value.key)).Nodup
    ∧ (c.cache.map Prod.fst).Nodup
    ∧ c.Len = c.cache.length := by
  have hc := WF_run (WF_New maxBytes onEvicted defaultTTL) h
  refine ⟨?_, hc.complete, WF_keys_nodup hc, hc.keys, hc.count.symm⟩
  intro k e he
  obtain ⟨h1, h2⟩ := hc.sound k e he
  refine ⟨h1, h2, ?_⟩
  rw [← h2]
  exact filter_key_eq_singleton (WF_keys_nodup hc) h1

/-- Claim C14. For every store (one that satisfies the representation invariant `WF`, as every
store built by `New` and used through `Add`, `Get` and `RemoveOldest` does, by `WF_run`) and clock
reading `now`. If some entry is expired (`expire < now`),
the list is `front ++ e :: back` with `e` expired and nothing expired in `back`, and `RemoveOldest`
removes exactly `e`, the expired entry closest to the back: the list becomes `front ++ back`, the
index loses the key of `e` and keeps every other key with its entry, `nbytes` goes down by the size
of `e`, and the callback, when set, is invoked once, with `e`. If no entry is expired,
`RemoveOldest` leaves the whole store as it is, the record of callback invocations included. -/
theorem C14_RemoveOldest_removes_expired_entry_nearest_back [Value V] {c : Cache V} (hc : c.WF)
    (now : Time) :
    ((∃ x ∈ c.ll, x.Value.expire < now) →
      ∃ front e back, c.ll = front ++ e :: back ∧ e.Value.expire < now
        ∧ (∀ x ∈ back, ¬ x.Value.expire < now)
        ∧ (c.RemoveOldest (fun _ => now)).ll = front ++ back
        ∧ mapGet e.Value.key (c.RemoveOldest (fun _ => now)).cache = none
        ∧ (∀ k, k ≠ e.Value.key →
            mapGet k (c.RemoveOldest (fun _ => now)).cache = mapGet k c.cache)
        ∧ (c.RemoveOldest (fun _ => now)).nbytes
            = c.nbytes - ((e.Value.key.utf8ByteSize : Int) + (Value.Len e.Value.value : Int))
        ∧ (c.RemoveOldest (fun _ => now)).evicted
            = c.evicted ++ (if c.OnEvicted then [(e.Value.key, e.Value.value)] else [])
        ∧ (c.RemoveOldest (fun _ => now)).Len + 1 = c.Len)
    ∧ ((∀ x ∈ c.ll, ¬ x.Value.expire < now) → c.RemoveOldest (fun _ => now) = c) := by
  constructor
  · intro hex
    obtain ⟨front, e, back, h1, h2, h3⟩ :=
      exists_last_split (fun x => x.Value.expire < now) c.ll hex
    have hscan : scanExpired c.ll.reverse (fun _ => now) = some e := by
      rw [h1, List.reverse_append, List.reverse_cons, List.append_assoc,
        scanExpired_append_live (fun x hx => h3 x (List.mem_reverse.mp hx))]
      simp only [List.singleton_append, scanExpired, if_pos h2]
    have hrm : c.RemoveOldest (fun _ => now) = c.RemoveElement e := by
      simp only [Cache.RemoveOldest, hscan]
    have hll : (c.RemoveElement e).ll = front ++ back := by
      simp only [Cache.RemoveElement]
      have := hc.ids
      rw [h1] at this ⊢
      exact Remove_middle this
    refine ⟨front, e, back, h1, h2, h3, ?_, ?_, ?_, ?_, ?_, ?_⟩
    · rw [hrm, hll]
    · rw [hrm]; simp only [Cache.RemoveElement, mapGet_mapDelete_self]
    · intro k hk
      rw [hrm]; simp only [Cache.RemoveElement, mapGet_mapDelete_ne hk]
    · rw [hrm]; simp only [Cache.RemoveElement]
    · rw [hrm]; simp only [Cache.RemoveElement]
      by_cases hcb : c.OnEvicted = true
      · simp [hcb]
      · simp [hcb]
    · rw [hrm]; unfold Cache.Len
      rw [hll, h1]
      simp only [List.length_append, List.length_cons]
      omega
  · intro hlive
    simp only [Cache.RemoveOldest]
    rw [scanExpired_none (fun e he _ => hlive e (List.mem_reverse.mp he))]

/-- Claim C18. For every store (one that satisfies the representation invariant `WF`, as every
store built by `New` and used through `Add`, `Get` and `RemoveOldest` does, by `WF_run`) holding
key `k` with value `v` and expiry `e`, and every clock reading `now`. When `e < now`, `Get(k)` reports a miss, the entry is gone from the list (the
other entries stay, in their order) and from the index (the other keys keep their entries),
`nbytes` goes down by `len(k) + v.Len()`, and the callback, when set, is invoked once, with
`(k, v)`. When `e ≥ now`, `e = now` included, `Get(k)` is a hit with value `v`, and the entry
stays in the index and in the list. -/
theorem C18_get_of_expired_key_evicts_it [Value V] {c : Cache V} (hc : c.WF) (k : String)
    (v : V) (e : Time) (now : Time) (el : Element V) (hheld : mapGet k c.cache = some el)
    (hv : el.Value.value = v) (he : el.Value.expire = e) :
    (∃ front back, c.ll = front ++ el :: back)
    ∧ (e < now →
      (c.Get k now).2 = none
      ∧ (∀ front back, c.ll = front ++ el :: back → (c.Get k now).1.ll = front ++ back)
      ∧ (∀ x ∈ (c.Get k now).1.ll, x.Value.key ≠ k)
      ∧ mapGet k (c.Get k now).1.cache = none
      ∧ (∀ k1, k1 ≠ k → mapGet k1 (c.Get k now).1.cache = mapGet k1 c.cache)
      ∧ (c.Get k now).1.nbytes = c.nbytes - ((k.utf8ByteSize : Int) + (Value.Len v : Int))
      ∧ (c.Get k now).1.evicted = c.evicted ++ (if c.OnEvicted then [(k, v)] else []))
    ∧ (now ≤ e →
      (c.Get k now).2 = some v
      ∧ mapGet k (c.Get k now).1.cache = some el
      ∧ el ∈ (c.Get k now).1.ll
      ∧ (c.Get k now).1.evicted = c.evicted) := by
  obtain ⟨hmem, hkey⟩ := hc.sound k el hheld
  refine ⟨List.append_of_mem hmem, ?_⟩
  constructor
  · intro hlt
    have hg : c.Get k now = (c.RemoveElement el, none) := Get_expired hheld (by rw [he]; exact hlt)
    rw [hg]
    have hwf := WF_RemoveElement hc hmem
    have hnone : mapGet k (c.RemoveElement el).cache = none := by
      simp only [Cache.RemoveElement, hkey, mapGet_mapDelete_self]
    refine ⟨rfl, ?_, ?_, hnone, ?_, ?_, ?_⟩
    · intro front back hsplit
      simp only [Cache.RemoveElement]
      have := hc.ids
      rw [hsplit] at this ⊢
      exact Remove_middle this
    · intro x hx hxk
      have := hwf.complete x hx
      rw [hxk, hnone] at this
      cases this
    · intro k1 hk1
      simp only [Cache.RemoveElement, hkey, mapGet_mapDelete_ne hk1]
    · simp only [Cache.RemoveElement, hkey, hv]
    · simp only [Cache.RemoveElement, hkey, hv]
      by_cases hcb : c.OnEvicted = true
      · simp [hcb]
      · simp [hcb]
  · intro hge
    have hg := @Get_hit V _ c k el now hheld (by rw [he]; exact not_lt.mpr hge)
    rw [hg]
    refine ⟨by rw [hv], hheld, ?_, rfl⟩
    simp only
    rw [MoveToFront_of_mem hc.ids hmem]
    exact List.mem_cons_self _ _

/-- Claim C20. For every store (one that satisfies the representation invariant `WF`, as every
store built by `New` and used through `Add`, `Get` and `RemoveOldest` does, by `WF_run`) and key
`k`. A `Get(k)` that hits returns the stored value of `k`
and moves the entry of `k` to the front of the list, the other entries keeping their order; the
index, with every value and expiry, `nbytes`, `Len()` and the record of callback invocations are
as before. A `Get(k)` for a key that is not in the index returns no value and leaves the whole
store as it is. -/
theorem C20_get_hit_moves_to_front_and_miss_changes_nothing [Value V] {c : Cache V} (hc : c.WF)
    (k : String) (now : Time) :
    (∀ el, mapGet k c.cache = some el → ¬ el.Value.expire < now →
      (c.Get k now).2 = some el.Value.value
      ∧ (∃ front back, c.ll = front ++ el :: back)
      ∧ (∀ front back, c.ll = front ++ el :: back →
          (c.Get k now).1.ll = el :: (front ++ back))
      ∧ (c.Get k now).1.cache = c.cache
      ∧ (c.Get k now).1.nbytes = c.nbytes
      ∧ (c.Get k now).1.Len = c.Len
      ∧ (c.Get k now).1.evicted = c.evicted
      ∧ (c.Get k now).1.maxBytes = c.maxBytes)
    ∧ (mapGet k c.cache = none → c.Get k now = (c, none)) := by
  constructor
  · intro el hheld hlive
    have hmem := (hc.sound k el hheld).1
    rw [Get_hit hheld hlive]
    refine ⟨rfl, List.append_of_mem hmem, ?_, rfl, rfl, ?_, rfl, rfl⟩
    · intro front back hsplit
      simp only
      rw [MoveToFront_of_mem hc.ids hmem]
      have := hc.ids
      rw [hsplit] at this ⊢
      rw [Remove_middle this]
    · unfold Cache.Len
      simp only
      rw [MoveToFront_of_mem hc.ids hmem, List.length_cons, length_Remove hc.ids hmem]
  · intro habs
    exact Get_absent now habs

/-- The scan of `RemoveOldest` passes over entries that have not expired at the reading taken
when it visits them. -/
theorem scanExpired_append_live_at {l1 l2 : List (Element V)} {clk : Nat → Time}
    (h : ∀ i x, l1[i]? = some x → ¬ x.Value.expire < clk i) :
    scanExpired (l1 ++ l2) clk = scanExpired l2 (fun i => clk (i + l1.length)) := by
  induction l1 generalizing clk with
  | nil => rfl
  | cons a l ih =>
    rw [List.cons_append, scanExpired, if_neg (h 0 a (by simp))]
    rw [ih (fun i x hx => h (i + 1) x (by simpa using hx))]
    congr 1

/-- What `RemoveOldest` does when the clock moves during the scan: it removes the first entry,
from the back, that is expired at the reading taken when the scan visits it. -/
theorem RemoveOldest_at_readings [Value V] {c : Cache V} (hc : c.WF) (clk : Nat → Time)
    (front back : List (Element V)) (e : Element V) (hsplit : c.ll = front ++ e :: back)
    (he : e.Value.expire < clk back.length)
    (hback : ∀ i x, back.reverse[i]? = some x → ¬ x.Value.expire < clk i) :
    c.RemoveOldest clk = c.RemoveElement e ∧ (c.RemoveElement e).ll = front ++ back := by
  constructor
  · have hscan : scanExpired c.ll.reverse clk = some e := by
      rw [hsplit, List.reverse_append, List.reverse_cons, List.append_assoc,
        scanExpired_append_live_at hback]
      simp only [List.singleton_append, scanExpired, List.length_reverse, Nat.zero_add]
      rw [if_pos he]
    simp only [Cache.RemoveOldest, hscan]
  · simp only [Cache.RemoveElement]
    have := hc.ids
    rw [hsplit] at this ⊢
    exact Remove_middle this

end lru

namespace geecache
open lru

/-- What `getLocally` does when the getter fails: the error, an empty view, and no change but the
record of the invocation. -/
theorem getLocally_error (g : Group) (key : String) (r : Readings) (e : String)
    (h : g.getter key = .error e) :
    g.getLocally key r = some ({ g with getterCalls := g.getterCalls ++ [key] }, ⟨[]⟩, some e) := by
  simp only [Group.getLocally, h]

/-- Claim C11. For every group whose peer picker is absent or yields no peer for `k`, and every
non-empty key `k` absent from both tiers on which the loader returns the error `e`: `Group.Get(k)`
returns exactly `e`, with an empty view, after one invocation of the loader; the main tier, the
hot tier and the key-stats map are as before, and a later `Get(k)` invokes the loader again. -/
theorem C11_loader_error_is_returned_and_nothing_is_cached (g : Group) (k : String) (e : String)
    (r r2 : Readings) (hk : k ≠ "")
    (hpeers : g.peers = none ∨ ∃ pick, g.peers = some pick ∧ pick k = none)
    (hhot : ∀ l, g.hotCache.lru = some l → mapGet k l.cache = none)
    (hmain : ∀ l, g.mainCache.lru = some l → mapGet k l.cache = none)
    (hload : g.getter k = .error e) :
    ∃ g1 g2, g.Get k r = some (g1, ⟨[]⟩, some e)
      ∧ g1.mainCache = g.mainCache ∧ g1.hotCache = g.hotCache ∧ g1.keys = g.keys
      ∧ g1.getterCalls = g.getterCalls ++ [k] ∧ g1.peerCalls = g.peerCalls
      ∧ g1.Get k r2 = some (g2, ⟨[]⟩, some e)
      ∧ g2.getterCalls = g.getterCalls ++ [k] ++ [k] := by
  have hget : ∀ (g0 : Group) (r0 : Readings), g0.peers = g.peers → g0.getter = g.getter →
      g0.hotCache = g.hotCache → g0.mainCache = g.mainCache →
      g0.Get k r0 = some ({ g0 with getterCalls := g0.getterCalls ++ [k] }, ⟨[]⟩, some e) := by
    intro g0 r0 hp hg hh hm
    have hl : g0.getter k = .error e := by rw [hg]; exact hload
    have hhot0 : ∀ l, g0.hotCache.lru = some l → mapGet k l.cache = none := by rw [hh]; exact hhot
    have hmain0 : ∀ l, g0.mainCache.lru = some l → mapGet k l.cache = none := by
      rw [hm]; exact hmain
    rcases hpeers with h1 | ⟨pick, h1, h2⟩
    · simp only [Group.Get, hk, if_false, cache_get_absent g0.hotCache k r0.hotNow hhot0,
        cache_get_absent g0.mainCache k r0.mainNow hmain0, Group.load, singleflightDo,
        Group.loadFn, hp, h1, Group.getLocally, hl, Option.map_some']
      simp
    · simp only [Group.Get, hk, if_false, cache_get_absent g0.hotCache k r0.hotNow hhot0,
        cache_get_absent g0.mainCache k r0.mainNow hmain0, Group.load, singleflightDo,
        Group.loadFn, hp, h1, h2, Group.getLocally, hl, Option.map_some']
      simp
  refine ⟨{ g with getterCalls := g.getterCalls ++ [k] }, _, hget g r rfl rfl rfl rfl, rfl, rfl,
    rfl, rfl, rfl, hget _ r2 rfl rfl rfl rfl, rfl⟩

/-- An error returned by `getLocally` is the error of the getter, which has been invoked. -/
theorem getLocally_error_is_getter_error (g g1 : Group) (key : String) (r : Readings)
    (v : ByteView) (e : String) (h : g.getLocally key r = some (g1, v, some e)) :
    g.getter key = .error e ∧ g1.getterCalls = g.getterCalls ++ [key] := by
  unfold Group.getLocally at h
  cases hg : g.getter key with
  | error err =>
    rw [hg] at h
    simp only [Option.some.injEq, Prod.mk.injEq] at h
    obtain ⟨h1, _, h3⟩ := h
    rw [← h1, h3]
    exact ⟨rfl, rfl⟩
  | ok bytes =>
    rw [hg] at h
    simp only [Option.map_eq_some'] at h
    obtain ⟨g2, _, h2⟩ := h
    simp only [Prod.mk.injEq] at h2
    cases h2.2.2

/-- The getter of a group is not changed by `getFromPeer`, nor is the record of its
invocations. -/
theorem getFromPeer_getter (g g1 : Group) (peer : PeerGetter) (key : String) (r : Readings)
    (v : ByteView) (err : Option String) (h : g.getFromPeer peer key r = some (g1, v, err)) :
    g1.getter = g.getter ∧ g1.getterCalls = g.getterCalls := by
  unfold Group.getFromPeer at h
  cases hp : peer.Get g.name key with
  | error e =>
    rw [hp] at h
    simp only [Option.some.injEq, Prod.mk.injEq] at h
    rw [← h.1]
    exact ⟨rfl, rfl⟩
  | ok bytes =>
    rw [hp] at h
    simp only [Option.map_eq_some'] at h
    obtain ⟨g2, h1, h2⟩ := h
    simp only [Prod.mk.injEq] at h2
    rw [← h2.1]
    unfold Group.updateKeyStats at h1
    split at h1
    · simp only at h1
      split at h1
      · simp only [Option.map_eq_some', Group.populateHotCache] at h1
        obtain ⟨g3, ⟨c3, _, h4⟩, h5⟩ := h1
        rw [← h5, ← h4]
        exact ⟨rfl, rfl⟩
      · injection h1 with h1
        rw [← h1]
        exact ⟨rfl, rfl⟩
    · injection h1 with h1
      rw [← h1]
      exact ⟨rfl, rfl⟩

/-- An error returned by the function literal of `load` is the error of the getter. -/
theorem loadFn_error_is_getter_error (g g1 : Group) (key : String) (r : Readings)
    (named : ByteView × Option String) (v : ByteView) (e : String)
    (h : g.loadFn key r = some (g1, named, (v, some e))) :
    g.getter key = .error e ∧ g1.getterCalls = g.getterCalls ++ [key] := by
  unfold Group.loadFn at h
  simp only at h
  split at h
  · split at h
    · split at h
      · next g2 v2 err2 hfp =>
        obtain ⟨hg, hc⟩ := getFromPeer_getter g g2 _ key r v2 err2 hfp
        split at h
        · simp only [Option.some.injEq, Prod.mk.injEq] at h
          cases h.2.2.2
        · simp only [Option.map_eq_some'] at h
          obtain ⟨out, h1, h2⟩ := h
          obtain ⟨g3, v3, e3⟩ := out
          simp only [Prod.mk.injEq] at h2
          obtain ⟨h3, _, _, h5⟩ := h2
          subst h3 h5
          have := getLocally_error_is_getter_error g2 g3 key r v3 e h1
          rw [hg, hc] at this
          exact this
      · cases h
    · simp only [Option.map_eq_some'] at h
      obtain ⟨out, h1, h2⟩ := h
      obtain ⟨g3, v3, e3⟩ := out
      simp only [Prod.mk.injEq] at h2
      obtain ⟨h3, _, _, h5⟩ := h2
      subst h3 h5
      exact getLocally_error_is_getter_error g g3 key r v3 e h1
  · simp only [Option.map_eq_some'] at h
    obtain ⟨out, h1, h2⟩ := h
    obtain ⟨g3, v3, e3⟩ := out
    simp only [Prod.mk.injEq] at h2
    obtain ⟨h3, _, _, h5⟩ := h2
    subst h3 h5
    exact getLocally_error_is_getter_error g g3 key r v3 e h1

/-- An error returned by `load` is the error of the getter. -/
theorem load_error_is_getter_error (g g1 : Group) (key : String) (r : Readings)
    (v : ByteView) (e : String) (h : g.load key r = some (g1, v, some e)) :
    g.getter key = .error e ∧ g1.getterCalls = g.getterCalls ++ [key] := by
  unfold Group.load singleflightDo at h
  simp only [Option.map_eq_some'] at h
  obtain ⟨out, h1, h2⟩ := h
  obtain ⟨g3, named, v3, e3⟩ := out
  simp only at h2
  split at h2
  · simp only [Prod.mk.injEq] at h2
    cases h2.2.2
  · simp only [Prod.mk.injEq] at h2
    obtain ⟨h3, _, h5⟩ := h2
    subst h3 h5
    exact loadFn_error_is_getter_error g g3 key r named v3 e h1

/-- Claim C15. For every group, `Get("")` returns the error `key is required` with an empty
view, and changes nothing: neither tier, nor the key-stats map, and neither the loader nor a peer
is invoked. And `Get` rejects only the empty key: for a non-empty key, an error returned by
`Get` is the error that the loader, invoked with that key, has returned. -/
theorem C15_only_the_empty_key_is_rejected (g : Group) (r : Readings) :
    g.Get "" r = some (g, ⟨[]⟩, some "key is required")
    ∧ (∀ (k : String) (g1 : Group) (v : ByteView) (e : String), k ≠ "" →
        g.Get k r = some (g1, v, some e) →
        g.getter k = .error e ∧ g1.getterCalls = g.getterCalls ++ [k]) := by
  constructor
  · simp only [Group.Get, if_true]
  · intro k g1 v e hk h
    simp only [Group.Get, hk, if_false] at h
    split at h
    · simp only [Option.some.injEq, Prod.mk.injEq] at h
      cases h.2.2
    · split at h
      · simp only [Option.some.injEq, Prod.mk.injEq] at h
        cases h.2.2
      · have h1 := load_error_is_getter_error _ g1 k r v e h
        exact h1

/-- Reading a key after the count of one key has been changed in place. -/
theorem mapGet_bump (key k : String) (f : KeyStats → KeyStats) (m : List (String × KeyStats)) :
    mapGet k (m.map (fun p => if p.1 = key then (p.1, f p.2) else p))
      = if k = key then (mapGet key m).map f else mapGet k m := by
  induction m with
  | nil => simp [mapGet]
  | cons p m ih =>
    obtain ⟨k2, s⟩ := p
    rw [List.map_cons]
    by_cases h1 : k2 = key
    · simp only [h1, if_true]
      by_cases h2 : k = key
      · simp only [h2, mapGet, if_true, Option.map_some']
      · have h4 : ¬ key = k := fun h => h2 h.symm
        simp only [mapGet, h4, if_false, h2]
        rw [ih, if_neg h2]
    · simp only [h1, if_false]
      by_cases h2 : k2 = k
      · have h3 : ¬ k = key := fun h => h1 (h2.trans h)
        simp only [mapGet, h2, if_true, h3, if_false]
      · simp only [mapGet, h2, if_false]
        rw [ih]
        by_cases h3 : k = key
        · have h5 : ¬ k2 = key := h1
          simp only [h3, if_true, mapGet, h5, if_false]
        · simp only [h3, if_false]

/-- The quotient `d / 60` rounded by `roundMinutes`: the nearest integer, a half going away from
zero. -/
theorem roundMinutes_spec (d : Int) :
    (0 ≤ d → 60 * roundMinutes d - 30 ≤ d ∧ d < 60 * roundMinutes d + 30)
    ∧ (d < 0 → 60 * roundMinutes d - 30 < d ∧ d ≤ 60 * roundMinutes d + 30) := by
  unfold roundMinutes
  constructor
  · intro h
    rw [if_pos h]
    omega
  · intro h
    rw [if_neg (by omega)]
    omega

/-- `cache.add` when the entry fits, whether or not the tier already indexes the key: the loop of
`lru.Add` has nothing to evict, and the tier holds the value under the key afterwards. -/
theorem cache_add_fits (c : cache) (key : String) (value : ByteView) (r : Readings)
    (hwf : ∀ l, c.lru = some l → l.WF)
    (hroom0 : c.lru = none → c.cacheBytes = 0 ∨
      (key.utf8ByteSize : Int) + (value.b.length : Int) ≤ c.cacheBytes)
    (hroom1 : ∀ l, c.lru = some l → l.maxBytes = 0 ∨
      (l.AddEntry key value c.ttl r.jitter r.addNow).nbytes ≤ l.maxBytes) :
    ∃ l1 e, c.add key value r = some ⟨some l1, c.cacheBytes, c.ttl⟩
      ∧ mapGet key l1.cache = some e ∧ e ∈ l1.ll
      ∧ e.Value.key = key ∧ e.Value.value = value := by
  obtain ⟨l, cb, ttl⟩ := c
  cases l with
  | none =>
    obtain ⟨l1, e, h1, h2, h3, h4⟩ := cache_add_absent_fits ⟨none, cb, ttl⟩ key value r
      (by intro l h; cases h) hroom0 (by intro l h; cases h)
    exact ⟨l1, e, h1, h2, h3, by rw [h4], by rw [h4]⟩
  | some l =>
    have hl := hwf l rfl
    obtain ⟨id, hget⟩ := mapGet_AddEntry_self hl key value ttl r.jitter r.addNow
    refine ⟨l.AddEntry key value ttl r.jitter r.addNow, _, ?_, hget,
      ((WF_AddEntry hl key value ttl r.jitter r.addNow).sound key _ hget).1, rfl, rfl⟩
    simp only [cache.add, Cache.Add]
    rw [evictLoop_unbounded]
    · rfl
    · rw [AddEntry_maxBytes]
      simp only [ne_eq, not_and, not_lt]
      intro h
      rcases hroom1 l rfl with h1 | h1
      · exact absurd h1 h
      · exact h1

/-- Claim C17, amended. For every group, key `k` and clock reading (taken in whole seconds by
`unix`). When `k` has a stats entry with first-seen time `f` and count `c`, the divisor
`d = max(1, round((now - f) / 60))`, a half rounded away from zero, is at least `1`, also when
`now < f`. If the integer quotient `(c + 1) / d` is at least `10`, `updateKeyStats` calls `add` on
the hot tier and deletes the stats entry of `k`; and when the entry fits the hot tier (the tier is
unbounded, or `nbytes` with the entry written is within its bound; the store of the tier
satisfying the representation invariant `WF`, as every store built by `New` and used through
`Add`, `Get` and `RemoveOldest` does), the call returns and the hot tier holds `v` under `k`
afterwards. Otherwise it leaves the hot tier as it is and keeps the entry, with count `c + 1`.
When `k` has no stats entry, it only creates one, with first-seen time `now` and count `1`. The
entries of the other keys and the main tier are never changed. -/
theorem C17_updateKeyStats_promotes_at_ten_per_minute (g : Group) (k : String) (v : ByteView)
    (r : Readings) :
    (∀ stat, mapGet k g.keys = some stat →
      1 ≤ max 1 (roundMinutes (unix r.statsNow - unix stat.firstGetTime))
      ∧ (10 ≤ Int.tdiv (stat.remoteCnt + 1)
            (max 1 (roundMinutes (unix r.statsNow - unix stat.firstGetTime))) →
          (∃ keys1, g.updateKeyStats k v r
              = (g.hotCache.add k v r).map (fun h => { g with hotCache := h, keys := keys1 })
            ∧ mapGet k keys1 = none
            ∧ ∀ k1, k1 ≠ k → mapGet k1 keys1 = mapGet k1 g.keys)
          ∧ ((∀ l, g.hotCache.lru = some l → l.WF) →
              (g.hotCache.lru = none → g.hotCache.cacheBytes = 0 ∨
                (k.utf8ByteSize : Int) + (v.b.length : Int) ≤ g.hotCache.cacheBytes) →
              (∀ l, g.hotCache.lru = some l → l.maxBytes = 0 ∨
                (l.AddEntry k v g.hotCache.ttl r.jitter r.addNow).nbytes ≤ l.maxBytes) →
              ∃ keys1 l1 e, g.updateKeyStats k v r
                  = some { g with hotCache := ⟨some l1, g.hotCache.cacheBytes, g.hotCache.ttl⟩,
                                  keys := keys1 }
                ∧ mapGet k l1.cache = some e ∧ e ∈ l1.ll
                ∧ e.Value.key = k ∧ e.Value.value = v
                ∧ mapGet k keys1 = none
                ∧ ∀ k1, k1 ≠ k → mapGet k1 keys1 = mapGet k1 g.keys))
      ∧ (Int.tdiv (stat.remoteCnt + 1)
            (max 1 (roundMinutes (unix r.statsNow - unix stat.firstGetTime))) < 10 →
          ∃ keys1, g.updateKeyStats k v r = some { g with keys := keys1 }
            ∧ mapGet k keys1 = some ⟨stat.firstGetTime, stat.remoteCnt + 1⟩
            ∧ ∀ k1, k1 ≠ k → mapGet k1 keys1 = mapGet k1 g.keys))
    ∧ (mapGet k g.keys = none →
        ∃ keys1, g.updateKeyStats k v r = some { g with keys := keys1 }
          ∧ mapGet k keys1 = some ⟨r.statsNow, 1⟩
          ∧ ∀ k1, k1 ≠ k → mapGet k1 keys1 = mapGet k1 g.keys)
    ∧ (∀ d : Int,
        (0 ≤ d → 60 * roundMinutes d - 30 ≤ d ∧ d < 60 * roundMinutes d + 30)
        ∧ (d < 0 → 60 * roundMinutes d - 30 < d ∧ d ≤ 60 * roundMinutes d + 30)) := by
  refine ⟨?_, ?_, roundMinutes_spec⟩
  · intro stat hstat
    refine ⟨le_max_left _ _, ?_, ?_⟩
    · intro hq
      have hupd : ∃ keys1, g.updateKeyStats k v r
            = (g.hotCache.add k v r).map (fun h => { g with hotCache := h, keys := keys1 })
          ∧ mapGet k keys1 = none
          ∧ ∀ k1, k1 ≠ k → mapGet k1 keys1 = mapGet k1 g.keys := by
        refine ⟨mapDelete k (g.keys.map (fun p =>
            if p.1 = k then (p.1, { p.2 with remoteCnt := stat.remoteCnt + 1 }) else p)), ?_,
          mapGet_mapDelete_self _ _, ?_⟩
        · simp only [Group.updateKeyStats, hstat, defaultMaxMinuteRemoteQPS, ge_iff_le, if_pos hq,
            Group.populateHotCache, Option.map_map]
          rfl
        · intro k1 hk1
          rw [mapGet_mapDelete_ne hk1]
          exact (mapGet_bump k k1 (fun s => { s with remoteCnt := stat.remoteCnt + 1 })
            g.keys).trans (if_neg hk1)
      obtain ⟨keys1, hupd, hnone, hothers⟩ := hupd
      refine ⟨⟨keys1, hupd, hnone, hothers⟩, ?_⟩
      intro hwf hroom0 hroom1
      obtain ⟨l1, e, hadd, h1, h2, h3, h4⟩ := cache_add_fits g.hotCache k v r hwf hroom0 hroom1
      refine ⟨keys1, l1, e, ?_, h1, h2, h3, h4, hnone, hothers⟩
      rw [hupd, hadd]
      rfl
    · intro hq
      refine ⟨g.keys.map (fun p =>
          if p.1 = k then (p.1, { p.2 with remoteCnt := stat.remoteCnt + 1 }) else p), ?_, ?_, ?_⟩
      · simp only [Group.updateKeyStats, hstat, defaultMaxMinuteRemoteQPS, ge_iff_le,
          if_neg (not_le.mpr hq)]
      · refine (mapGet_bump k k (fun s => { s with remoteCnt := stat.remoteCnt + 1 })
          g.keys).trans ?_
        rw [if_pos rfl, hstat]
        rfl
      · intro k1 hk1
        exact (mapGet_bump k k1 (fun s => { s with remoteCnt := stat.remoteCnt + 1 }) g.keys).trans
          (if_neg hk1)
  · intro hnone
    refine ⟨mapSet k ⟨r.statsNow, 1⟩ g.keys, ?_, mapGet_mapSet_self _ _ _, ?_⟩
    · simp only [Group.updateKeyStats, hnone]
    · intro k1 hk1
      exact mapGet_mapSet_ne hk1 _ _

/-- Claim C19, amended. For every group made by `NewGroup(name, cacheBytes, getter)` with
`cacheBytes > 0`: the byte bound of the main tier is `cacheBytes`, that of the hot tier is
`cacheBytes / 8`, and these are the bounds of the stores the tiers make on their first `add`; when
`cacheBytes ≥ 8` the bound of the hot tier is positive and less than `cacheBytes`. -/
theorem C19_tier_bounds_of_a_new_group (name : String) (cacheBytes : Int)
    (getter : String → Except String (List UInt8)) (hpos : 0 < cacheBytes) :
    (NewGroup name cacheBytes getter).mainCache.cacheBytes = cacheBytes
    ∧ (NewGroup name cacheBytes getter).hotCache.cacheBytes = cacheBytes / 8
    ∧ (∀ key value r c1, (NewGroup name cacheBytes getter).mainCache.add key value r = some c1 →
        ∃ l, c1.lru = some l ∧ l.maxBytes = cacheBytes)
    ∧ (∀ key value r c1, (NewGroup name cacheBytes getter).hotCache.add key value r = some c1 →
        ∃ l, c1.lru = some l ∧ l.maxBytes = cacheBytes / 8)
    ∧ (8 ≤ cacheBytes →
        0 < (NewGroup name cacheBytes getter).hotCache.cacheBytes
        ∧ (NewGroup name cacheBytes getter).hotCache.cacheBytes < cacheBytes) := by
  have hdiv : Int.tdiv cacheBytes defaultHotCacheRatio = cacheBytes / 8 := by
    unfold defaultHotCacheRatio
    rw [Int.tdiv_eq_ediv (le_of_lt hpos) (by decide)]
  have hstore : ∀ (c : cache) key value r c1, c.lru = none → c.add key value r = some c1 →
      ∃ l, c1.lru = some l ∧ l.maxBytes = c.cacheBytes := by
    intro c key value r c1 hnil hadd
    simp only [cache.add, hnil, Option.map_eq_some'] at hadd
    obtain ⟨l, h1, h2⟩ := hadd
    refine ⟨l, by rw [← h2], ?_⟩
    have := evictLoop_maxBytes h1
    rw [AddEntry_maxBytes] at this
    exact this
  refine ⟨rfl, hdiv, ?_, ?_, ?_⟩
  · intro key value r c1 h
    exact hstore _ key value r c1 rfl h
  · intro key value r c1 h
    obtain ⟨l, h1, h2⟩ := hstore _ key value r c1 rfl h
    exact ⟨l, h1, by rw [h2]; exact hdiv⟩
  · intro h8
    show 0 < Int.tdiv cacheBytes defaultHotCacheRatio ∧ Int.tdiv cacheBytes defaultHotCacheRatio < cacheBytes
    rw [hdiv]
    omega

end geecache

namespace geecache
open lru

/-- A sequence of calls of `getFromPeer` in two parts. -/
theorem getFromPeerSeq_append (peer : PeerGetter) (key : String) (rs1 rs2 : List Readings) :
    ∀ g : Group, g.getFromPeerSeq peer key (rs1 ++ rs2)
      = (g.getFromPeerSeq peer key rs1).bind (fun g1 => g1.getFromPeerSeq peer key rs2) := by
  induction rs1 with
  | nil => intro g; rfl
  | cons r rs ih =>
    intro g
    simp only [List.cons_append, Group.getFromPeerSeq]
    split
    · exact ih _
    · rfl

/-- Within sixty seconds of the first-seen time, before or after it, the divisor of
`updateKeyStats` is `1`. -/
theorem divisor_within_a_minute (f now : Time) (h1 : f - 60 * Second ≤ now)
    (h2 : now ≤ f + 60 * Second) : max 1 (roundMinutes (unix now - unix f)) = 1 := by
  unfold Time at *
  have h3 : -60 ≤ unix now - unix f ∧ unix now - unix f ≤ 60 := by
    unfold unix Second at *
    omega
  have h4 : roundMinutes (unix now - unix f) ≤ 1 := by
    unfold roundMinutes
    split <;> omega
  exact max_eq_left h4

/-- The first successful `getFromPeer` for a key creates its stats entry. -/
theorem getFromPeer_first (g : Group) (peer : PeerGetter) (k : String) (v : List UInt8)
    (r : Readings) (hpeer : peer.Get g.name k = .ok v) (hnone : mapGet k g.keys = none) :
    g.getFromPeer peer k r
      = some ({ g with peerCalls := g.peerCalls ++ [k],
                       keys := mapSet k ⟨r.statsNow, 1⟩ g.keys }, ⟨v⟩, none) := by
  simp only [Group.getFromPeer, hpeer, Group.updateKeyStats, hnone, Option.map_some']

/-- A successful `getFromPeer` within a minute of the first one, below the threshold, counts
the call and leaves the hot tier as it is. -/
theorem getFromPeer_count (g : Group) (peer : PeerGetter) (k : String) (v : List UInt8)
    (r : Readings) (f : Time) (c : Int) (hpeer : peer.Get g.name k = .ok v)
    (hstat : mapGet k g.keys = some ⟨f, c⟩) (hc : 0 ≤ c ∧ c + 1 < 10)
    (h1 : f - 60 * Second ≤ r.statsNow) (h2 : r.statsNow ≤ f + 60 * Second) :
    ∃ keys1, g.getFromPeer peer k r
        = some ({ g with peerCalls := g.peerCalls ++ [k], keys := keys1 }, ⟨v⟩, none)
      ∧ mapGet k keys1 = some ⟨f, c + 1⟩ := by
  have hq : ¬ defaultMaxMinuteRemoteQPS ≤
      Int.tdiv (c + 1) (max 1 (roundMinutes (unix r.statsNow - unix f))) := by
    rw [divisor_within_a_minute f r.statsNow h1 h2, Int.tdiv_one]
    unfold defaultMaxMinuteRemoteQPS
    omega
  refine ⟨g.keys.map (fun p => if p.1 = k then (p.1, { p.2 with remoteCnt := c + 1 }) else p),
    ?_, ?_⟩
  · simp only [Group.getFromPeer, hpeer, Group.updateKeyStats, hstat, ge_iff_le, if_neg hq,
      Option.map_some']
  · refine (mapGet_bump k k (fun s => { s with remoteCnt := c + 1 }) g.keys).trans ?_
    rw [if_pos rfl, hstat]
    rfl

/-- The tenth successful `getFromPeer` within a minute of the first one adds the value to the
hot tier and deletes the stats entry. -/
theorem getFromPeer_promote (g : Group) (peer : PeerGetter) (k : String) (v : List UInt8)
    (r : Readings) (f : Time) (hpeer : peer.Get g.name k = .ok v)
    (hstat : mapGet k g.keys = some ⟨f, 9⟩)
    (h1 : f - 60 * Second ≤ r.statsNow) (h2 : r.statsNow ≤ f + 60 * Second) :
    ∃ keys1, g.getFromPeer peer k r
        = (g.hotCache.add k ⟨v⟩ r).map (fun h =>
            ({ g with peerCalls := g.peerCalls ++ [k], hotCache := h, keys := keys1 }, ⟨v⟩, none))
      ∧ mapGet k keys1 = none := by
  have hq : defaultMaxMinuteRemoteQPS ≤
      Int.tdiv ((9 : Int) + 1) (max 1 (roundMinutes (unix r.statsNow - unix f))) := by
    rw [divisor_within_a_minute f r.statsNow h1 h2, Int.tdiv_one]
    unfold defaultMaxMinuteRemoteQPS
    omega
  refine ⟨mapDelete k (g.keys.map (fun p =>
      if p.1 = k then (p.1, { p.2 with remoteCnt := (9 : Int) + 1 }) else p)), ?_,
    mapGet_mapDelete_self _ _⟩
  simp only [Group.getFromPeer, hpeer, Group.updateKeyStats, hstat, ge_iff_le, if_pos hq,
    Group.populateHotCache, Option.map_map]
  rfl

/-- Calls of `getFromPeer` below the threshold, all within a minute of the first-seen time `f`
of the stats entry: each call is counted, and only `keys` and the record of the peer calls
change. -/
theorem getFromPeerSeq_counts (peer : PeerGetter) (k : String) (v : List UInt8) (f : Time) :
    ∀ (rs : List Readings) (g : Group) (c : Int), peer.Get g.name k = .ok v →
      mapGet k g.keys = some ⟨f, c⟩ → 0 ≤ c → c + rs.length < 10 →
      (∀ r ∈ rs, f - 60 * Second ≤ r.statsNow ∧ r.statsNow ≤ f + 60 * Second) →
      ∃ g1, g.getFromPeerSeq peer k rs = some g1 ∧ g1.name = g.name ∧ g1.getter = g.getter
        ∧ g1.mainCache = g.mainCache ∧ g1.hotCache = g.hotCache ∧ g1.peers = g.peers
        ∧ g1.getterCalls = g.getterCalls
        ∧ g1.peerCalls = g.peerCalls ++ List.replicate rs.length k
        ∧ mapGet k g1.keys = some ⟨f, c + rs.length⟩ := by
  intro rs
  induction rs with
  | nil =>
    intro g c _ hstat _ _ _
    exact ⟨g, rfl, rfl, rfl, rfl, rfl, rfl, rfl, by simp, by simpa using hstat⟩
  | cons r rs ih =>
    intro g c hpeer hstat hc hlen hwin
    have hr := hwin r (List.mem_cons_self _ _)
    have hlen1 : c + 1 + (rs.length : Int) < 10 := by
      have : ((r :: rs).length : Int) = rs.length + 1 := by simp
      omega
    obtain ⟨keys1, hstep, hk1⟩ := getFromPeer_count g peer k v r f c hpeer hstat
      ⟨hc, by omega⟩ hr.1 hr.2
    obtain ⟨g1, h1, h2, h3, h4, h5, h6, h7, h8, h9⟩ :=
      ih { g with peerCalls := g.peerCalls ++ [k], keys := keys1 } (c + 1) hpeer hk1
        (by omega) hlen1 (fun x hx => hwin x (List.mem_cons_of_mem _ hx))
    refine ⟨g1, ?_, h2, h3, h4, h5, h6, h7, ?_, ?_⟩
    · simp only [Group.getFromPeerSeq, hstep]
      exact h1
    · rw [h8]
      simp [List.replicate_succ]
    · rw [h9]
      congr 2
      have : ((r :: rs).length : Int) = rs.length + 1 := by simp
      omega

/-- The first calls of `getFromPeer` for a key without a stats entry, fewer than ten and all
within a minute of the first: the hot tier is as before and the stats entry holds the first
reading and the number of calls. -/
theorem getFromPeerSeq_below_threshold (g : Group) (peer : PeerGetter) (k : String)
    (v : List UInt8) (r0 : Readings) (rs : List Readings)
    (hpeer : peer.Get g.name k = .ok v) (hstat : mapGet k g.keys = none)
    (hlen : rs.length < 9)
    (hwin : ∀ r ∈ rs, r0.statsNow - 60 * Second ≤ r.statsNow ∧ r.statsNow ≤ r0.statsNow + 60 * Second) :
    ∃ g1, g.getFromPeerSeq peer k (r0 :: rs) = some g1 ∧ g1.name = g.name
      ∧ g1.getter = g.getter ∧ g1.mainCache = g.mainCache ∧ g1.hotCache = g.hotCache
      ∧ g1.peers = g.peers ∧ g1.getterCalls = g.getterCalls
      ∧ g1.peerCalls = g.peerCalls ++ List.replicate (rs.length + 1) k
      ∧ mapGet k g1.keys = some ⟨r0.statsNow, (rs.length : Int) + 1⟩ := by
  have hfirst := getFromPeer_first g peer k v r0 hpeer hstat
  obtain ⟨g1, h1, h2, h3, h4, h5, h6, h7, h8, h9⟩ :=
    getFromPeerSeq_counts peer k v r0.statsNow rs
      { g with peerCalls := g.peerCalls ++ [k], keys := mapSet k ⟨r0.statsNow, 1⟩ g.keys } 1
      hpeer (mapGet_mapSet_self _ _ _) (by decide) (by omega) hwin
  refine ⟨g1, ?_, h2, h3, h4, h5, h6, h7, ?_, ?_⟩
  · simp only [Group.getFromPeerSeq, hfirst]
    exact h1
  · rw [h8]
    simp [List.replicate_succ]
  · rw [h9]
    congr 2
    omega

/-- Ten calls of `getFromPeer` for a key without a stats entry, all within a minute of the
first, when the key is absent from the hot tier and the entry fits it: the tenth call adds the
value to the hot tier, with the expiry computed by that call, and deletes the stats entry. -/
theorem getFromPeerSeq_tenth_promotes (g : Group) (peer : PeerGetter) (k : String)
    (v : List UInt8) (r0 : Readings) (rs : List Readings) (r9 : Readings)
    (hpeer : peer.Get g.name k = .ok v) (hstat : mapGet k g.keys = none)
    (hhot : ∀ l, g.hotCache.lru = some l → mapGet k l.cache = none)
    (hroom0 : g.hotCache.lru = none → g.hotCache.cacheBytes = 0 ∨
      (k.utf8ByteSize : Int) + (v.length : Int) ≤ g.hotCache.cacheBytes)
    (hroom1 : ∀ l, g.hotCache.lru = some l → l.maxBytes = 0 ∨
      l.nbytes + ((k.utf8ByteSize : Int) + (v.length : Int)) ≤ l.maxBytes)
    (hlen : rs.length = 8)
    (hwin : ∀ r ∈ rs ++ [r9], r0.statsNow - 60 * Second ≤ r.statsNow ∧ r.statsNow ≤ r0.statsNow + 60 * Second) :
    ∃ g1 l1 e, g.getFromPeerSeq peer k (r0 :: (rs ++ [r9])) = some g1 ∧ g1.name = g.name
      ∧ g1.getter = g.getter ∧ g1.mainCache = g.mainCache ∧ g1.peers = g.peers
      ∧ g1.getterCalls = g.getterCalls
      ∧ g1.peerCalls = g.peerCalls ++ List.replicate 10 k
      ∧ mapGet k g1.keys = none
      ∧ g1.hotCache.lru = some l1 ∧ mapGet k l1.cache = some e ∧ e ∈ l1.ll
      ∧ e.Value = ⟨k, ⟨v⟩, expireTime r9.addNow g.hotCache.ttl r9.jitter⟩ := by
  obtain ⟨g9, h1, h2, h3, h4, h5, h6, h7, h8, h9⟩ :=
    getFromPeerSeq_below_threshold g peer k v r0 rs hpeer hstat (by omega)
      (fun r hr => hwin r (List.mem_append_left _ hr))
  have hw9 := hwin r9 (List.mem_append_right _ (List.mem_singleton_self _))
  have h9a : mapGet k g9.keys = some ⟨r0.statsNow, 9⟩ := by
    rw [h9, hlen]
    rfl
  obtain ⟨keys1, hstep, hk1⟩ := getFromPeer_promote g9 peer k v r9 r0.statsNow
    (by rw [h2]; exact hpeer) h9a hw9.1 hw9.2
  obtain ⟨l1, e, hadd, he1, he2, he3⟩ := cache_add_absent_fits g.hotCache k ⟨v⟩ r9 hhot hroom0 hroom1
  rw [h5, hadd] at hstep
  refine ⟨{ g9 with peerCalls := g9.peerCalls ++ [k],
                      hotCache := ⟨some l1, g.hotCache.cacheBytes, g.hotCache.ttl⟩,
                      keys := keys1 }, l1, e, ?_, ?_, ?_, ?_, ?_, ?_, ?_, hk1, rfl, he1, he2, he3⟩
  · rw [← List.cons_append, getFromPeerSeq_append, h1]
    simp only [Option.some_bind, Group.getFromPeerSeq, hstep, Option.map_some']
  · exact h2
  · exact h3
  · exact h4
  · exact h6
  · exact h7
  · show g9.peerCalls ++ [k] = _
    rw [h8, hlen, List.append_assoc]
    rfl

/-- A `Group.Get` of a non-empty key that the hot tier holds and that has not expired at the
reading of the hot tier: the stored value, and no call of a peer or of the getter. -/
theorem Get_hot_hit (g : Group) (k : String) (r : Readings) (l : Cache ByteView)
    (e : Element ByteView) (hk : k ≠ "") (hl : g.hotCache.lru = some l)
    (he : mapGet k l.cache = some e) (hlive : ¬ e.Value.expire < r.hotNow) :
    g.Get k r = some ({ g with hotCache := { g.hotCache with
      lru := some { l with ll := MoveToFront l.ll e } } }, e.Value.value, none) := by
  simp only [Group.Get, hk, if_false, cache.get, hl, Get_hit he hlive]

/-- A `Group.Get` of a non-empty key whose hot-tier entry has expired, that the main tier does
not index and has no stats entry, when the picker yields a peer that answers: the peer is
asked, and its answer is returned. -/
theorem Get_hot_expired_asks_peer (g : Group) (k : String) (r : Readings) (l : Cache ByteView)
    (e : Element ByteView) (pick : String → Option PeerGetter) (peer : PeerGetter)
    (v : List UInt8) (hk : k ≠ "") (hl : g.hotCache.lru = some l)
    (he : mapGet k l.cache = some e) (hdead : e.Value.expire < r.hotNow)
    (hmain : ∀ l, g.mainCache.lru = some l → mapGet k l.cache = none)
    (hpeers : g.peers = some pick) (hpick : pick k = some peer)
    (hpeer : peer.Get g.name k = .ok v) (hstat : mapGet k g.keys = none) :
    ∃ g1, g.Get k r = some (g1, ⟨v⟩, none) ∧ g1.peerCalls = g.peerCalls ++ [k]
      ∧ g1.hotCache.lru = some (l.RemoveElement e) := by
  refine ⟨{ g with hotCache := { g.hotCache with lru := some (l.RemoveElement e) },
                     peerCalls := g.peerCalls ++ [k],
                     keys := mapSet k ⟨r.statsNow, 1⟩ g.keys }, ?_, rfl, rfl⟩
  · simp only [Group.Get, hk, if_false, cache.get, hl, Get_expired he hdead,
      cache_get_absent g.mainCache k r.mainNow hmain, Group.load, singleflightDo, Group.loadFn,
      hpeers, hpick, Group.getFromPeer, hpeer, Group.updateKeyStats, hstat, Option.map_some',
      if_true]
    have hm := cache_get_absent g.mainCache k r.mainNow hmain
    simp only [cache.get] at hm
    rw [hm]

/-- Claim C12, amended. For a group and a key `k` with no stats entry and absent from the hot
tier, a peer that returns `v`, and an entry `(k, v)` that fits the hot tier: over ten successive
calls of `getFromPeer` for `k`, all within sixty seconds of the first, after each of the first
nine calls the hot tier is as before, without `k`, and the stats entry holds the first reading
and the number of calls; the tenth call adds `v` under `k` to the hot tier, with the expiry
computed by that call, and deletes the stats entry. A following `Group.Get(k)`, for non-empty `k`
and made no later than that expiry, returns `v` with a nil error from the hot tier: no peer and
no getter is called, and the main tier and the stats are untouched. -/
theorem C12_tenth_peer_call_promotes_and_get_before_expiry_hits_hot (g : Group)
    (peer : PeerGetter) (k : String) (v : List UInt8) (r0 : Readings) (rs : List Readings)
    (r9 : Readings)
    (hpeer : peer.Get g.name k = .ok v) (hstat : mapGet k g.keys = none)
    (hhot : ∀ l, g.hotCache.lru = some l → mapGet k l.cache = none)
    (hroom0 : g.hotCache.lru = none → g.hotCache.cacheBytes = 0 ∨
      (k.utf8ByteSize : Int) + (v.length : Int) ≤ g.hotCache.cacheBytes)
    (hroom1 : ∀ l, g.hotCache.lru = some l → l.maxBytes = 0 ∨
      l.nbytes + ((k.utf8ByteSize : Int) + (v.length : Int)) ≤ l.maxBytes)
    (hlen : rs.length = 8)
    (hwin : ∀ r ∈ rs ++ [r9],
      r0.statsNow - 60 * Second ≤ r.statsNow ∧ r.statsNow ≤ r0.statsNow + 60 * Second) :
    (∀ n, n ≤ 8 → ∃ g1, g.getFromPeerSeq peer k (r0 :: rs.take n) = some g1
        ∧ g1.hotCache = g.hotCache
        ∧ (∀ l, g1.hotCache.lru = some l → mapGet k l.cache = none)
        ∧ mapGet k g1.keys = some ⟨r0.statsNow, (n : Int) + 1⟩)
    ∧ ∃ g1 l1 e, g.getFromPeerSeq peer k (r0 :: (rs ++ [r9])) = some g1
        ∧ g1.hotCache.lru = some l1 ∧ mapGet k l1.cache = some e ∧ e ∈ l1.ll
        ∧ e.Value = ⟨k, ⟨v⟩, expireTime r9.addNow g.hotCache.ttl r9.jitter⟩
        ∧ mapGet k g1.keys = none
        ∧ (∀ r : Readings, k ≠ "" →
            ¬ expireTime r9.addNow g.hotCache.ttl r9.jitter < r.hotNow →
            ∃ g2, g1.Get k r = some (g2, ⟨v⟩, none) ∧ g2.peerCalls = g1.peerCalls
              ∧ g2.getterCalls = g1.getterCalls ∧ g2.mainCache = g1.mainCache
              ∧ g2.keys = g1.keys) := by
  constructor
  · intro n hn
    have hl : (rs.take n).length = n := by
      rw [List.length_take, hlen]
      omega
    obtain ⟨g1, h1, _, _, _, h5, _, _, _, h9⟩ :=
      getFromPeerSeq_below_threshold g peer k v r0 (rs.take n) hpeer hstat (by omega)
        (fun r hr => hwin r (List.mem_append_left _ (List.mem_of_mem_take hr)))
    rw [hl] at h9
    exact ⟨g1, h1, h5, by rw [h5]; exact hhot, h9⟩
  · obtain ⟨g1, l1, e, h1, _, _, _, _, _, _, h8, h9, h10, h11, h12⟩ :=
      getFromPeerSeq_tenth_promotes g peer k v r0 rs r9 hpeer hstat hhot hroom0 hroom1 hlen hwin
    refine ⟨g1, l1, e, h1, h9, h10, h11, h12, h8, ?_⟩
    intro r hk hlive
    have hlive1 : ¬ e.Value.expire < r.hotNow := by
      rw [h12]
      exact hlive
    have hv : e.Value.value = ⟨v⟩ := by rw [h12]
    have hget := Get_hot_hit g1 k r l1 e hk h9 h10 hlive1
    rw [hv] at hget
    exact ⟨_, hget, rfl, rfl, rfl, rfl⟩

/-- Counterexample to C12 as stated. In the group of `main.go` with a peer that answers `[118]`,
ten calls of `getFromPeer` for `"k"` at instant `0` with jitter draw `0` put `"k"` into the hot
tier with expiry `0`; the next `Group.Get("k")`, one nanosecond later, finds the entry expired
and asks the peer an eleventh time. And after ten such calls for the empty key, which put it into
the hot tier, `Group.Get("")` returns the error `"key is required"`. -/
theorem C12_counterexample_next_get_is_late_or_key_is_empty :
    (∃ g1 l1 e g2,
      peerGroup.getFromPeerSeq okPeer "k" (List.replicate 10 (readingsAt 0 0 0 0)) = some g1
      ∧ g1.hotCache.lru = some l1 ∧ mapGet "k" l1.cache = some e
      ∧ e.Value = ⟨"k", ⟨[118]⟩, 0⟩ ∧ mapGet "k" g1.keys = none
      ∧ g1.peerCalls = List.replicate 10 "k"
      ∧ g1.Get "k" (readingsAt 1 1 0 0) = some (g2, ⟨[118]⟩, none)
      ∧ g2.peerCalls = List.replicate 11 "k")
    ∧ (∃ g1 l1 e,
      peerGroup.getFromPeerSeq okPeer "" (List.replicate 10 (readingsAt 0 0 1 0)) = some g1
      ∧ g1.hotCache.lru = some l1 ∧ mapGet "" l1.cache = some e
      ∧ e.Value = ⟨"", ⟨[118]⟩, 1000000000⟩
      ∧ g1.Get "" (readingsAt 0 0 1 0) = some (g1, ⟨[]⟩, some "key is required")) := by
  constructor
  · obtain ⟨g1, l1, e, h1, h2, _, h4, h5, _, h7, h8, h9, h10, _, h12⟩ :=
      getFromPeerSeq_tenth_promotes peerGroup okPeer "k" [118] (readingsAt 0 0 0 0)
        (List.replicate 8 (readingsAt 0 0 0 0)) (readingsAt 0 0 0 0) (by rfl) (by rfl)
        (by intro l h; cases h) (by intro _; exact Or.inr (by decide)) (by intro l h; cases h)
        (by rfl) (by
          intro r hr
          have hr1 : r = readingsAt 0 0 0 0 := by
            rcases List.mem_append.mp hr with h | h
            · exact List.eq_of_mem_replicate h
            · exact List.mem_singleton.mp h
          rw [hr1]
          exact ⟨by decide, by decide⟩)
    have h12a : e.Value = ⟨"k", ⟨[118]⟩, 0⟩ := h12.trans (by rfl)
    obtain ⟨g2, h13, h14, _⟩ :=
      Get_hot_expired_asks_peer g1 "k" (readingsAt 1 1 0 0) l1 e (fun _ => some okPeer) okPeer
        [118] (by decide) h9 h10 (by rw [h12a]; decide) (by rw [h4]; intro l h; cases h)
        (by rw [h5]; rfl) rfl (by rfl) h8
    refine ⟨g1, l1, e, g2, h1, h9, h10, h12a, h8, h7, h13, ?_⟩
    rw [h14, h7]
    rfl
  · obtain ⟨g1, l1, e, h1, _, _, _, _, _, _, _, h9, h10, _, h12⟩ :=
      getFromPeerSeq_tenth_promotes peerGroup okPeer "" [118] (readingsAt 0 0 1 0)
        (List.replicate 8 (readingsAt 0 0 1 0)) (readingsAt 0 0 1 0) (by rfl) (by rfl)
        (by intro l h; cases h) (by intro _; exact Or.inr (by decide)) (by intro l h; cases h)
        (by rfl) (by
          intro r hr
          have hr1 : r = readingsAt 0 0 1 0 := by
            rcases List.mem_append.mp hr with h | h
            · exact List.eq_of_mem_replicate h
            · exact List.mem_singleton.mp h
          rw [hr1]
          exact ⟨by decide, by decide⟩)
    exact ⟨g1, l1, e, h1, h9, h10, h12.trans (by rfl), by simp only [Group.Get, if_true]⟩

/-- Witness of C12: the group of `main.go` with a peer that answers `[118]`, ten calls for `"k"`
at instant `0` with jitter draw `1`. -/
theorem C12_witness :
    (∀ n, n ≤ 8 → ∃ g1, peerGroup.getFromPeerSeq okPeer "k"
          (readingsAt 0 0 1 0 :: (List.replicate 8 (readingsAt 0 0 1 0)).take n) = some g1
        ∧ g1.hotCache = peerGroup.hotCache
        ∧ (∀ l, g1.hotCache.lru = some l → mapGet "k" l.cache = none)
        ∧ mapGet "k" g1.keys = some ⟨(readingsAt 0 0 1 0).statsNow, (n : Int) + 1⟩)
    ∧ ∃ g1 l1 e, peerGroup.getFromPeerSeq okPeer "k"
          (readingsAt 0 0 1 0 :: (List.replicate 8 (readingsAt 0 0 1 0) ++ [readingsAt 0 0 1 0]))
          = some g1
        ∧ g1.hotCache.lru = some l1 ∧ mapGet "k" l1.cache = some e ∧ e ∈ l1.ll
        ∧ e.Value = ⟨"k", ⟨[118]⟩, expireTime (readingsAt 0 0 1 0).addNow peerGroup.hotCache.ttl
            (readingsAt 0 0 1 0).jitter⟩
        ∧ mapGet "k" g1.keys = none
        ∧ (∀ r : Readings, "k" ≠ "" →
            ¬ expireTime (readingsAt 0 0 1 0).addNow peerGroup.hotCache.ttl
                (readingsAt 0 0 1 0).jitter < r.hotNow →
            ∃ g2, g1.Get "k" r = some (g2, ⟨[118]⟩, none) ∧ g2.peerCalls = g1.peerCalls
              ∧ g2.getterCalls = g1.getterCalls ∧ g2.mainCache = g1.mainCache
              ∧ g2.keys = g1.keys) :=
  C12_tenth_peer_call_promotes_and_get_before_expiry_hits_hot peerGroup okPeer "k" [118]
    (readingsAt 0 0 1 0) (List.replicate 8 (readingsAt 0 0 1 0)) (readingsAt 0 0 1 0)
    (by rfl) (by rfl) (by intro l h; cases h) (by intro _; exact Or.inr (by decide))
    (by intro l h; cases h) (by rfl) (by
      intro r hr
      have hr1 : r = readingsAt 0 0 1 0 := by
        rcases List.mem_append.mp hr with h | h
        · exact List.eq_of_mem_replicate h
        · exact List.mem_singleton.mp h
      rw [hr1]
      exact ⟨by decide, by decide⟩)

end geecache

namespace lru

/-- Witness of C13: the store of `TestAdd`. -/
theorem C13_witness :
    (∀ k e, mapGet k testAddStore.cache = some e →
        e ∈ testAddStore.ll ∧ e.Value.key = k
        ∧ testAddStore.ll.filter (fun x => decide (x.Value.key = k)) = [e])
    ∧ (∀ e ∈ testAddStore.ll, mapGet e.Value.key testAddStore.cache = some e)
    ∧ (testAddStore.ll.map (fun e => e.Value.key)).Nodup
    ∧ (testAddStore.cache.map Prod.fst).Nodup
    ∧ testAddStore.Len = testAddStore.cache.length :=
  C13_index_and_list_correspond 0 false 60 testAddOps testAddStore (by rfl)

/-- Witness of C14: the store of `TestOnEvicted` after its first `Add`, whose entry has expired
at the reading `100s`. -/
theorem C14_witness :
    (∃ x ∈ (storeKey1 0).ll, x.Value.expire < 100 * Second)
    ∧ ((storeKey1 0).RemoveOldest (fun _ => 100 * Second)).ll = []
    ∧ ((storeKey1 0).RemoveOldest (fun _ => 100 * Second)).evicted = [("key1", "123456")]
    ∧ (((∃ x ∈ (storeKey1 0).ll, x.Value.expire < 100 * Second) →
      ∃ front e back, (storeKey1 0).ll = front ++ e :: back ∧ e.Value.expire < 100 * Second
        ∧ (∀ x ∈ back, ¬ x.Value.expire < 100 * Second)
        ∧ ((storeKey1 0).RemoveOldest (fun _ => 100 * Second)).ll = front ++ back
        ∧ mapGet e.Value.key ((storeKey1 0).RemoveOldest (fun _ => 100 * Second)).cache = none
        ∧ (∀ k, k ≠ e.Value.key →
            mapGet k ((storeKey1 0).RemoveOldest (fun _ => 100 * Second)).cache
              = mapGet k (storeKey1 0).cache)
        ∧ ((storeKey1 0).RemoveOldest (fun _ => 100 * Second)).nbytes
            = (storeKey1 0).nbytes
              - ((e.Value.key.utf8ByteSize : Int) + (Value.Len e.Value.value : Int))
        ∧ ((storeKey1 0).RemoveOldest (fun _ => 100 * Second)).evicted
            = (storeKey1 0).evicted
              ++ (if (storeKey1 0).OnEvicted then [(e.Value.key, e.Value.value)] else [])
        ∧ ((storeKey1 0).RemoveOldest (fun _ => 100 * Second)).Len + 1 = (storeKey1 0).Len)
    ∧ ((∀ x ∈ (storeKey1 0).ll, ¬ x.Value.expire < 100 * Second) →
        (storeKey1 0).RemoveOldest (fun _ => 100 * Second) = storeKey1 0)) :=
  ⟨⟨⟨0, ⟨"key1", "123456", expireTime 0 30 0⟩⟩, by decide, by decide⟩, by rfl, by rfl,
    C14_RemoveOldest_removes_expired_entry_nearest_back (WF_storeKey1 0) (100 * Second)⟩

/-- Witness of C18: the store holding `"k"` with expiry `10s`, read at `11s` and at `10s`. -/
theorem C18_witness :
    ((storeK10.Get "k" (11 * Second)).2 = none
      ∧ (storeK10.Get "k" (11 * Second)).1.ll = []
      ∧ (storeK10.Get "k" (11 * Second)).1.nbytes = 0)
    ∧ ((storeK10.Get "k" (10 * Second)).2 = some "v"
      ∧ (storeK10.Get "k" (10 * Second)).1.ll = storeK10.ll) :=
  have h1 := (C18_get_of_expired_key_evicts_it WF_storeK10 "k" "v" (10 * Second) (11 * Second)
    ⟨0, ⟨"k", "v", 10 * Second⟩⟩ (by rfl) (by rfl) (by rfl)).2.1 (by decide)
  have h2 := (C18_get_of_expired_key_evicts_it WF_storeK10 "k" "v" (10 * Second) (10 * Second)
    ⟨0, ⟨"k", "v", 10 * Second⟩⟩ (by rfl) (by rfl) (by rfl)).2.2 (by decide)
  ⟨⟨h1.1, h1.2.1 [] [] (by rfl), by rw [h1.2.2.2.2.2.1]; rfl⟩, h2.1, by rfl⟩

/-- The store `storeAK` is what its two calls of `Add` make, and satisfies the invariant. -/
theorem WF_storeAK : storeAK.WF :=
  WF_run (WF_New 10 false 0)
    (show (New 10 false 0 : Cache String).run
        [Op.add "a" "1" 0 0 0 (fun _ _ => 0) 0, Op.add "k" "1" 30 59 100 (fun _ _ => 100) 0]
      = some storeAK by rfl)

/-- Witness of C20: the store `storeAK`, whose list is `"k"`, `"a"`; `Get("a")` at instant `0`
hits and moves `"a"` to the front, and `Get("b")` changes nothing. -/
theorem C20_witness :
    mapGet "a" storeAK.cache = some ⟨0, ⟨"a", "1", 0⟩⟩
    ∧ (storeAK.Get "a" 0).2 = some "1"
    ∧ (storeAK.Get "a" 0).1.ll
        = [⟨0, ⟨"a", "1", 0⟩⟩, ⟨1, ⟨"k", "1", expireTime 100 30 59⟩⟩]
    ∧ (storeAK.Get "a" 0).1.cache = storeAK.cache
    ∧ (storeAK.Get "a" 0).1.nbytes = storeAK.nbytes
    ∧ (storeAK.Get "a" 0).1.Len = storeAK.Len
    ∧ storeAK.Get "b" 0 = (storeAK, none) :=
  have h := C20_get_hit_moves_to_front_and_miss_changes_nothing WF_storeAK "a" 0
  have h1 := h.1 ⟨0, ⟨"a", "1", 0⟩⟩ (by rfl) (by decide)
  ⟨by rfl, h1.1, h1.2.2.1 [⟨1, ⟨"k", "1", expireTime 100 30 59⟩⟩] [] (by rfl), h1.2.2.2.1,
    h1.2.2.2.2.1, h1.2.2.2.2.2.1,
    (C20_get_hit_moves_to_front_and_miss_changes_nothing WF_storeAK "b" 0).2 (by rfl)⟩

end lru

namespace geecache
open lru

/-- Witness of C11: the group of `main.go` and the key `"kkk"`, which the table `db` does not
hold. -/
theorem C11_witness :
    ∃ g1 g2, (NewGroup "scores" 2048 dbGetter).Get "kkk" (readingsAt 0 0 0 0)
        = some (g1, ⟨[]⟩, some "kkk not exist")
      ∧ g1.mainCache = (NewGroup "scores" 2048 dbGetter).mainCache
      ∧ g1.hotCache = (NewGroup "scores" 2048 dbGetter).hotCache
      ∧ g1.keys = (NewGroup "scores" 2048 dbGetter).keys
      ∧ g1.getterCalls = (NewGroup "scores" 2048 dbGetter).getterCalls ++ ["kkk"]
      ∧ g1.peerCalls = (NewGroup "scores" 2048 dbGetter).peerCalls
      ∧ g1.Get "kkk" (readingsAt 1 1 0 0) = some (g2, ⟨[]⟩, some "kkk not exist")
      ∧ g2.getterCalls = (NewGroup "scores" 2048 dbGetter).getterCalls ++ ["kkk"] ++ ["kkk"] :=
  C11_loader_error_is_returned_and_nothing_is_cached (NewGroup "scores" 2048 dbGetter) "kkk"
    "kkk not exist" (readingsAt 0 0 0 0) (readingsAt 1 1 0 0) (by decide) (Or.inl rfl)
    (by intro l h; cases h) (by intro l h; cases h) (by rfl)

/-- Counterexample to C19 as stated: `NewGroup("scores", 7, getter)` has `cacheBytes = 7 > 0`,
and the bound of its hot tier is `7 / 8 = 0`, which is not positive: the store that the hot tier
makes has `maxBytes = 0`, no bound at all, and takes an entry of `9` bytes, more than the main
tier may hold. -/
theorem C19_counterexample_hot_tier_unbounded_below_eight_bytes :
    (0 : Int) < 7
    ∧ (NewGroup "scores" 7 dbGetter).hotCache.cacheBytes = 0
    ∧ ¬ (0 < (NewGroup "scores" 7 dbGetter).hotCache.cacheBytes)
    ∧ (((NewGroup "scores" 7 dbGetter).hotCache.add "k" ⟨[1, 2, 3, 4, 5, 6, 7, 8]⟩
          (readingsAt 0 0 0 0)).map
        (fun c => c.lru.map (fun l => (l.maxBytes, l.nbytes, l.Len))))
      = some (some (0, 9, 1)) :=
  ⟨by decide, by rfl, by decide, by rfl⟩

/-- Witness of C19: the group of `main.go`, with `cacheBytes = 2048`. -/
theorem C19_witness :
    (NewGroup "scores" 2048 dbGetter).mainCache.cacheBytes = 2048
    ∧ (NewGroup "scores" 2048 dbGetter).hotCache.cacheBytes = 2048 / 8
    ∧ (∀ key value r c1, (NewGroup "scores" 2048 dbGetter).mainCache.add key value r = some c1 →
        ∃ l, c1.lru = some l ∧ l.maxBytes = 2048)
    ∧ (∀ key value r c1, (NewGroup "scores" 2048 dbGetter).hotCache.add key value r = some c1 →
        ∃ l, c1.lru = some l ∧ l.maxBytes = 2048 / 8)
    ∧ ((8 : Int) ≤ 2048 →
        0 < (NewGroup "scores" 2048 dbGetter).hotCache.cacheBytes
        ∧ (NewGroup "scores" 2048 dbGetter).hotCache.cacheBytes < 2048) :=
  C19_tier_bounds_of_a_new_group "scores" 2048 dbGetter (by decide)

end geecache

namespace geecache
open lru

/-- Witness of C15: the group of `main.go`; `Get("")` is rejected, and the error of
`Get("kkk")` is the one of the getter. -/
theorem C15_witness :
    (NewGroup "scores" 2048 dbGetter).Get "" (readingsAt 0 0 0 0)
      = some (NewGroup "scores" 2048 dbGetter, ⟨[]⟩, some "key is required")
    ∧ (NewGroup "scores" 2048 dbGetter).Get "kkk" (readingsAt 0 0 0 0)
      = some ({ NewGroup "scores" 2048 dbGetter with getterCalls := ["kkk"] }, ⟨[]⟩,
          some "kkk not exist")
    ∧ (NewGroup "scores" 2048 dbGetter).getter "kkk" = .error "kkk not exist"
    ∧ ({ NewGroup "scores" 2048 dbGetter with getterCalls := ["kkk"] } : Group).getterCalls
      = (NewGroup "scores" 2048 dbGetter).getterCalls ++ ["kkk"] :=
  have h := C15_only_the_empty_key_is_rejected (NewGroup "scores" 2048 dbGetter)
    (readingsAt 0 0 0 0)
  ⟨h.1, by rfl,
    h.2 "kkk" { NewGroup "scores" 2048 dbGetter with getterCalls := ["kkk"] } ⟨[]⟩
      "kkk not exist" (by decide) (by rfl)⟩

/-- Counterexample to C17 as stated: in `NewGroup("scores", 8, getter)` the hot tier is bounded by
`1` byte, and the stats entry of `"k"` holds first-seen time `0` and count `9`. `updateKeyStats`
at instant `0` with the two-byte entry `("k", [118])` and jitter draw `0` has quotient `10` and
calls `add` on the hot tier; the loop of `lru.Add`, reading the clock one nanosecond later, evicts
the entry, which has expired. The call returns with the stats entry deleted and nothing in the hot
tier. -/
theorem C17_counterexample_promoted_value_does_not_fit_hot_tier :
    mapGet "k" tinyHotGroup.keys = some ⟨0, 9⟩
    ∧ tinyHotGroup.hotCache.cacheBytes = 1
    ∧ 10 ≤ Int.tdiv ((9 : Int) + 1) (max 1 (roundMinutes (unix 0 - unix 0)))
    ∧ (tinyHotGroup.updateKeyStats "k" ⟨[118]⟩ (readingsAt 0 1 0 1)).map
        (fun g1 => (g1.hotCache.lru.map (fun l => (mapGet "k" l.cache, l.ll, l.nbytes)),
          mapGet "k" g1.keys))
      = some (some (none, [], 0), none) :=
  ⟨by rfl, by rfl, by decide, by rfl⟩

/-- Witness of C17: the stats entry of `"k"` holds first-seen time `0` and count `9`, and the
hot tier, bounded by `256` bytes, has no store yet. A call at `59s` has divisor `1` and quotient
`10`: the value is in the hot tier afterwards and the entry is deleted. A call at `90s` has divisor
`round(1.5) = 2` and quotient `5`: the entry is kept with count `10`. -/
theorem C17_witness :
    (∃ keys1 l1 e, countedGroup.updateKeyStats "k" ⟨[118]⟩ (readingsAt (59 * Second) 0 1 0)
        = some { countedGroup with
            hotCache := ⟨some l1, countedGroup.hotCache.cacheBytes, countedGroup.hotCache.ttl⟩,
            keys := keys1 }
      ∧ mapGet "k" l1.cache = some e ∧ e ∈ l1.ll
      ∧ e.Value.key = "k" ∧ e.Value.value = ⟨[118]⟩
      ∧ mapGet "k" keys1 = none
      ∧ ∀ k1, k1 ≠ "k" → mapGet k1 keys1 = mapGet k1 countedGroup.keys)
    ∧ (∃ keys1, countedGroup.updateKeyStats "k" ⟨[118]⟩ (readingsAt (90 * Second) 0 1 0)
        = some { countedGroup with keys := keys1 }
      ∧ mapGet "k" keys1 = some ⟨0, 9 + 1⟩
      ∧ ∀ k1, k1 ≠ "k" → mapGet k1 keys1 = mapGet k1 countedGroup.keys)
    ∧ roundMinutes 90 = 2 ∧ roundMinutes (-90) = -2 ∧ max 1 (roundMinutes (-90)) = 1 :=
  ⟨(((C17_updateKeyStats_promotes_at_ten_per_minute countedGroup "k" ⟨[118]⟩
      (readingsAt (59 * Second) 0 1 0)).1 ⟨0, 9⟩ (by rfl)).2.1 (by decide)).2
      (by intro l h; cases h) (by intro _; exact Or.inr (by decide)) (by intro l h; cases h),
    ((C17_updateKeyStats_promotes_at_ten_per_minute countedGroup "k" ⟨[118]⟩
      (readingsAt (90 * Second) 0 1 0)).1 ⟨0, 9⟩ (by rfl)).2.2 (by decide),
    by decide, by decide, by decide⟩

end geecache
